import Mathlib

/-!
# minerva-toolkit: the sign-and-time harnesses

A shallow embedding of the four `time_sign_*` programs
(`src/components/{gnutls,openssl,libgcrypt,nss}`).  Every program opens an input
stream and two output streams, loads a private key, and then signs the input
block by block, writing one 8-byte tick delta and one signature per block.

Everything outside the programs (the operating system, the heap, the cycle
counter and the cryptographic library) is an explicit argument: `Sys` for the
system calls and one `Backend` structure per library.  A run is a pure function
from these arguments to a `Result`: the exit, the two output files and the
chronological trace of the calls the program made.
-/

namespace Minerva

/-- One byte of a file or buffer. -/
abbrev Byte := Nat

/-- The resources a harness can hold. -/
inductive Res
  | in_fd
  | out_fd
  | time_fd
  | fp
  | key_buf
  | data
  | sig_init
  | sig_out (i : Nat)
  | privkey
  | pkey
  | mdctx
  | curve
  | d
  | baseline_str
  | out_r (i : Nat)
  | out_s (i : Nat)
  | nss_db
  | slot
  | privKeyList
  | sig_datum (i : Nat)
  | data_sexp (i : Nat)
  | sig_sexp (i : Nat)
  | sig_item (i : Nat)
  deriving DecidableEq, Repr

/-- Library operations that appear in the traces. -/
inductive Call
  | gnutls_privkey_init
  | gnutls_privkey_import_x509_raw
  | gnutls_privkey_sign_data2
  | gnutls_privkey_deinit
  | PEM_read_PrivateKey
  | EVP_MD_CTX_create
  | EVP_DigestSignInit
  | EVP_PKEY_CTX_set_params
  | EVP_DigestSignUpdate
  | EVP_DigestSignFinal
  | read_private_key
  | read_param
  | gcry_sexp_build
  | gcry_pk_sign
  | get_signature_from_expression
  | NSS_Init
  | PK11_GetInternalKeySlot
  | PK11_ListPrivateKeysInSlot
  | SEC_SignData
  deriving DecidableEq, Repr

/-- The diagnostics written to stderr. -/
inductive Msg
  | cant_open_input
  | cant_open_output
  | cant_open_time
  | cant_open_key
  | cant_malloc_data
  | cant_init_key
  | cant_read_key
  | cant_malloc_sig
  | cant_create_mdctx
  | cant_open_database
  | cant_get_slot
  | read_less_data
  | sign_failed (c : Call)
  | write_error_times
  | write_error_signatures
  | signature_not_obtained
  | finished
  | failed
  deriving DecidableEq, Repr

/-- What a run does, in program order. -/
inductive Event
  | acquire (r : Res)
  | release (r : Res)
  | read (r_ret : Int)
  | get_time_before
  | get_time_after
  | backend (c : Call)
  | write_time (r_ret : Int)
  | write_sig (r_ret : Int)
  | fprintf (m : Msg)
  deriving DecidableEq, Repr

/-- The value of a pointer or descriptor variable: `null` is `NULL` (or `-1` for a
descriptor), `indeterminate` is a variable that was declared without an
initialiser and never assigned. -/
inductive Ptr
  | null
  | to (r : Res)
  | indeterminate
  deriving DecidableEq, Repr

/-- How control leaves a piece of the program: it runs on (`ok`), jumps to the
`err` label, calls `abort()`, or does something the C language leaves
undefined. -/
inductive Flow
  | ok
  | err
  | abort
  | undefined
  deriving DecidableEq, Repr

/-- How the process ends. -/
inductive Exit
  | returned (result : Int)
  | aborted
  | undefined
  deriving DecidableEq, Repr

/-- One `read(in_fd, data, data_size)`: either `-1`, or the bytes it stored. -/
inductive ReadOutcome
  | error
  | data (bytes : List Byte)
  deriving DecidableEq, Repr

/-- The value `read` returns.  The count is taken to fit the `int` it is stored
in (one `read` transfers at most `0x7ffff000` bytes). -/
def ReadOutcome.r_ret : ReadOutcome → Int
  | .error => -1
  | .data bytes => bytes.length

/-- The content of the `data` buffer after the read. -/
def ReadOutcome.bytes : ReadOutcome → List Byte
  | .error => []
  | .data bytes => bytes

/-- The system as the harness sees it.  `reads` are the results of the successive
`read` calls on the input; after the last one `read` returns `0`.  The timer and
the writes are indexed by the iteration of the loop; `write_time i n` is what
`write` returns when asked for `n` bytes. -/
structure Sys where
  big_endian : Bool
  open_in : Bool
  open_out : Bool
  open_time : Bool
  malloc : Res → Bool
  reads : List ReadOutcome
  time_before : Nat → Nat
  time_after : Nat → Nat
  write_time : Nat → Nat → Int
  write_sig : Nat → Nat → Int

/-- State of a run: the local variables `V` of `main`, the bytes written so far
through `out_fd` and `time_fd`, the trace, and whether undefined behaviour has
occurred. -/
structure St (V : Type) where
  vars : V
  out_written : List Byte := []
  time_written : List Byte := []
  trace : List Event := []
  ub : Bool := false

/-- What is left after the process has ended.  A file is `none` when the run did
not create it. -/
structure Result where
  exit : Exit
  out_file : Option (List Byte)
  time_file : Option (List Byte)
  trace : List Event
  deriving DecidableEq, Repr

namespace St

variable {V : Type}

/-- Append an event to the trace. -/
def log (st : St V) (e : Event) : St V :=
  { st with trace := st.trace ++ [e] }

/-- Assign local variables. -/
def set (st : St V) (f : V → V) : St V :=
  { st with vars := f st.vars }

/-- The call `write(time_fd, buf, n)` returned `r_ret`: when positive, that many
bytes of `buf` are now in the file. -/
def write_time (st : St V) (buf : List Byte) (r_ret : Int) : St V :=
  { st with
    time_written := st.time_written ++ buf.take r_ret.toNat
    trace := st.trace ++ [.write_time r_ret] }

/-- The call `write(out_fd, buf, n)` returned `r_ret`. -/
def write_sig (st : St V) (buf : List Byte) (r_ret : Int) : St V :=
  { st with
    out_written := st.out_written ++ buf.take r_ret.toNat
    trace := st.trace ++ [.write_sig r_ret] }

/-- The guarded release `if (p) free(p)` (or `close`, `fclose`, ...). Testing an
indeterminate variable is undefined. -/
def release (st : St V) : Ptr → St V
  | .null => st
  | .to r => st.log (.release r)
  | .indeterminate => { st with ub := true }

/-- The process is gone without reaching the label `out:` (after `abort()`, or
once its behaviour is undefined). -/
def halt (st : St V) (exit : Exit) (out_fd time_fd : Ptr) : Result :=
  { exit := exit
    out_file := if out_fd = .null then none else some st.out_written
    time_file := if time_fd = .null then none else some st.time_written
    trace := st.trace }

/-- The `return result` at the end of `main`. -/
def ret (st : St V) (result : Int) (out_fd time_fd : Ptr) : Result :=
  st.halt (if st.ub then .undefined else .returned result) out_fd time_fd

end St

/-- Object representation of a `uint64_t`, as `write(time_fd, &time_diff, 8)`
sends it. -/
def uint64_bytes (big_endian : Bool) (x : Nat) : List Byte :=
  let le := (List.range 8).map fun k => x / 256 ^ k % 256
  if big_endian then le.reverse else le

/-- The subtraction `time_after - time_before` on `uint64_t`. -/
def uint64_sub (a b : Nat) : Nat :=
  (a % 2 ^ 64 + 2 ^ 64 - b % 2 ^ 64) % 2 ^ 64

/-- The loop `while ((r_ret = read(in_fd, data, data_size)) > 0)` with its
truncation check, shared by the four programs; `body i data st` is the rest of
iteration `i`. -/
def harness_loop {V : Type} (body : Nat → List Byte → St V → Flow × St V)
    (data_size : Nat) : List ReadOutcome → Nat → St V → Flow × St V
  | [], _, st => (.ok, st.log (.read 0))
  | r :: rest, i, st =>
    let r_ret := r.r_ret
    let st := st.log (.read r_ret)
    if r_ret > 0 then
      if r_ret ≠ (data_size : Int) then
        (.err, st.log (.fprintf .read_less_data))
      else
        match body i r.bytes st with
        | (.ok, st) => harness_loop body data_size rest (i + 1) st
        | stop => stop
    else
      (.ok, st)

/-- The tail of the loop body that all four programs share: compute the delta,
write it, write the signature. -/
def write_records {V : Type} (sys : Sys) (i : Nat) (time_before time_after : Nat)
    (sig : List Byte) (sig_len : Nat) (st : St V) : Flow × St V :=
  let time_diff := uint64_sub time_after time_before
  let r_ret := sys.write_time i 8
  let st := st.write_time (uint64_bytes sys.big_endian time_diff) r_ret
  if r_ret ≤ 0 then
    (.err, st.log (.fprintf .write_error_times))
  else
    let r_ret := sys.write_sig i sig_len
    let st := st.write_sig (sig.take sig_len) r_ret
    if r_ret ≤ 0 then
      (.err, st.log (.fprintf .write_error_signatures))
    else
      (.ok, st)

/-! ## GnuTLS (`src/components/gnutls/time_sign_gnutls.c`) -/

namespace Gnutls

/-- The key file and the GnuTLS calls.  `key_file` is the content of the key
file (`none` when it cannot be opened); `privkey_sign_data2 i data` is the return
value and the `sig_datum` of the call in iteration `i`. -/
structure Backend where
  key_file : Option (List Byte)
  privkey_init : Int
  privkey_import_x509_raw : List Byte → Int
  privkey_sign_data2 : Nat → List Byte → Int × List Byte

/-- Local variables of `main`. -/
structure Vars where
  in_fd : Ptr := .null
  out_fd : Ptr := .null
  time_fd : Ptr := .null
  data : Ptr := .null
  sig : Ptr := .null
  privkey_datum : Ptr := .null
  privkey : Ptr := .indeterminate

/-- The function `readfile`: the whole file in a fresh buffer, or `NULL`.  Its
own `fp` is closed on both paths. -/
def readfile (sys : Sys) (be : Backend) (st : St Vars) : Option (List Byte) × St Vars :=
  match be.key_file with
  | none => (none, st)
  | some content =>
    let st := st.log (.acquire .fp)
    if !sys.malloc .key_buf then
      (none, st.log (.release .fp))
    else
      let st := st.log (.acquire .key_buf)
      (some content, st.log (.release .fp))

/-- The code of `main` from the first `open` up to the loop. -/
def init (sys : Sys) (be : Backend) : Flow × St Vars :=
  let st : St Vars := { vars := {} }
  if !sys.open_in then (.err, st.log (.fprintf .cant_open_input)) else
  let st := (st.set fun v => { v with in_fd := .to .in_fd }).log (.acquire .in_fd)
  if !sys.open_out then (.err, st.log (.fprintf .cant_open_output)) else
  let st := (st.set fun v => { v with out_fd := .to .out_fd }).log (.acquire .out_fd)
  if !sys.open_time then (.err, st.log (.fprintf .cant_open_time)) else
  let st := (st.set fun v => { v with time_fd := .to .time_fd }).log (.acquire .time_fd)
  match readfile sys be st with
  | (none, st) => (.err, st.log (.fprintf .cant_open_key))
  | (some privkey_datum, st) =>
  let st := st.set fun v => { v with privkey_datum := .to .key_buf }
  if !sys.malloc .data then (.err, st.log (.fprintf .cant_malloc_data)) else
  let st := (st.set fun v => { v with data := .to .data }).log (.acquire .data)
  let ret := be.privkey_init
  let st := st.log (.backend .gnutls_privkey_init)
  if ret < 0 then
    (.err, (st.set fun v => { v with privkey := .null }).log (.fprintf .cant_init_key))
  else
  let st := (st.set fun v => { v with privkey := .to .privkey }).log (.acquire .privkey)
  let ret := be.privkey_import_x509_raw privkey_datum
  let st := st.log (.backend .gnutls_privkey_import_x509_raw)
  if ret < 0 then (.err, st.log (.fprintf .cant_read_key)) else
  if !sys.malloc .sig_init then (.err, st.log (.fprintf .cant_malloc_sig)) else
  let st := (st.set fun v => { v with sig := .to .sig_init }).log (.acquire .sig_init)
  (.ok, st)

/-- One iteration of the loop after the truncation check. -/
def iteration (sys : Sys) (be : Backend) (i : Nat) (data : List Byte) (st : St Vars) :
    Flow × St Vars :=
  let time_before := sys.time_before i
  let st := st.log .get_time_before
  let (ret, sig_datum) := be.privkey_sign_data2 i data
  let st := st.log (.backend .gnutls_privkey_sign_data2)
  if ret < 0 then
    (.err, st.log (.fprintf (.sign_failed .gnutls_privkey_sign_data2)))
  else
    let st := st.log (.acquire (.sig_datum i))
    let time_after := sys.time_after i
    let st := st.log .get_time_after
    write_records sys i time_before time_after sig_datum sig_datum.length st

/-- The code from the label `out:` to the end of `main`. -/
def out (result : Int) (st : St Vars) : Result :=
  let st := st.release st.vars.data
  let st := st.release st.vars.sig
  let st := st.release st.vars.in_fd
  let st := st.release st.vars.out_fd
  let st := st.release st.vars.time_fd
  let st :=
    if st.vars.privkey_datum ≠ .null then
      (st.log (.backend .gnutls_privkey_deinit)).release st.vars.privkey
    else st
  st.ret result st.vars.out_fd st.vars.time_fd

/-- Where `main` goes once INIT or the loop is over: `result = 0` and `out:`,
or the label `err:`. -/
def finish : Flow × St Vars → Result
  | (.ok, st) => out 0 (st.log (.fprintf .finished))
  | (.err, st) => out 1 (st.log (.fprintf .failed))
  | (.abort, st) => st.halt .aborted st.vars.out_fd st.vars.time_fd
  | (.undefined, st) => st.halt .undefined st.vars.out_fd st.vars.time_fd

/-- The function `main`, from the first `open` on. -/
def main (sys : Sys) (be : Backend) (data_size : Nat) : Result :=
  match init sys be with
  | (.ok, st) => finish (harness_loop (iteration sys be) data_size sys.reads 0 st)
  | stop => finish stop

end Gnutls

/-- A loaded private key, as an abstract handle. -/
abbrev Key := Nat

/-! ## OpenSSL, deterministic nonce
(`src/components/openssl/time_sign_openssl_determinist.c`) -/

namespace Openssl

/-- The key file and the OpenSSL calls.  The three set-up calls of an iteration
return a status each; `DigestSignFinal key data`, made with the nonce type set
to deterministic, is a function of the key and the block: its status and the
signature it stores. -/
structure Backend where
  key_file : Option (List Byte)
  PEM_read_PrivateKey : List Byte → Option Key
  MD_CTX_create : Bool
  DigestSignInit : Nat → Int
  PKEY_CTX_set_params : Nat → Int
  DigestSignUpdate : Nat → Int
  DigestSignFinal : Key → List Byte → Int × List Byte

/-- Local variables of `main`; `fp` has no initialiser. -/
structure Vars where
  fp : Ptr := .indeterminate
  in_fd : Ptr := .null
  out_fd : Ptr := .null
  time_fd : Ptr := .null
  data : Ptr := .null
  sig : Ptr := .null
  pkey : Ptr := .null
  mdctx : Ptr := .null
  key : Key := 0

/-- The code of `main` from the first `open` up to the loop. -/
def init (sys : Sys) (be : Backend) : Flow × St Vars :=
  let st : St Vars := { vars := {} }
  if !sys.open_in then (.err, st.log (.fprintf .cant_open_input)) else
  let st := (st.set fun v => { v with in_fd := .to .in_fd }).log (.acquire .in_fd)
  if !sys.open_out then (.err, st.log (.fprintf .cant_open_output)) else
  let st := (st.set fun v => { v with out_fd := .to .out_fd }).log (.acquire .out_fd)
  if !sys.open_time then (.err, st.log (.fprintf .cant_open_time)) else
  let st := (st.set fun v => { v with time_fd := .to .time_fd }).log (.acquire .time_fd)
  match be.key_file with
  | none => (.err, (st.set fun v => { v with fp := .null }).log (.fprintf .cant_open_key))
  | some content =>
  let st := (st.set fun v => { v with fp := .to .fp }).log (.acquire .fp)
  if !sys.malloc .data then (.err, st.log (.fprintf .cant_malloc_data)) else
  let st := (st.set fun v => { v with data := .to .data }).log (.acquire .data)
  let st := st.log (.backend .PEM_read_PrivateKey)
  match be.PEM_read_PrivateKey content with
  | none => (.err, st.log (.fprintf .cant_read_key))
  | some key =>
  let st := (st.set fun v => { v with pkey := .to .pkey, key := key }).log (.acquire .pkey)
  if !sys.malloc .sig_init then (.err, st.log (.fprintf .cant_malloc_sig)) else
  let st := (st.set fun v => { v with sig := .to .sig_init }).log (.acquire .sig_init)
  let st := st.log (.backend .EVP_MD_CTX_create)
  if !be.MD_CTX_create then (.err, st.log (.fprintf .cant_create_mdctx)) else
  let st := (st.set fun v => { v with mdctx := .to .mdctx }).log (.acquire .mdctx)
  (.ok, st)

/-- One iteration of the loop after the truncation check; `pkey` is the key
loaded in INIT. -/
def iteration (sys : Sys) (be : Backend) (pkey : Key) (i : Nat) (data : List Byte)
    (st : St Vars) : Flow × St Vars :=
  let st := st.log (.backend .EVP_DigestSignInit)
  if be.DigestSignInit i = 0 then
    (.err, st.log (.fprintf (.sign_failed .EVP_DigestSignInit)))
  else
  let st := st.log (.backend .EVP_PKEY_CTX_set_params)
  if be.PKEY_CTX_set_params i = 0 then
    (.err, st.log (.fprintf (.sign_failed .EVP_PKEY_CTX_set_params)))
  else
  let st := st.log (.backend .EVP_DigestSignUpdate)
  if be.DigestSignUpdate i = 0 then
    (.err, st.log (.fprintf (.sign_failed .EVP_DigestSignUpdate)))
  else
  let time_before := sys.time_before i
  let st := st.log .get_time_before
  let (r_ret, sig) := be.DigestSignFinal pkey data
  let st := st.log (.backend .EVP_DigestSignFinal)
  if r_ret = 0 then
    (.err, st.log (.fprintf (.sign_failed .EVP_DigestSignFinal)))
  else
    let time_after := sys.time_after i
    let st := st.log .get_time_after
    write_records sys i time_before time_after sig sig.length st

/-- The code from the label `out:` to the end of `main`. -/
def out (result : Int) (st : St Vars) : Result :=
  let st := st.release st.vars.data
  let st := st.release st.vars.sig
  let st := st.release st.vars.in_fd
  let st := st.release st.vars.out_fd
  let st := st.release st.vars.time_fd
  let st := st.release st.vars.fp
  let st := st.release st.vars.pkey
  let st := st.release st.vars.mdctx
  st.ret result st.vars.out_fd st.vars.time_fd

/-- Where `main` goes once INIT or the loop is over. -/
def finish : Flow × St Vars → Result
  | (.ok, st) => out 0 (st.log (.fprintf .finished))
  | (.err, st) => out 1 (st.log (.fprintf .failed))
  | (.abort, st) => st.halt .aborted st.vars.out_fd st.vars.time_fd
  | (.undefined, st) => st.halt .undefined st.vars.out_fd st.vars.time_fd

/-- The function `main`, from the first `open` on. -/
def main (sys : Sys) (be : Backend) (data_size : Nat) : Result :=
  match init sys be with
  | (.ok, st) =>
    finish (harness_loop (iteration sys be st.vars.key) data_size sys.reads 0 st)
  | stop => finish stop

end Openssl

/-! ## NSS (`src/components/nss/time_sign_nss.c`) -/

namespace Nss

/-- The NSS calls.  `ListPrivateKeysInSlot` is `none` for a `NULL` list, else the
`key` fields of its nodes (`none` for a `NULL` key); `SignData i key data` is the
signature item of the call in iteration `i`, `none` when the call does not
return `SECSuccess`. -/
structure Backend where
  Init : Bool
  GetInternalKeySlot : Bool
  ListPrivateKeysInSlot : Option (List (Option Key))
  SignData : Nat → Key → List Byte → Option (List Byte)

/-- Local variables of `main`. -/
structure Vars where
  in_fd : Ptr := .null
  out_fd : Ptr := .null
  time_fd : Ptr := .null
  data_buf : Ptr := .null
  sig_buf : Ptr := .null
  slot : Ptr := .null
  privKeyList : Ptr := .null
  privKey : Key := 0

/-- The code of `main` from the first `open` up to the loop.  The list that
`PK11_ListPrivateKeysInSlot` returns is dereferenced unchecked, and its head is
read as a node even when the list is empty. -/
def init (sys : Sys) (be : Backend) : Flow × St Vars :=
  let st : St Vars := { vars := {} }
  if !sys.open_in then (.err, st.log (.fprintf .cant_open_input)) else
  let st := (st.set fun v => { v with in_fd := .to .in_fd }).log (.acquire .in_fd)
  if !sys.open_out then (.err, st.log (.fprintf .cant_open_output)) else
  let st := (st.set fun v => { v with out_fd := .to .out_fd }).log (.acquire .out_fd)
  if !sys.open_time then (.err, st.log (.fprintf .cant_open_time)) else
  let st := (st.set fun v => { v with time_fd := .to .time_fd }).log (.acquire .time_fd)
  if !sys.malloc .data then (.err, st.log (.fprintf .cant_malloc_data)) else
  let st := (st.set fun v => { v with data_buf := .to .data }).log (.acquire .data)
  let st := st.log (.backend .NSS_Init)
  if !be.Init then (.err, st.log (.fprintf .cant_open_database)) else
  let st := st.log (.acquire .nss_db)
  let st := st.log (.backend .PK11_GetInternalKeySlot)
  if !be.GetInternalKeySlot then (.err, st.log (.fprintf .cant_get_slot)) else
  let st := (st.set fun v => { v with slot := .to .slot }).log (.acquire .slot)
  let st := st.log (.backend .PK11_ListPrivateKeysInSlot)
  match be.ListPrivateKeysInSlot with
  | none => (.undefined, st)
  | some [] => (.undefined, (st.set fun v => { v with privKeyList := .to .privKeyList }).log
      (.acquire .privKeyList))
  | some (none :: _) =>
    (.err, ((st.set fun v => { v with privKeyList := .to .privKeyList }).log
      (.acquire .privKeyList)).log (.fprintf .cant_read_key))
  | some (some privKey :: _) =>
    (.ok, (st.set fun v => { v with privKeyList := .to .privKeyList, privKey := privKey }).log
      (.acquire .privKeyList))

/-- One iteration of the loop after the truncation check. -/
def iteration (sys : Sys) (be : Backend) (privKey : Key) (i : Nat) (data : List Byte)
    (st : St Vars) : Flow × St Vars :=
  let time_before := sys.time_before i
  let st := st.log .get_time_before
  let st := st.log (.backend .SEC_SignData)
  match be.SignData i privKey data with
  | none => (.err, st.log (.fprintf (.sign_failed .SEC_SignData)))
  | some sig =>
    let st := st.log (.acquire (.sig_item i))
    let time_after := sys.time_after i
    let st := st.log .get_time_after
    write_records sys i time_before time_after sig sig.length st

/-- The code from the label `out:` to the end of `main`. -/
def out (result : Int) (st : St Vars) : Result :=
  let st := st.release st.vars.in_fd
  let st := st.release st.vars.out_fd
  let st := st.release st.vars.time_fd
  let st := st.release st.vars.data_buf
  let st := st.release st.vars.sig_buf
  let st := st.release st.vars.slot
  let st := st.release st.vars.privKeyList
  st.ret result st.vars.out_fd st.vars.time_fd

/-- Where `main` goes once INIT or the loop is over. -/
def finish : Flow × St Vars → Result
  | (.ok, st) => out 0 (st.log (.fprintf .finished))
  | (.err, st) => out 1 (st.log (.fprintf .failed))
  | (.abort, st) => st.halt .aborted st.vars.out_fd st.vars.time_fd
  | (.undefined, st) => st.halt .undefined st.vars.out_fd st.vars.time_fd

/-- The function `main`, from the first `open` on. -/
def main (sys : Sys) (be : Backend) (data_size : Nat) : Result :=
  match init sys be with
  | (.ok, st) =>
    finish (harness_loop (iteration sys be st.vars.privKey) data_size sys.reads 0 st)
  | stop => finish stop

end Nss

/-! ## libgcrypt (`src/components/libgcrypt/time_sign_libgcrypt.c`) -/

namespace Libgcrypt

/-- Result of a helper that may call `abort()` or leave defined behaviour. -/
inductive Outcome (α : Type)
  | ok (a : α)
  | abort
  | undefined
  deriving DecidableEq, Repr

/-- The `enum READ_PARAM_MODE`. -/
inductive READ_PARAM_MODE
  | READ_STRING
  | READ_HEX
  deriving DecidableEq, Repr

/-- The value of the enumerator: `READ_STRING = 1`, `READ_HEX = 2`. -/
def READ_PARAM_MODE.val : READ_PARAM_MODE → Nat
  | .READ_STRING => 1
  | .READ_HEX => 2

/-- What the program looks up below the token `ecdsa`: the data of `r` and of
`s`, `none` for a token that is not there. -/
structure Ecdsa where
  r : Option (List Byte)
  s : Option (List Byte)
  deriving DecidableEq, Repr

/-- The structured signature that `gcry_pk_sign` stores, as far as the program
inspects it: the list under `sig-val` (if any) and, in it, the list under
`ecdsa` (if any). -/
structure Sexp where
  sig_val : Option (Option Ecdsa)
  deriving DecidableEq, Repr

/-- The key description and the libgcrypt calls.  `key_file` is the text of the
key file, one `Char` per byte (`none` when it cannot be opened);
`sexp_build_key curve d` and `sexp_build_data i data` are the two
`gcry_sexp_build` calls (`none`, `false`: an error code is returned);
`pk_sign i key data` is the call in iteration `i` (`none`: an error code). -/
structure Backend where
  key_file : Option (List Char)
  sexp_build_key : List Byte → List Byte → Option Key
  sexp_build_data : Nat → List Byte → Bool
  pk_sign : Nat → Key → List Byte → Option Sexp

/-- The characters `fgets` stores: at most `n`, ending after the first newline. -/
def fgets_take : Nat → List Char → List Char
  | 0, _ => []
  | _ + 1, [] => []
  | n + 1, c :: cs => if c = '\n' then [c] else c :: fgets_take n cs

/-- The call `fgets(line, size, fp)` on the unread part `fp` of the stream: `none`
at end of file, else the characters stored and what is left unread.  Read errors
are not modelled. -/
def fgets (size : Nat) (fp : List Char) : Option (List Char × List Char) :=
  let line := fgets_take (size - 1) fp
  if line = [] then none else some (line, fp.drop line.length)

/-- The `do ... while` loop of `read_line`; `fuel` bounds the number of lines. -/
def read_line_loop : Nat → List Char → Outcome (Option (List Char) × List Char)
  | 0, _ => .undefined
  | fuel + 1, fp =>
    match fgets 4096 fp with
    | none => .ok (none, fp)
    | some (buf, fp) =>
      let line := buf.takeWhile (· ≠ '\x00')
      if '\n' ∉ line then .abort
      else
        let line := line.takeWhile (· ≠ '\n')
        if line = [] ∨ line.head? = some '#' then read_line_loop fuel fp
        else .ok (some line, fp)

/-- The function `read_line`: the next line that is neither empty nor a comment
(`none` for `NULL`), and the rest of the stream.  Every round of the loop
consumes a character, so the fuel never runs out.  The final `strdup` is taken
to succeed. -/
def read_line (fp : List Char) : Outcome (Option (List Char) × List Char) :=
  read_line_loop (fp.length + 1) fp

/-- The function `isspace` in the C locale. -/
def isspace (c : Char) : Bool :=
  c = ' ' || (9 ≤ c.toNat && c.toNat ≤ 13)

/-- Value of a hexadecimal digit. -/
def hex_digit (c : Char) : Option Nat :=
  if '0' ≤ c ∧ c ≤ '9' then some (c.toNat - 48)
  else if 'a' ≤ c ∧ c ≤ 'f' then some (c.toNat - 87)
  else if 'A' ≤ c ∧ c ≤ 'F' then some (c.toNat - 55)
  else none

/-- The call `sscanf(s, "%2hhx", pos)`: white space is skipped, then at most two
characters are read, a sign or hexadecimal digits; `none` when nothing is
assigned. -/
def sscanf_2hhx (s : List Char) : Option Byte :=
  match s.dropWhile isspace with
  | [] => none
  | c1 :: rest =>
    if c1 = '+' ∨ c1 = '-' then
      match rest.head? >>= hex_digit with
      | none => none
      | some d => some (if c1 = '-' then (256 - d) % 256 else d)
    else
      match hex_digit c1 with
      | none => none
      | some d1 =>
        match rest.head? >>= hex_digit with
        | none => some d1
        | some d2 => some (16 * d1 + d2)

/-- The `READ_STRING` loop of `read_param`: one `sscanf(s, "%c", pos)` per
character. -/
def read_string : List Char → List Byte
  | [] => []
  | c :: s => c.toNat :: read_string s

/-- The `READ_HEX` loop of `read_param` over the `len`-byte buffer: `s` is what is
left of the value, `pos` the index written next.  A store at `pos >= len`, a
byte that `sscanf` leaves unassigned, and a step `s += 2` over the terminator
are outside defined behaviour. -/
def read_hex (len : Nat) : List Char → Nat → Outcome (List Byte)
  | [], _ => .ok []
  | c :: s, pos =>
    if pos ≥ len then .undefined
    else
      match sscanf_2hhx (c :: s) with
      | none => .undefined
      | some b =>
        match s with
        | [] => .undefined
        | _ :: s =>
          match read_hex len s (pos + 1) with
          | .ok bytes => .ok (b :: bytes)
          | stop => stop

/-- The function `read_param`: the buffer, its `len`, and the rest of the
stream; `malloc_ok` tells whether its `malloc` succeeds. -/
def read_param (malloc_ok : Bool) (fp : List Char) (mode : READ_PARAM_MODE)
    (expected : List Char) : Outcome ((List Byte × Nat) × List Char) :=
  match read_line fp with
  | .abort => .abort
  | .undefined => .undefined
  | .ok (none, _) => .abort
  | .ok (some line, fp) =>
    if ¬ expected.isPrefixOf line then .abort
    else if line.get? expected.length ≠ some '=' then .abort
    else
      let value := line.drop (expected.length + 1)
      let len := value.length / mode.val
      if !malloc_ok then .abort
      else
        match mode with
        | .READ_STRING => .ok ((read_string value, len), fp)
        | .READ_HEX =>
          match read_hex len value 0 with
          | .ok bytes => .ok ((bytes, len), fp)
          | .abort => .abort
          | .undefined => .undefined

/-- The function `read_private_key`: the key and the rest of the stream. -/
def read_private_key (sys : Sys) (be : Backend) (fp : List Char) :
    Outcome (Key × List Char) :=
  match read_param (sys.malloc .curve) fp .READ_STRING "curve".toList with
  | .abort => .abort
  | .undefined => .undefined
  | .ok ((curve, _), fp) =>
    match read_param (sys.malloc .d) fp .READ_HEX "d".toList with
    | .abort => .abort
    | .undefined => .undefined
    | .ok ((d, _), fp) =>
      match be.sexp_build_key curve d with
      | none => .abort
      | some key => .ok (key, fp)

/-- Conversion to `int`. -/
def to_int (x : Int) : Int :=
  (x + 2 ^ 31) % 2 ^ 32 - 2 ^ 31

/-- Conversion of an `int` to `size_t`. -/
def to_size_t (x : Int) : Nat :=
  (x % 2 ^ 64).toNat

/-- The value `strtol` returns for a number: it stays within `long`, `LONG_MIN`
or `LONG_MAX` standing for what lies outside. -/
def to_long (x : Int) : Int :=
  if x < -2 ^ 63 then -2 ^ 63 else if 2 ^ 63 - 1 < x then 2 ^ 63 - 1 else x

/-- The function `atoi` on the characters of the buffer (which the program
leaves without a terminator; what follows it is taken not to be a digit): the
`long` that `strtol` delivers, converted to `int`. -/
def atoi (s : List Char) : Int :=
  let s := s.dropWhile isspace
  let digits (t : List Char) : Int :=
    (t.takeWhile Char.isDigit).foldl (fun acc c => 10 * acc + ((c.toNat - 48 : Nat) : Int)) 0
  match s with
  | '-' :: t => to_int (to_long (- digits t))
  | '+' :: t => to_int (to_long (digits t))
  | _ => to_int (to_long (digits s))

/-- One component in `get_signature_from_expression`: the `len`-byte buffer
`out_r` (or `out_s`) after the copy of the `n` bytes at `p`.  The length of the
zero fill is `len - n` on `size_t`; a fill longer than the buffer is outside
defined behaviour. -/
def pack (len : Nat) (p : List Byte) : Outcome (List Byte) :=
  let n := p.length
  if n = len then .ok p
  else
    let fill := (len + 2 ^ 64 - n) % 2 ^ 64
    if fill > len then .undefined
    else .ok (List.replicate fill 0 ++ p)

/-- The block `if (s_tmp) { ... }` for the token `r` (or `s`) with data `tok`:
`ok none` is the jump to `leave`, `ok (some none)` a buffer pointer that stays
`NULL` because the token is missing, `ok (some (some out))` the filled buffer. -/
def component (malloc_ok : Bool) (len : Nat) (tok : Option (List Byte)) :
    Outcome (Option (Option (List Byte))) :=
  match tok with
  | none => .ok (some none)
  | some p =>
    if !malloc_ok then .ok none
    else
      match pack len p with
      | .ok out => .ok (some (some out))
      | .abort => .abort
      | .undefined => .undefined

/-- The function `get_signature_from_expression` in iteration `i`: the buffer it
returns (`none` for `NULL`).  A missing `sig-val` aborts; a missing `ecdsa`, `r`
or `s` leaves `out_r` or `out_s` at `NULL`, which the final `memcpy` reads; the
`malloc` of `sig` is not checked either. -/
def get_signature_from_expression (sys : Sys) (i : Nat) (sig_sexp : Sexp) (len : Nat) :
    Outcome (Option (List Byte)) :=
  match sig_sexp.sig_val with
  | none => .abort
  | some none => .undefined
  | some (some ecdsa) =>
    match component (sys.malloc (.out_r i)) len ecdsa.r with
    | .abort => .abort
    | .undefined => .undefined
    | .ok none => .ok none
    | .ok (some out_r) =>
      match component (sys.malloc (.out_s i)) len ecdsa.s with
      | .abort => .abort
      | .undefined => .undefined
      | .ok none => .ok none
      | .ok (some out_s) =>
        if !sys.malloc (.sig_out i) then .undefined
        else
          match out_r, out_s with
          | some out_r, some out_s => .ok (some (out_r ++ out_s))
          | _, _ => .undefined

/-- Local variables of `main`; `fp` has no initialiser. -/
structure Vars where
  fp : Ptr := .indeterminate
  in_fd : Ptr := .null
  out_fd : Ptr := .null
  time_fd : Ptr := .null
  data : Ptr := .null
  sig : Ptr := .null
  pkey : Ptr := .null
  key : Key := 0
  baseline : Int := 0

/-- The code of `main` from the first `open` up to the loop. -/
def init (sys : Sys) (be : Backend) : Flow × St Vars :=
  let st : St Vars := { vars := {} }
  if !sys.open_in then (.err, st.log (.fprintf .cant_open_input)) else
  let st := (st.set fun v => { v with in_fd := .to .in_fd }).log (.acquire .in_fd)
  if !sys.open_out then (.err, st.log (.fprintf .cant_open_output)) else
  let st := (st.set fun v => { v with out_fd := .to .out_fd }).log (.acquire .out_fd)
  if !sys.open_time then (.err, st.log (.fprintf .cant_open_time)) else
  let st := (st.set fun v => { v with time_fd := .to .time_fd }).log (.acquire .time_fd)
  match be.key_file with
  | none => (.err, (st.set fun v => { v with fp := .null }).log (.fprintf .cant_open_key))
  | some content =>
  let st := (st.set fun v => { v with fp := .to .fp }).log (.acquire .fp)
  if !sys.malloc .data then (.err, st.log (.fprintf .cant_malloc_data)) else
  let st := (st.set fun v => { v with data := .to .data }).log (.acquire .data)
  let st := st.log (.backend .read_private_key)
  match read_private_key sys be content with
  | .abort => (.abort, st)
  | .undefined => (.undefined, st)
  | .ok (key, content) =>
  let st := ((st.log (.acquire .curve)).log (.acquire .d)).log (.acquire .pkey)
  let st := st.set fun v => { v with pkey := .to .pkey, key := key }
  let st := st.log (.backend .read_param)
  match read_param (sys.malloc .baseline_str) content .READ_STRING "b".toList with
  | .abort => (.abort, st)
  | .undefined => (.undefined, st)
  | .ok ((baseline_str, _), _) =>
  let st := st.log (.acquire .baseline_str)
  let baseline := atoi (baseline_str.map Char.ofNat)
  let st := (st.set fun v => { v with baseline := baseline }).log (.release .baseline_str)
  if !sys.malloc .sig_init then (.err, st.log (.fprintf .cant_malloc_sig)) else
  let st := (st.set fun v => { v with sig := .to .sig_init }).log (.acquire .sig_init)
  (.ok, st)

/-- One iteration of the loop after the truncation check; `pkey` and `baseline`
are the values set in INIT.  The pointer `sig` is overwritten with what
`get_signature_from_expression` returns; a `NULL` there makes the `write` of the
signature fail.  When that function aborts (its only `abort()` is the one after
the message "Signature not obtained correctly"), the message is the last thing
the process does. -/
def iteration (sys : Sys) (be : Backend) (pkey : Key) (baseline : Int) (i : Nat)
    (data : List Byte) (st : St Vars) : Flow × St Vars :=
  let st := st.log (.backend .gcry_sexp_build)
  if !be.sexp_build_data i data then
    (.err, st.log (.fprintf (.sign_failed .gcry_sexp_build)))
  else
  let st := st.log (.acquire (.data_sexp i))
  let time_before := sys.time_before i
  let st := st.log .get_time_before
  let s_ret := be.pk_sign i pkey data
  let st := st.log (.backend .gcry_pk_sign)
  let time_after := sys.time_after i
  let st := st.log .get_time_after
  match s_ret with
  | none => (.err, st.log (.fprintf (.sign_failed .gcry_pk_sign)))
  | some sig_sexp =>
  let st := st.log (.acquire (.sig_sexp i))
  let st := st.log (.backend .get_signature_from_expression)
  match get_signature_from_expression sys i sig_sexp (to_size_t baseline) with
  | .abort => (.abort, st.log (.fprintf .signature_not_obtained))
  | .undefined => (.undefined, st)
  | .ok none =>
    let st := st.set fun v => { v with sig := .null }
    let time_diff := uint64_sub time_after time_before
    let r_ret := sys.write_time i 8
    let st := st.write_time (uint64_bytes sys.big_endian time_diff) r_ret
    if r_ret ≤ 0 then
      (.err, st.log (.fprintf .write_error_times))
    else
      (.err, (st.write_sig [] (-1)).log (.fprintf .write_error_signatures))
  | .ok (some sig) =>
    let st := (st.set fun v => { v with sig := .to (.sig_out i) }).log (.acquire (.sig_out i))
    write_records sys i time_before time_after sig (to_size_t (to_int (2 * baseline))) st

/-- The code from the label `out:` to the end of `main`. -/
def out (result : Int) (st : St Vars) : Result :=
  let st := st.release st.vars.data
  let st := st.release st.vars.sig
  let st := st.release st.vars.in_fd
  let st := st.release st.vars.out_fd
  let st := st.release st.vars.time_fd
  let st := st.release st.vars.fp
  let st := st.release st.vars.pkey
  st.ret result st.vars.out_fd st.vars.time_fd

/-- Where `main` goes once INIT or the loop is over. -/
def finish : Flow × St Vars → Result
  | (.ok, st) => out 0 (st.log (.fprintf .finished))
  | (.err, st) => out 1 (st.log (.fprintf .failed))
  | (.abort, st) => st.halt .aborted st.vars.out_fd st.vars.time_fd
  | (.undefined, st) => st.halt .undefined st.vars.out_fd st.vars.time_fd

/-- The function `main`, from the first `open` on. -/
def main (sys : Sys) (be : Backend) (data_size : Nat) : Result :=
  match init sys be with
  | (.ok, st) =>
    finish (harness_loop (iteration sys be st.vars.key st.vars.baseline) data_size
      sys.reads 0 st)
  | stop => finish stop

end Libgcrypt

/-! ## The four programs side by side -/

/-- The program that runs. -/
inductive Variant
  | gnutls
  | openssl
  | libgcrypt
  | nss
  deriving DecidableEq, Repr

/-- Everything a run depends on: the system and the library of each program. -/
structure World where
  sys : Sys
  gnutls : Gnutls.Backend
  openssl : Openssl.Backend
  libgcrypt : Libgcrypt.Backend
  nss : Nss.Backend

/-- The run of program `v` with block size `data_size`. -/
def run (v : Variant) (w : World) (data_size : Nat) : Result :=
  match v with
  | .gnutls => Gnutls.main w.sys w.gnutls data_size
  | .openssl => Openssl.main w.sys w.openssl data_size
  | .libgcrypt => Libgcrypt.main w.sys w.libgcrypt data_size
  | .nss => Nss.main w.sys w.nss data_size

/-- How INIT of program `v` ends; `ok` when the loop is entered. -/
def init_flow (v : Variant) (w : World) : Flow :=
  match v with
  | .gnutls => (Gnutls.init w.sys w.gnutls).1
  | .openssl => (Openssl.init w.sys w.openssl).1
  | .libgcrypt => (Libgcrypt.init w.sys w.libgcrypt).1
  | .nss => (Nss.init w.sys w.nss).1

/-- What the signing step of one iteration comes to: the signature bytes handed
to `write`, a failure that the program detects (`goto err` before anything is
written), or a fault (`abort()`, undefined behaviour, or a `NULL` signature). -/
inductive Signed
  | signature (sig : List Byte)
  | failure
  | fault
  deriving DecidableEq, Repr

/-- The signing step of the GnuTLS program in iteration `i`. -/
def Gnutls.sign (be : Gnutls.Backend) (i : Nat) (data : List Byte) : Signed :=
  if (be.privkey_sign_data2 i data).1 < 0 then .failure
  else .signature (be.privkey_sign_data2 i data).2

/-- The signing step of the OpenSSL program in iteration `i`. -/
def Openssl.sign (be : Openssl.Backend) (pkey : Key) (i : Nat) (data : List Byte) : Signed :=
  if be.DigestSignInit i = 0 ∨ be.PKEY_CTX_set_params i = 0 ∨ be.DigestSignUpdate i = 0
      ∨ (be.DigestSignFinal pkey data).1 = 0 then .failure
  else .signature (be.DigestSignFinal pkey data).2

/-- The signing step of the libgcrypt program in iteration `i`: building the
data expression, `gcry_pk_sign`, and the repacking. -/
def Libgcrypt.sign (sys : Sys) (be : Libgcrypt.Backend) (pkey : Key) (baseline : Int)
    (i : Nat) (data : List Byte) : Signed :=
  if !be.sexp_build_data i data then .failure
  else
    match be.pk_sign i pkey data with
    | none => .failure
    | some sig_sexp =>
      match Libgcrypt.get_signature_from_expression sys i sig_sexp
          (Libgcrypt.to_size_t baseline) with
      | .ok (some sig) =>
        if Libgcrypt.to_size_t (Libgcrypt.to_int (2 * baseline)) = sig.length then .signature sig
        else .fault
      | _ => .fault

/-- The signing step of the NSS program in iteration `i`. -/
def Nss.sign (be : Nss.Backend) (privKey : Key) (i : Nat) (data : List Byte) : Signed :=
  match be.SignData i privKey data with
  | none => .failure
  | some sig => .signature sig

/-- The signing step of program `v` in iteration `i` on the block `data`, with
the key (and baseline) that INIT has loaded. -/
def sign (v : Variant) (w : World) (i : Nat) (data : List Byte) : Signed :=
  match v with
  | .gnutls => Gnutls.sign w.gnutls i data
  | .openssl => Openssl.sign w.openssl (Openssl.init w.sys w.openssl).2.vars.key i data
  | .libgcrypt =>
    Libgcrypt.sign w.sys w.libgcrypt (Libgcrypt.init w.sys w.libgcrypt).2.vars.key
      (Libgcrypt.init w.sys w.libgcrypt).2.vars.baseline i data
  | .nss => Nss.sign w.nss (Nss.init w.sys w.nss).2.vars.privKey i data

/-- The signature bytes of a signing step (empty when there are none). -/
def Signed.bytes : Signed → List Byte
  | .signature sig => sig
  | _ => []

/-- The timing record of iteration `i`: the 8 bytes of `time_after - time_before`. -/
def timing_record (sys : Sys) (i : Nat) : List Byte :=
  uint64_bytes sys.big_endian (uint64_sub (sys.time_after i) (sys.time_before i))

/-- Reads of a regular file, `fuel` bounding their number: every `read` returns
all the bytes that are left, up to `count`. -/
def file_reads_loop (count : Nat) : Nat → List Byte → List ReadOutcome
  | 0, _ => []
  | fuel + 1, input =>
    if input = [] ∨ count = 0 then []
    else .data (input.take count) :: file_reads_loop count fuel (input.drop count)

/-- The successive `read(in_fd, data, count)` results on a regular file with
content `input`: every `read` returns all the bytes that are left, up to
`count`. -/
def file_reads (count : Nat) (input : List Byte) : List ReadOutcome :=
  file_reads_loop count input.length input

/-- Iteration `i` succeeds: the signing step returns a signature, which is not
empty, and both writes are complete. -/
def IterationOk (v : Variant) (w : World) (i : Nat) (block : List Byte) : Prop :=
  match sign v w i block with
  | .signature sig =>
    sig ≠ [] ∧ w.sys.write_time i 8 = 8 ∧ w.sys.write_sig i sig.length = sig.length
  | .failure => False
  | .fault => False

instance IterationOk.decidable (v : Variant) (w : World) (i : Nat) (block : List Byte) :
    Decidable (IterationOk v w i block) :=
  match h : sign v w i block with
  | .signature sig =>
    decidable_of_iff
      (sig ≠ [] ∧ w.sys.write_time i 8 = 8 ∧ w.sys.write_sig i sig.length = sig.length)
      (by simp [IterationOk, h])
  | .failure => isFalse (by simp [IterationOk, h])
  | .fault => isFalse (by simp [IterationOk, h])

/-- The body of the loop behaves, from every state whose variables satisfy `P`,
as the signing step `s` says: on a signature it goes on to `write_records`, on a
failure it jumps to `err`; up to there nothing is written and `P` is kept. -/
def Follows {V : Type} (P : V → Prop) (sys : Sys)
    (body : Nat → List Byte → St V → Flow × St V) (i : Nat) (b : List Byte) (s : Signed) :
    Prop :=
  ∀ st : St V, P st.vars →
    match s with
    | .signature sig =>
      ∃ st' : St V, P st'.vars ∧ st'.ub = st.ub ∧ st'.out_written = st.out_written ∧
        st'.time_written = st.time_written ∧
        body i b st =
          write_records sys i (sys.time_before i) (sys.time_after i) sig sig.length st'
    | .failure =>
      ∃ st' : St V, P st'.vars ∧ st'.ub = st.ub ∧ st'.out_written = st.out_written ∧
        st'.time_written = st.time_written ∧ body i b st = (.err, st')
    | .fault => True

/-- The variables of the GnuTLS program when INIT is through. -/
def Gnutls.Ready (x : Gnutls.Vars) : Prop :=
  x.in_fd = .to .in_fd ∧ x.out_fd = .to .out_fd ∧ x.time_fd = .to .time_fd ∧
  x.data = .to .data ∧ x.sig = .to .sig_init ∧ x.privkey_datum = .to .key_buf ∧
  x.privkey = .to .privkey

/-- The variables of the OpenSSL program when INIT is through. -/
def Openssl.Ready (x : Openssl.Vars) : Prop :=
  x.in_fd = .to .in_fd ∧ x.out_fd = .to .out_fd ∧ x.time_fd = .to .time_fd ∧
  x.fp = .to .fp ∧ x.data = .to .data ∧ x.sig = .to .sig_init ∧ x.pkey = .to .pkey ∧
  x.mdctx = .to .mdctx

/-- The variables of the libgcrypt program when INIT is through; `sig` changes
in the loop. -/
def Libgcrypt.Ready (x : Libgcrypt.Vars) : Prop :=
  x.in_fd = .to .in_fd ∧ x.out_fd = .to .out_fd ∧ x.time_fd = .to .time_fd ∧
  x.fp = .to .fp ∧ x.data = .to .data ∧ x.sig ≠ .indeterminate ∧ x.pkey = .to .pkey

/-- The variables of the NSS program when INIT is through. -/
def Nss.Ready (x : Nss.Vars) : Prop :=
  x.in_fd = .to .in_fd ∧ x.out_fd = .to .out_fd ∧ x.time_fd = .to .time_fd ∧
  x.data_buf = .to .data ∧ x.sig_buf = .null ∧ x.slot = .to .slot ∧
  x.privKeyList = .to .privKeyList

/-- The local variables of program `v`. -/
def VarsOf : Variant → Type
  | .gnutls => Gnutls.Vars
  | .openssl => Openssl.Vars
  | .libgcrypt => Libgcrypt.Vars
  | .nss => Nss.Vars

/-- INIT of program `v`. -/
def init_of (v : Variant) (w : World) : Flow × St (VarsOf v) :=
  match v with
  | .gnutls => Gnutls.init w.sys w.gnutls
  | .openssl => Openssl.init w.sys w.openssl
  | .libgcrypt => Libgcrypt.init w.sys w.libgcrypt
  | .nss => Nss.init w.sys w.nss

/-- The loop body of program `v`, with the key that INIT has loaded. -/
def body_of (v : Variant) (w : World) : Nat → List Byte → St (VarsOf v) → Flow × St (VarsOf v) :=
  match v with
  | .gnutls => Gnutls.iteration w.sys w.gnutls
  | .openssl => Openssl.iteration w.sys w.openssl (Openssl.init w.sys w.openssl).2.vars.key
  | .libgcrypt =>
    Libgcrypt.iteration w.sys w.libgcrypt (Libgcrypt.init w.sys w.libgcrypt).2.vars.key
      (Libgcrypt.init w.sys w.libgcrypt).2.vars.baseline
  | .nss => Nss.iteration w.sys w.nss (Nss.init w.sys w.nss).2.vars.privKey

/-- The end of `main` in program `v`. -/
def finish_of (v : Variant) : Flow × St (VarsOf v) → Result :=
  match v with
  | .gnutls => Gnutls.finish
  | .openssl => Openssl.finish
  | .libgcrypt => Libgcrypt.finish
  | .nss => Nss.finish

/-- The variables of program `v` when INIT is through. -/
def Ready (v : Variant) : VarsOf v → Prop :=
  match v with
  | .gnutls => Gnutls.Ready
  | .openssl => Openssl.Ready
  | .libgcrypt => Libgcrypt.Ready
  | .nss => Nss.Ready

/-- The key description of the libgcrypt program can be opened, but
`read_private_key`, or the `read_param` of the baseline after it, calls
`abort()`. -/
def Libgcrypt.KeyAborts (sys : Sys) (be : Libgcrypt.Backend) : Prop :=
  ∃ text, be.key_file = some text ∧
    (Libgcrypt.read_private_key sys be text = .abort ∨
      ∃ key rest, Libgcrypt.read_private_key sys be text = .ok (key, rest) ∧
        Libgcrypt.read_param (sys.malloc .baseline_str) rest .READ_STRING "b".toList = .abort)

/-- Two states of a run that agree on everything but the timing file and the
trace. -/
def SameSignatures {V : Type} (a b : St V) : Prop :=
  a.vars = b.vars ∧ a.out_written = b.out_written ∧ a.ub = b.ub

/-- The system `sys` with other values on the cycle counter. -/
def Sys.with_timer (sys : Sys) (before after : Nat → Nat) : Sys :=
  { sys with time_before := before, time_after := after }

/-- The unsigned integer that a byte string denotes, most significant byte
first. -/
def be_value (bytes : List Byte) : Nat :=
  bytes.foldl (fun acc b => 256 * acc + b) 0

/-- The unsigned integer that the 8 bytes of a `uint64_t` in memory denote. -/
def uint64_value (big_endian : Bool) (bytes : List Byte) : Nat :=
  be_value (if big_endian then bytes else bytes.reverse)

/-- The architectures that `get_time_before` and `get_time_after` are written
for; one is chosen when the program is built. -/
inductive Arch
  | s390x
  | ppc64
  | aarch64
  | x86
  deriving DecidableEq, Repr

/-- What the counter instruction of one call delivers: the 16 bytes that `stcke`
stores in `clk`, the register that `mftb` or `mrs` fills, or `edx` and `eax`
after `RDTSC` or `RDTSCP`. -/
structure Counter where
  clk : List Byte
  mftb : Nat
  cntvct_el0 : Nat
  edx : Nat
  eax : Nat

/-- The function `get_time_before`: on s390x `*(uint64_t *)(clk + 1)` on a
big-endian machine, on x86 `(uint64_t)time_before_high << 32 | time_before_low`. -/
def get_time_before (arch : Arch) (c : Counter) : Nat :=
  match arch with
  | .s390x => be_value ((c.clk.drop 1).take 8)
  | .ppc64 => c.mftb % 2 ^ 64
  | .aarch64 => c.cntvct_el0 % 2 ^ 64
  | .x86 => (c.edx % 2 ^ 32) <<< 32 ||| c.eax % 2 ^ 32

/-- The function `get_time_after`; it differs from `get_time_before` in the
instructions around the counter read, not in how the value is put together. -/
def get_time_after (arch : Arch) (c : Counter) : Nat :=
  match arch with
  | .s390x => be_value ((c.clk.drop 1).take 8)
  | .ppc64 => c.mftb % 2 ^ 64
  | .aarch64 => c.cntvct_el0 % 2 ^ 64
  | .x86 => (c.edx % 2 ^ 32) <<< 32 ||| c.eax % 2 ^ 32

/-- The text of a file made of the given lines, each followed by a newline. -/
def Libgcrypt.terminated (lines : List (List Char)) : List Char :=
  (lines.map (fun l => l ++ ['\n'])).flatten

/-- A line that `read_line` can take in one `fgets` call and cut at its newline:
it holds neither a newline nor a NUL byte and, with the newline, fits the
4096-byte buffer. -/
abbrev Libgcrypt.Fits (l : List Char) : Prop :=
  '\n' ∉ l ∧ '\x00' ∉ l ∧ l.length < 4095

/-- The number a hexadecimal digit stands for (0 for any other character). -/
def Libgcrypt.hex_value (c : Char) : Nat :=
  (Libgcrypt.hex_digit c).getD 0

/-- The signing call of program `v`. -/
def sign_call : Variant → Call
  | .gnutls => .gnutls_privkey_sign_data2
  | .openssl => .EVP_DigestSignFinal
  | .libgcrypt => .gcry_pk_sign
  | .nss => .SEC_SignData

/-- The library calls that program `v` makes in an iteration before the signing
call; a failure of one of them ends the run before the block is signed. -/
def setup_calls : Variant → List Call
  | .gnutls => []
  | .openssl => [.EVP_DigestSignInit, .EVP_PKEY_CTX_set_params, .EVP_DigestSignUpdate]
  | .libgcrypt => [.gcry_sexp_build]
  | .nss => []

/-- The number of reads in the trace that filled a whole block. -/
def full_reads (data_size : Nat) (trace : List Event) : Nat :=
  if 0 < data_size then trace.count (.read data_size) else 0

/-- The number of signing calls of program `v` in the trace. -/
def sign_calls (v : Variant) (trace : List Event) : Nat :=
  trace.count (.backend (sign_call v))

/-- The event is the report that a set-up call of program `v` has failed. -/
def Event.setup_failure (v : Variant) : Event → Bool
  | .fprintf (.sign_failed c) => (setup_calls v).contains c
  | _ => false

/-- The number of reported set-up failures of program `v` in the trace. -/
def setup_failures (v : Variant) (trace : List Event) : Nat :=
  trace.countP (Event.setup_failure v)

/-- What a pass over a trace has found: the events since a `get_time_before`
that no `get_time_after` has followed yet, and the measured windows that are
complete. -/
structure Scan where
  open_window : Option (List Event)
  closed : List (List Event)
  deriving DecidableEq, Repr

/-- One event more: `get_time_before` opens a window, `get_time_after` closes
the open one, anything else is added to the open window if there is one. -/
def Scan.step (s : Scan) : Event → Scan
  | .get_time_before => { s with open_window := some [] }
  | .get_time_after =>
    match s.open_window with
    | some win => { open_window := none, closed := s.closed ++ [win] }
    | none => s
  | e =>
    match s.open_window with
    | some win => { s with open_window := some (win ++ [e]) }
    | none => s

/-- The pass over a whole trace. -/
def scan (trace : List Event) : Scan :=
  trace.foldl Scan.step { open_window := none, closed := [] }

/-- The measured windows of a trace: for every `get_time_after`, the events
between it and the `get_time_before` before it. -/
def windows (trace : List Event) : List (List Event) :=
  (scan trace).closed

/-- The event records that a call has handed a buffer or object to the
program. -/
def Event.is_acquire : Event → Bool
  | .acquire _ => true
  | _ => false

/-- Apart from the record of the object it returns, the window holds the signing
call of program `v` and nothing else. -/
def OnlySigning (v : Variant) (win : List Event) : Prop :=
  win.filter (fun e => !e.is_acquire) = [.backend (sign_call v)]

instance OnlySigning.decidable (v : Variant) (win : List Event) : Decidable (OnlySigning v win) :=
  inferInstanceAs (Decidable (_ = _))

/-- The event is a call that sets up a digest context. -/
def Event.digest_setup : Event → Bool
  | .backend .EVP_MD_CTX_create => true
  | .backend .EVP_DigestSignInit => true
  | _ => false

/-- The call is the signing call of one of the programs. -/
def Call.is_signing : Call → Bool
  | .gnutls_privkey_sign_data2 => true
  | .EVP_DigestSignFinal => true
  | .gcry_pk_sign => true
  | .SEC_SignData => true
  | _ => false

/-- The diagnostic names a library call of the loop that has failed. -/
def Msg.is_sign_failed : Msg → Bool
  | .sign_failed _ => true
  | _ => false

/-- An event outside the loop body: it is no read, no timer reading, no write,
no signing call and no report of a failed call of the loop. -/
def Event.quiet : Event → Bool
  | .acquire _ => true
  | .release _ => true
  | .fprintf m => !m.is_sign_failed
  | .backend c => !c.is_signing
  | _ => false

/-- The trace `t'` is the trace `t` followed by quiet events. -/
def QuietExt (t t' : List Event) : Prop :=
  ∃ l : List Event, t' = t ++ l ∧ l.all Event.quiet = true

/-- What one pass through the loop body adds to the trace `t`, when it ends with
flow `r.1` in state `r.2`. -/
def StepTally {V : Type} (v : Variant) (ds : Nat) (t : List Event) (r : Flow × St V) : Prop :=
  sign_calls v r.2.trace + setup_failures v r.2.trace =
    sign_calls v t + setup_failures v t + 1 ∧
  setup_failures v r.2.trace ≤ setup_failures v t + 1 ∧
  (r.1 = .ok → setup_failures v r.2.trace = setup_failures v t ∧
    (scan r.2.trace).open_window = none) ∧
  full_reads ds r.2.trace = full_reads ds t ∧
  ∀ win ∈ windows r.2.trace, win ∈ windows t ∨ OnlySigning v win

/-- The tallies of a trace at the head of the loop: every full read so far was
followed by a signing call, no set-up call has failed, no window is open. -/
def LoopHead (v : Variant) (ds : Nat) (t : List Event) : Prop :=
  sign_calls v t + setup_failures v t = full_reads ds t ∧ setup_failures v t = 0 ∧
  (scan t).open_window = none ∧ ∀ win ∈ windows t, OnlySigning v win

/-- The tallies of a trace: every full read but at most one, the one whose set-up
failed, was followed by a signing call, and every measured window holds the
signing call only. -/
def Tallied (v : Variant) (ds : Nat) (t : List Event) : Prop :=
  sign_calls v t + setup_failures v t = full_reads ds t ∧ setup_failures v t ≤ 1 ∧
  ∀ win ∈ windows t, OnlySigning v win

/-- The ledger of the two output streams along a trace: the `write` calls on
`time_fd` and on `out_fd` that returned a positive count (a record written, as
the program sees it), the `write` calls on `out_fd` that returned `0` or less,
and whether every record came in its turn: a timing record only when the two
counts were equal, a signature only when the timing records led by one. -/
structure Records where
  time : Nat
  sig : Nat
  failed : Nat
  ordered : Bool
  deriving DecidableEq, Repr

/-- One event more in the ledger. -/
def Records.step (s : Records) : Event → Records
  | .write_time r =>
    if r ≤ 0 then s
    else { s with time := s.time + 1, ordered := s.ordered && s.time == s.sig }
  | .write_sig r =>
    if r ≤ 0 then { s with failed := s.failed + 1 }
    else { s with sig := s.sig + 1, ordered := s.ordered && s.time == s.sig + 1 }
  | _ => s

/-- The ledger of a whole trace. -/
def records (trace : List Event) : Records :=
  trace.foldl Records.step { time := 0, sig := 0, failed := 0, ordered := true }

/-- The ledger at the head of the loop: as many timing records as signatures,
each in its turn, and no failed signature write. -/
def Balanced (t : List Event) : Prop :=
  (records t).ordered = true ∧ (records t).time = (records t).sig ∧ (records t).failed = 0

/-- The ledger of a trace: every record in its turn, and the timing records lead
the signatures by the number of failed signature writes, which is 0 or 1. -/
def Ledgered (t : List Event) : Prop :=
  (records t).ordered = true ∧ (records t).time = (records t).sig + (records t).failed ∧
  (records t).failed ≤ 1

/-- One round of the `READ_HEX` loop of `read_param`: the offset of `s` in the
value, the index of `pos` in the buffer, and the byte that `sscanf(s, "%2hhx",
pos)` stores there (`none` when it assigns nothing). -/
structure Libgcrypt.HexRound where
  s : Nat
  pos : Nat
  stored : Option Byte
  deriving DecidableEq, Repr

/-- The loop `for (s = value; *s; s += 2) { sscanf(s, "%2hhx", pos); pos += 1; }`
on the characters from `s` to the terminator: its rounds while `s` is inside the
string, and the offset of `s` at which it either finds the terminator (the
length of the value) or has stepped over it (the length plus one). -/
def Libgcrypt.hex_loop : List Char → Nat → Nat → List Libgcrypt.HexRound × Nat
  | [], s, _ => ([], s)
  | c :: rest, s, pos =>
    let round : Libgcrypt.HexRound := ⟨s, pos, Libgcrypt.sscanf_2hhx (c :: rest)⟩
    match rest with
    | [] => ([round], s + 2)
    | _ :: rest =>
      let r := Libgcrypt.hex_loop rest (s + 2) (pos + 1)
      (round :: r.1, r.2)

/-- The subtraction `out_r_len - n` on `size_t`. -/
def Libgcrypt.size_t_sub (a b : Nat) : Nat :=
  (a + 2 ^ 64 - b) % 2 ^ 64

/-! ## Concrete worlds -/

namespace Example

/-- A system in which every call succeeds: the input delivers `reads`, the counter
stands at `100 * i` before and at `100 * i + 7 + i` after the signing of
iteration `i`, and every `write` is complete. -/
def sys (reads : List ReadOutcome) : Sys :=
  { big_endian := false
    open_in := true
    open_out := true
    open_time := true
    malloc := fun _ => true
    reads := reads
    time_before := fun i => 100 * i
    time_after := fun i => 100 * i + 7 + i
    write_time := fun _ n => n
    write_sig := fun _ n => n }

/-- A GnuTLS library that accepts the key and signs every block. -/
def gnutls : Gnutls.Backend :=
  { key_file := some [45, 45]
    privkey_init := 0
    privkey_import_x509_raw := fun _ => 0
    privkey_sign_data2 := fun i data => (0, 48 :: i :: data) }

/-- An OpenSSL library that accepts the key and signs every block. -/
def openssl : Openssl.Backend :=
  { key_file := some [45, 45]
    PEM_read_PrivateKey := fun _ => some 5
    MD_CTX_create := true
    DigestSignInit := fun _ => 1
    PKEY_CTX_set_params := fun _ => 1
    DigestSignUpdate := fun _ => 1
    DigestSignFinal := fun key data => (1, 48 :: key :: data) }

/-- A libgcrypt library with a key description of baseline 3; `r` is the block
behind its iteration number, `s` is one byte. -/
def libgcrypt : Libgcrypt.Backend :=
  { key_file := some "# key\ncurve=NIST P-256\n\nd=0A1b\nb=3\n".toList
    sexp_build_key := fun curve d => some (curve.length + d.sum)
    sexp_build_data := fun _ _ => true
    pk_sign := fun i key data => some ⟨some (some ⟨some (i :: data), some [key]⟩)⟩ }

/-- An NSS database with one private key. -/
def nss : Nss.Backend :=
  { Init := true
    GetInternalKeySlot := true
    ListPrivateKeysInSlot := some [some 3]
    SignData := fun i key data => some (48 :: i :: key :: data) }

/-- The world in which everything succeeds, on the input `reads`. -/
def world (reads : List ReadOutcome) : World :=
  { sys := sys reads, gnutls := gnutls, openssl := openssl, libgcrypt := libgcrypt, nss := nss }

/-- The world in which everything succeeds, on a file of two blocks of two
bytes. -/
def two_blocks : World :=
  world (file_reads 2 [1, 2, 3, 4])

/-- The same with a fifth byte at the end of the file. -/
def two_blocks_and_a_byte : World :=
  world (file_reads 2 [1, 2, 3, 4, 5])

/-- The world of `world reads`, except that in each library the signing of the
block `[3, 4]` in iteration 1 fails. -/
def second_signing_fails (reads : List ReadOutcome) : World :=
  { sys := sys reads
    gnutls :=
      { gnutls with
        privkey_sign_data2 := fun i data => if i = 1 then (-1, []) else (0, 48 :: i :: data) }
    openssl :=
      { openssl with
        DigestSignFinal := fun key data =>
          if data = [3, 4] then (0, []) else (1, 48 :: key :: data) }
    libgcrypt :=
      { libgcrypt with
        pk_sign := fun i key data =>
          if i = 1 then none else some ⟨some (some ⟨some (i :: data), some [key]⟩)⟩ }
    nss :=
      { nss with
        SignData := fun i key data => if i = 1 then none else some (48 :: i :: key :: data) } }

/-- The world in which everything succeeds, with 96 bytes of input read in
blocks of 32. -/
def ninety_six_bytes : World :=
  world (file_reads 32 (List.replicate 96 7))

/-- The world in which everything succeeds, with 31 bytes of input read in blocks
of 32. -/
def thirty_one_bytes : World :=
  world (file_reads 32 (List.replicate 31 7))

/-- The world in which everything succeeds, with an empty input read in blocks
of 1. -/
def empty_input : World :=
  world (file_reads 1 [])

/-- The world in which everything else succeeds, but the first `read` of the
input returns `-1` (as on a descriptor that `open` accepts and `read` refuses,
a directory for instance). -/
def read_error : World :=
  world [.error]

/-- The world of `two_blocks`, except that the `write` of the first timing record
accepts 4 of the 8 bytes and the `write` of the second signature accepts 1
byte. -/
def short_writes : World :=
  { two_blocks with
    sys :=
      { sys (file_reads 2 [1, 2, 3, 4]) with
        write_time := fun i n => if i = 0 then 4 else n
        write_sig := fun i n => if i = 1 then 1 else n } }

/-- The world of `two_blocks`, except that the input file cannot be opened. -/
def no_input : World :=
  { two_blocks with sys := { sys [] with open_in := false } }

/-- The world of `two_blocks`, except that the block buffer cannot be
allocated. -/
def no_block_buffer : World :=
  { two_blocks with
    sys := { sys (file_reads 2 [1, 2, 3, 4]) with malloc := fun r => decide (r ≠ .data) } }

/-- The world of `two_blocks`, except that the structured signature of the second
block has no `sig-val`. -/
def no_sig_val : World :=
  { two_blocks with
    libgcrypt :=
      { libgcrypt with
        pk_sign := fun i key data =>
          if i = 1 then some ⟨none⟩
          else some ⟨some (some ⟨some (i :: data), some [key]⟩)⟩ } }

/-- The world of `two_blocks`, except that the structured signature of the second
block lacks the part `missing`: 0 for `ecdsa`, 1 for `r`, 2 for `s`. -/
def part_missing (missing : Nat) : World :=
  { two_blocks with
    libgcrypt :=
      { libgcrypt with
        pk_sign := fun i key data =>
          if i = 1 then
            match missing with
            | 0 => some ⟨some none⟩
            | 1 => some ⟨some (some ⟨none, some [key]⟩)⟩
            | _ => some ⟨some (some ⟨some (i :: data), none⟩)⟩
          else some ⟨some (some ⟨some (i :: data), some [key]⟩)⟩ } }

/-- A reading whose 16-byte clock value is 1, 2, ..., 16. -/
def counter : Counter :=
  { clk := [1, 2, 3, 4, 5, 6, 7, 8, 9, 10, 11, 12, 13, 14, 15, 16]
    mftb := 0, cntvct_el0 := 0, edx := 0, eax := 0 }

/-- The world of `two_blocks`, except that the set-up for the second block fails:
`EVP_DigestSignInit` in OpenSSL, `gcry_sexp_build` in libgcrypt. -/
def setup_fails : World :=
  { two_blocks with
    openssl := { openssl with DigestSignInit := fun i => if i = 1 then 0 else 1 }
    libgcrypt := { libgcrypt with sexp_build_data := fun i _ => decide (i ≠ 1) } }

/-- The world of `two_blocks`, except that the `write` of the second signature
returns `0`. -/
def sig_write_fails : World :=
  { two_blocks with
    sys :=
      { sys (file_reads 2 [1, 2, 3, 4]) with
        write_sig := fun i n => if i = 1 then 0 else n } }

/-- The key description of `libgcrypt` without the comment and the empty line,
and without a newline after the baseline line. -/
def unterminated_key : Libgcrypt.Backend :=
  { libgcrypt with key_file := some "curve=NIST P-256\nd=0A1b\nb=3".toList }

/-- The world of `no_sig_val` with a fifth byte at the end of the input. -/
def no_sig_val_and_a_byte : World :=
  { no_sig_val with sys := sys (file_reads 2 [1, 2, 3, 4, 5]) }

/-- The world of `two_blocks_and_a_byte`, except that the `r` of the second
block has 4 bytes, one more than the baseline 3. -/
def long_r_and_a_byte : World :=
  { two_blocks_and_a_byte with
    libgcrypt :=
      { libgcrypt with
        pk_sign := fun i key data =>
          if i = 1 then some ⟨some (some ⟨some [9, 9, 9, 9], some [key]⟩)⟩
          else some ⟨some (some ⟨some (i :: data), some [key]⟩)⟩ } }

end Example

/-! ## Lemmas on the shared loop -/

theorem uint64_bytes_length (e : Bool) (x : Nat) : (uint64_bytes e x).length = 8 := by
  unfold uint64_bytes
  split <;> simp

theorem timing_record_length (sys : Sys) (i : Nat) : (timing_record sys i).length = 8 :=
  uint64_bytes_length _ _

theorem write_records_vars {V : Type} (sys : Sys) (i tb ta : Nat) (sig : List Byte) (n : Nat)
    (st : St V) :
    (write_records sys i tb ta sig n st).2.vars = st.vars ∧
    (write_records sys i tb ta sig n st).2.ub = st.ub ∧
    ((write_records sys i tb ta sig n st).1 = .ok ∨
      (write_records sys i tb ta sig n st).1 = .err) := by
  unfold write_records
  simp only [St.write_time, St.write_sig, St.log]
  split
  · simp
  · split <;> simp

theorem write_records_ok {V : Type} (sys : Sys) (i : Nat) (sig : List Byte) (st : St V)
    (hsig : sig ≠ []) (ht : sys.write_time i 8 = 8)
    (hs : sys.write_sig i sig.length = sig.length) :
    ∃ st' : St V,
      write_records sys i (sys.time_before i) (sys.time_after i) sig sig.length st = (.ok, st') ∧
      st'.vars = st.vars ∧ st'.ub = st.ub ∧
      st'.time_written = st.time_written ++ timing_record sys i ∧
      st'.out_written = st.out_written ++ sig := by
  have hpos : ¬ ((sig.length : Int) ≤ 0) := by
    have : 0 < sig.length := List.length_pos.mpr hsig
    omega
  have hlen := uint64_bytes_length sys.big_endian
    (uint64_sub (sys.time_after i) (sys.time_before i))
  refine ⟨(st.write_time (timing_record sys i) 8).write_sig (sig.take sig.length) sig.length,
    ?_, ?_, ?_, ?_, ?_⟩
  · unfold write_records
    simp only [ht, hs]
    rw [if_neg (by decide), if_neg hpos]
    rfl
  · simp [St.write_time, St.write_sig]
  · simp [St.write_time, St.write_sig]
  · simp [St.write_time, St.write_sig, timing_record, List.take_of_length_le, hlen]
  · simp [St.write_time, St.write_sig]

theorem harness_loop_full {V : Type} (body : Nat → List Byte → St V → Flow × St V)
    (ds : Nat) (b : List Byte) (rest : List ReadOutcome) (i : Nat) (st : St V)
    (hds : 0 < ds) (hb : b.length = ds) :
    harness_loop body ds (.data b :: rest) i st =
      match body i b (st.log (.read ds)) with
      | (.ok, st) => harness_loop body ds rest (i + 1) st
      | stop => stop := by
  have h1 : (ds : Int) > 0 := by omega
  simp only [harness_loop, ReadOutcome.r_ret, ReadOutcome.bytes, hb]
  rw [if_pos h1, if_neg (by simp)]

theorem harness_loop_partial {V : Type} (body : Nat → List Byte → St V → Flow × St V)
    (ds : Nat) (tail : List Byte) (rest : List ReadOutcome) (i : Nat) (st : St V)
    (h0 : tail ≠ []) (hne : tail.length ≠ ds) :
    harness_loop body ds (.data tail :: rest) i st =
      (.err, (st.log (.read tail.length)).log (.fprintf .read_less_data)) := by
  have h1 : (tail.length : Int) > 0 := by
    have : 0 < tail.length := List.length_pos.mpr h0
    omega
  have h2 : (tail.length : Int) ≠ (ds : Int) := by omega
  simp only [harness_loop, ReadOutcome.r_ret]
  rw [if_pos h1, if_pos h2]

theorem harness_loop_prefix {V : Type} (P : V → Prop) (sys : Sys)
    (body : Nat → List Byte → St V → Flow × St V) (s : Nat → List Byte → Signed) (ds : Nat)
    (hds : 0 < ds) (hbody : ∀ i b, Follows P sys body i b (s i b)) :
    ∀ (blocks : List (List Byte)) (rest : List ReadOutcome) (i : Nat) (st : St V),
      P st.vars → (∀ b ∈ blocks, b.length = ds) →
      (∀ p ∈ blocks.enumFrom i, ∃ sig, s p.1 p.2 = .signature sig ∧ sig ≠ [] ∧
        sys.write_time p.1 8 = 8 ∧ sys.write_sig p.1 sig.length = sig.length) →
      ∃ st' : St V, P st'.vars ∧ st'.ub = st.ub ∧
        st'.time_written = st.time_written ++
          ((blocks.enumFrom i).map fun p => timing_record sys p.1).flatten ∧
        st'.out_written = st.out_written ++
          ((blocks.enumFrom i).map fun p => (s p.1 p.2).bytes).flatten ∧
        harness_loop body ds (blocks.map .data ++ rest) i st =
          harness_loop body ds rest (i + blocks.length) st' := by
  intro blocks
  induction blocks with
  | nil =>
    intro rest i st hP _ _
    exact ⟨st, hP, rfl, by simp, by simp, by simp⟩
  | cons b bs ih =>
    intro rest i st hP hfull hok
    have hb : b.length = ds := hfull b (List.mem_cons_self _ _)
    obtain ⟨sig, hsig, hne, hwt, hws⟩ := hok (i, b) (by simp [List.enumFrom_cons])
    have hF := hbody i b (st.log (.read ds)) hP
    simp only at hsig
    rw [hsig] at hF
    obtain ⟨st2, hP2, hub2, hout2, htime2, hbody2⟩ := hF
    obtain ⟨st3, hw, hv3, hub3, htime3, hout3⟩ := write_records_ok sys i sig st2 hne hwt hws
    have hP3 : P st3.vars := by rw [hv3]; exact hP2
    obtain ⟨st4, hP4, hub4, htime4, hout4, hloop⟩ :=
      ih rest (i + 1) st3 hP3 (fun b' hb' => hfull b' (List.mem_cons_of_mem _ hb'))
        (fun p hp => hok p (by simp [List.enumFrom_cons, hp]))
    refine ⟨st4, hP4, ?_, ?_, ?_, ?_⟩
    · rw [hub4, hub3, hub2]; rfl
    · rw [htime4, htime3, htime2]
      simp [List.enumFrom_cons, St.log]
    · rw [hout4, hout3, hout2]
      simp [List.enumFrom_cons, St.log, hsig, Signed.bytes]
    · rw [List.map_cons, List.cons_append, harness_loop_full body ds b _ i st hds hb, hbody2, hw]
      simp only [hloop, List.length_cons]
      congr 1
      omega

theorem harness_loop_truncated {V : Type} (P : V → Prop) (sys : Sys)
    (body : Nat → List Byte → St V → Flow × St V) (s : Nat → List Byte → Signed) (ds : Nat)
    (hds : 0 < ds) (hbody : ∀ i b, Follows P sys body i b (s i b))
    (tail : List Byte) (h0 : tail ≠ []) (hne : tail.length ≠ ds) :
    ∀ (blocks : List (List Byte)) (i : Nat) (st : St V),
      P st.vars → (∀ b ∈ blocks, b.length = ds) →
      (∀ p ∈ blocks.enumFrom i, s p.1 p.2 ≠ .fault) →
      ∃ st' : St V, P st'.vars ∧ st'.ub = st.ub ∧
        harness_loop body ds (blocks.map .data ++ [.data tail]) i st = (.err, st') := by
  intro blocks
  induction blocks with
  | nil =>
    intro i st hP _ _
    exact ⟨(st.log (.read tail.length)).log (.fprintf .read_less_data), hP, rfl,
      harness_loop_partial body ds tail [] i st h0 hne⟩
  | cons b bs ih =>
    intro i st hP hfull hok
    have hb : b.length = ds := hfull b (List.mem_cons_self _ _)
    have hnf := hok (i, b) (by simp [List.enumFrom_cons])
    have hF := hbody i b (st.log (.read ds)) hP
    rw [List.map_cons, List.cons_append, harness_loop_full body ds b _ i st hds hb]
    simp only at hnf
    cases hs : s i b with
    | fault => exact absurd hs hnf
    | failure =>
      rw [hs] at hF
      obtain ⟨st2, hP2, hub2, _, _, hbody2⟩ := hF
      exact ⟨st2, hP2, hub2, by rw [hbody2]⟩
    | signature sig =>
      rw [hs] at hF
      obtain ⟨st2, hP2, hub2, _, _, hbody2⟩ := hF
      obtain ⟨hv, hub, hflow⟩ := write_records_vars sys i (sys.time_before i)
        (sys.time_after i) sig sig.length st2
      rw [hbody2]
      generalize write_records sys i (sys.time_before i) (sys.time_after i) sig sig.length st2
        = res at hv hub hflow
      obtain ⟨flow, st3⟩ := res
      simp only at hv hub hflow
      have hP3 : P st3.vars := by rw [hv]; exact hP2
      rcases hflow with hflow | hflow
      · subst hflow
        obtain ⟨st4, hP4, hub4, hloop⟩ :=
          ih (i + 1) st3 hP3 (fun b' hb' => hfull b' (List.mem_cons_of_mem _ hb'))
            (fun p hp => hok p (by simp [List.enumFrom_cons, hp]))
        exact ⟨st4, hP4, by rw [hub4, hub, hub2]; rfl, hloop⟩
      · subst hflow
        exact ⟨st3, hP3, by rw [hub, hub2]; rfl, rfl⟩

theorem harness_loop_sign_failure {V : Type} (P : V → Prop) (sys : Sys)
    (body : Nat → List Byte → St V → Flow × St V) (s : Nat → List Byte → Signed) (ds : Nat)
    (hds : 0 < ds) (hbody : ∀ i b, Follows P sys body i b (s i b))
    (b : List Byte) (rest : List ReadOutcome) (i : Nat) (st : St V) (hP : P st.vars)
    (hb : b.length = ds) (hs : s i b = .failure) :
    ∃ st' : St V, P st'.vars ∧ st'.ub = st.ub ∧ st'.time_written = st.time_written ∧
      st'.out_written = st.out_written ∧
      harness_loop body ds (.data b :: rest) i st = (.err, st') := by
  have hF := hbody i b (st.log (.read ds)) hP
  rw [hs] at hF
  obtain ⟨st2, hP2, hub2, hout2, htime2, hbody2⟩ := hF
  refine ⟨st2, hP2, hub2, htime2, hout2, ?_⟩
  rw [harness_loop_full body ds b _ i st hds hb, hbody2]

/-! ## Lemmas on the reads of a regular file -/

theorem file_reads_loop_fuel (count : Nat) :
    ∀ (fuel1 fuel2 : Nat) (input : List Byte), input.length ≤ fuel1 → input.length ≤ fuel2 →
      file_reads_loop count fuel1 input = file_reads_loop count fuel2 input := by
  intro fuel1
  induction fuel1 with
  | zero =>
    intro fuel2 input h1 _
    have : input = [] := List.length_eq_zero.mp (Nat.le_zero.mp h1)
    subst this
    cases fuel2 <;> simp [file_reads_loop]
  | succ n ih =>
    intro fuel2 input h1 h2
    cases fuel2 with
    | zero =>
      have : input = [] := List.length_eq_zero.mp (Nat.le_zero.mp h2)
      subst this
      simp [file_reads_loop]
    | succ m =>
      simp only [file_reads_loop]
      by_cases hc : input = [] ∨ count = 0
      · rw [if_pos hc, if_pos hc]
      · rw [if_neg hc, if_neg hc]
        have hpos : 0 < input.length := List.length_pos.mpr (fun h => hc (Or.inl h))
        have hcount : 0 < count := Nat.pos_of_ne_zero (fun h => hc (Or.inr h))
        have hd : (input.drop count).length = input.length - count := List.length_drop _ _
        rw [ih m (input.drop count) (by omega) (by omega)]

theorem file_reads_nil (count : Nat) : file_reads count [] = [] := by
  simp [file_reads, file_reads_loop]

theorem file_reads_cons_block (ds : Nat) (hds : 0 < ds) (b rest : List Byte)
    (hb : b.length = ds) : file_reads ds (b ++ rest) = .data b :: file_reads ds rest := by
  have hne : b ≠ [] := by
    intro h
    rw [h] at hb
    simp at hb
    omega
  have hlen : (b ++ rest).length = (ds - 1 + rest.length) + 1 := by
    rw [List.length_append, hb]
    omega
  unfold file_reads
  rw [hlen, file_reads_loop, if_neg (by simp [hne]; omega), List.take_left' hb,
    List.drop_left' hb]
  rw [file_reads_loop_fuel ds (ds - 1 + rest.length) rest.length rest (by omega) (le_refl _)]

theorem file_reads_tail (ds : Nat) (tail : List Byte) (h0 : tail ≠ [])
    (hlt : tail.length < ds) : file_reads ds tail = [.data tail] := by
  have hpos : 0 < tail.length := List.length_pos.mpr h0
  obtain ⟨n, hn⟩ : ∃ n, tail.length = n + 1 := ⟨tail.length - 1, by omega⟩
  unfold file_reads
  rw [hn, file_reads_loop, if_neg (by simp [h0]; omega),
    List.take_of_length_le (by omega), List.drop_of_length_le (by omega)]
  cases n <;> simp [file_reads_loop]

theorem file_reads_blocks (ds : Nat) (hds : 0 < ds) (tail : List Byte) :
    ∀ blocks : List (List Byte), (∀ b ∈ blocks, b.length = ds) →
      file_reads ds (blocks.flatten ++ tail) = blocks.map .data ++ file_reads ds tail := by
  intro blocks
  induction blocks with
  | nil => intro _; simp
  | cons b bs ih =>
    intro hfull
    rw [List.flatten_cons, List.append_assoc,
      file_reads_cons_block ds hds b _ (hfull b (List.mem_cons_self _ _)),
      ih (fun b' hb' => hfull b' (List.mem_cons_of_mem _ hb'))]
    simp

/-! ## Lemmas on the four programs -/

theorem init_flow_eq (v : Variant) (w : World) : init_flow v w = (init_of v w).1 := by
  cases v <;> rfl

theorem run_of_ok (v : Variant) (w : World) (ds : Nat) (h : (init_of v w).1 = .ok) :
    run v w ds = finish_of v (harness_loop (body_of v w) ds w.sys.reads 0 (init_of v w).2) := by
  cases v
  · simp only [run, Gnutls.main, init_of, body_of, finish_of] at h ⊢
    generalize Gnutls.init w.sys w.gnutls = r at h ⊢
    obtain ⟨f, st⟩ := r
    cases f <;> simp_all
  · simp only [run, Openssl.main, init_of, body_of, finish_of] at h ⊢
    generalize Openssl.init w.sys w.openssl = r at h ⊢
    obtain ⟨f, st⟩ := r
    cases f <;> simp_all
  · simp only [run, Libgcrypt.main, init_of, body_of, finish_of] at h ⊢
    generalize Libgcrypt.init w.sys w.libgcrypt = r at h ⊢
    obtain ⟨f, st⟩ := r
    cases f <;> simp_all
  · simp only [run, Nss.main, init_of, body_of, finish_of] at h ⊢
    generalize Nss.init w.sys w.nss = r at h ⊢
    obtain ⟨f, st⟩ := r
    cases f <;> simp_all

theorem run_of_stop (v : Variant) (w : World) (ds : Nat) (h : (init_of v w).1 ≠ .ok) :
    run v w ds = finish_of v (init_of v w) := by
  cases v
  · simp only [run, Gnutls.main, init_of, body_of, finish_of] at h ⊢
    generalize Gnutls.init w.sys w.gnutls = r at h ⊢
    obtain ⟨f, st⟩ := r
    cases f <;> simp_all
  · simp only [run, Openssl.main, init_of, body_of, finish_of] at h ⊢
    generalize Openssl.init w.sys w.openssl = r at h ⊢
    obtain ⟨f, st⟩ := r
    cases f <;> simp_all
  · simp only [run, Libgcrypt.main, init_of, body_of, finish_of] at h ⊢
    generalize Libgcrypt.init w.sys w.libgcrypt = r at h ⊢
    obtain ⟨f, st⟩ := r
    cases f <;> simp_all
  · simp only [run, Nss.main, init_of, body_of, finish_of] at h ⊢
    generalize Nss.init w.sys w.nss = r at h ⊢
    obtain ⟨f, st⟩ := r
    cases f <;> simp_all

theorem gnutls_init_ready (sys : Sys) (be : Gnutls.Backend) :
    (Gnutls.init sys be).1 = .ok →
      Gnutls.Ready (Gnutls.init sys be).2.vars ∧ (Gnutls.init sys be).2.ub = false ∧
      (Gnutls.init sys be).2.out_written = [] ∧ (Gnutls.init sys be).2.time_written = [] := by
  unfold Gnutls.init Gnutls.readfile
  simp only [St.log, St.set]
  cases be.key_file with
  | none =>
    simp only []
    repeat' split
    all_goals (intro h; exact absurd h (by decide))
  | some content =>
    by_cases hm : sys.malloc .key_buf = true
    all_goals
      simp only [hm, Bool.not_true, Bool.not_false, if_true, if_false, Bool.false_eq_true]
      repeat' split
      all_goals first
        | (intro h; exact absurd h (by decide))
        | (intro _; simp_all [Gnutls.Ready])

theorem gnutls_finish_ready (st : St Gnutls.Vars) (hP : Gnutls.Ready st.vars)
    (hub : st.ub = false) (f : Flow) (hf : f = .ok ∨ f = .err) :
    (Gnutls.finish (f, st)).exit = .returned (if f = .ok then 0 else 1) ∧
    (Gnutls.finish (f, st)).out_file = some st.out_written ∧
    (Gnutls.finish (f, st)).time_file = some st.time_written := by
  obtain ⟨h1, h2, h3, h4, h5, h6, h7⟩ := hP
  rcases hf with hf | hf <;> subst hf <;>
    simp [Gnutls.finish, Gnutls.out, St.release, St.log, St.ret, St.halt, h1, h2, h3, h4, h5,
      h6, h7, hub]

theorem gnutls_follows (sys : Sys) (be : Gnutls.Backend) (i : Nat) (b : List Byte) :
    Follows Gnutls.Ready sys (Gnutls.iteration sys be) i b (Gnutls.sign be i b) := by
  intro st hP
  unfold Gnutls.sign
  rcases hres : be.privkey_sign_data2 i b with ⟨ret, sig⟩
  by_cases h : ret < 0
  · simp only [h, if_true]
    exact ⟨((st.log .get_time_before).log (.backend .gnutls_privkey_sign_data2)).log
        (.fprintf (.sign_failed .gnutls_privkey_sign_data2)), hP, rfl, rfl, rfl,
      by simp [Gnutls.iteration, hres, h]⟩
  · simp only [h, if_false]
    exact ⟨((((st.log .get_time_before).log (.backend .gnutls_privkey_sign_data2)).log
        (.acquire (.sig_datum i))).log .get_time_after), hP, rfl, rfl, rfl,
      by simp [Gnutls.iteration, hres, h]⟩

theorem openssl_init_ready (sys : Sys) (be : Openssl.Backend) :
    (Openssl.init sys be).1 = .ok →
      Openssl.Ready (Openssl.init sys be).2.vars ∧ (Openssl.init sys be).2.ub = false ∧
      (Openssl.init sys be).2.out_written = [] ∧ (Openssl.init sys be).2.time_written = [] := by
  unfold Openssl.init
  simp only [St.log, St.set]
  repeat' split
  all_goals first
    | (intro h; exact absurd h (by decide))
    | (intro _; simp_all [Openssl.Ready])

theorem openssl_finish_ready (st : St Openssl.Vars) (hP : Openssl.Ready st.vars)
    (hub : st.ub = false) (f : Flow) (hf : f = .ok ∨ f = .err) :
    (Openssl.finish (f, st)).exit = .returned (if f = .ok then 0 else 1) ∧
    (Openssl.finish (f, st)).out_file = some st.out_written ∧
    (Openssl.finish (f, st)).time_file = some st.time_written := by
  obtain ⟨h1, h2, h3, h4, h5, h6, h7, h8⟩ := hP
  rcases hf with hf | hf <;> subst hf <;>
    simp [Openssl.finish, Openssl.out, St.release, St.log, St.ret, St.halt, h1, h2, h3, h4,
      h5, h6, h7, h8, hub]

theorem openssl_follows (sys : Sys) (be : Openssl.Backend) (pkey : Key) (i : Nat)
    (b : List Byte) :
    Follows Openssl.Ready sys (Openssl.iteration sys be pkey) i b (Openssl.sign be pkey i b) := by
  intro st hP
  unfold Openssl.sign
  rcases hres : be.DigestSignFinal pkey b with ⟨r_ret, sig⟩
  by_cases h1 : be.DigestSignInit i = 0
  · simp only [h1, true_or, if_true]
    exact ⟨(st.log (.backend .EVP_DigestSignInit)).log
        (.fprintf (.sign_failed .EVP_DigestSignInit)), hP, rfl, rfl, rfl,
      by simp [Openssl.iteration, h1]⟩
  by_cases h2 : be.PKEY_CTX_set_params i = 0
  · simp only [h2, true_or, or_true, if_true]
    exact ⟨((st.log (.backend .EVP_DigestSignInit)).log (.backend .EVP_PKEY_CTX_set_params)).log
        (.fprintf (.sign_failed .EVP_PKEY_CTX_set_params)), hP, rfl, rfl, rfl,
      by simp [Openssl.iteration, h1, h2]⟩
  by_cases h3 : be.DigestSignUpdate i = 0
  · simp only [h3, true_or, or_true, if_true]
    exact ⟨(((st.log (.backend .EVP_DigestSignInit)).log (.backend .EVP_PKEY_CTX_set_params)).log
        (.backend .EVP_DigestSignUpdate)).log
        (.fprintf (.sign_failed .EVP_DigestSignUpdate)), hP, rfl, rfl, rfl,
      by simp [Openssl.iteration, h1, h2, h3]⟩
  by_cases h4 : r_ret = 0
  · simp only [h4, or_true, if_true]
    exact ⟨(((((st.log (.backend .EVP_DigestSignInit)).log
        (.backend .EVP_PKEY_CTX_set_params)).log (.backend .EVP_DigestSignUpdate)).log
        .get_time_before).log (.backend .EVP_DigestSignFinal)).log
        (.fprintf (.sign_failed .EVP_DigestSignFinal)), hP, rfl, rfl, rfl,
      by simp [Openssl.iteration, h1, h2, h3, h4, hres]⟩
  · simp only [h1, h2, h3, h4, or_self, if_false]
    exact ⟨(((((st.log (.backend .EVP_DigestSignInit)).log
        (.backend .EVP_PKEY_CTX_set_params)).log (.backend .EVP_DigestSignUpdate)).log
        .get_time_before).log (.backend .EVP_DigestSignFinal)).log .get_time_after,
      hP, rfl, rfl, rfl, by simp [Openssl.iteration, h1, h2, h3, h4, hres]⟩

theorem nss_init_ready (sys : Sys) (be : Nss.Backend) :
    (Nss.init sys be).1 = .ok →
      Nss.Ready (Nss.init sys be).2.vars ∧ (Nss.init sys be).2.ub = false ∧
      (Nss.init sys be).2.out_written = [] ∧ (Nss.init sys be).2.time_written = [] := by
  unfold Nss.init
  simp only [St.log, St.set]
  repeat' split
  all_goals first
    | (intro h; exact absurd h (by decide))
    | (intro _; simp_all [Nss.Ready])

theorem nss_finish_ready (st : St Nss.Vars) (hP : Nss.Ready st.vars)
    (hub : st.ub = false) (f : Flow) (hf : f = .ok ∨ f = .err) :
    (Nss.finish (f, st)).exit = .returned (if f = .ok then 0 else 1) ∧
    (Nss.finish (f, st)).out_file = some st.out_written ∧
    (Nss.finish (f, st)).time_file = some st.time_written := by
  obtain ⟨h1, h2, h3, h4, h5, h6, h7⟩ := hP
  rcases hf with hf | hf <;> subst hf <;>
    simp [Nss.finish, Nss.out, St.release, St.log, St.ret, St.halt, h1, h2, h3, h4,
      h5, h6, h7, hub]

theorem nss_follows (sys : Sys) (be : Nss.Backend) (privKey : Key) (i : Nat) (b : List Byte) :
    Follows Nss.Ready sys (Nss.iteration sys be privKey) i b (Nss.sign be privKey i b) := by
  intro st hP
  unfold Nss.sign
  cases hres : be.SignData i privKey b with
  | none =>
    exact ⟨((st.log .get_time_before).log (.backend .SEC_SignData)).log
        (.fprintf (.sign_failed .SEC_SignData)), hP, rfl, rfl, rfl,
      by simp [Nss.iteration, hres]⟩
  | some sig =>
    exact ⟨(((st.log .get_time_before).log (.backend .SEC_SignData)).log
        (.acquire (.sig_item i))).log .get_time_after, hP, rfl, rfl, rfl,
      by simp [Nss.iteration, hres]⟩

theorem libgcrypt_init_ready (sys : Sys) (be : Libgcrypt.Backend) :
    (Libgcrypt.init sys be).1 = .ok →
      Libgcrypt.Ready (Libgcrypt.init sys be).2.vars ∧ (Libgcrypt.init sys be).2.ub = false ∧
      (Libgcrypt.init sys be).2.out_written = [] ∧
      (Libgcrypt.init sys be).2.time_written = [] := by
  unfold Libgcrypt.init
  simp only [St.log, St.set]
  repeat' split
  all_goals first
    | (intro h; exact absurd h (by decide))
    | (intro _; simp_all [Libgcrypt.Ready])

theorem libgcrypt_finish_ready (st : St Libgcrypt.Vars) (hP : Libgcrypt.Ready st.vars)
    (hub : st.ub = false) (f : Flow) (hf : f = .ok ∨ f = .err) :
    (Libgcrypt.finish (f, st)).exit = .returned (if f = .ok then 0 else 1) ∧
    (Libgcrypt.finish (f, st)).out_file = some st.out_written ∧
    (Libgcrypt.finish (f, st)).time_file = some st.time_written := by
  obtain ⟨h1, h2, h3, h4, h5, h6, h7⟩ := hP
  have key : ∀ p : Ptr, p ≠ .indeterminate → st.vars.sig = p →
      (Libgcrypt.finish (f, st)).exit = .returned (if f = .ok then 0 else 1) ∧
      (Libgcrypt.finish (f, st)).out_file = some st.out_written ∧
      (Libgcrypt.finish (f, st)).time_file = some st.time_written := by
    intro p hp hsig
    cases p <;>
      first
        | exact absurd rfl hp
        | (rcases hf with hf | hf <;> subst hf <;>
            simp [Libgcrypt.finish, Libgcrypt.out, St.release, St.log, St.ret, St.halt, h1, h2,
              h3, h4, h5, hsig, h7, hub])
  exact key st.vars.sig h6 rfl

theorem libgcrypt_follows (sys : Sys) (be : Libgcrypt.Backend) (pkey : Key) (baseline : Int)
    (i : Nat) (b : List Byte) :
    Follows Libgcrypt.Ready sys (Libgcrypt.iteration sys be pkey baseline) i b
      (Libgcrypt.sign sys be pkey baseline i b) := by
  intro st hP
  unfold Libgcrypt.sign
  by_cases h1 : be.sexp_build_data i b = true
  swap
  · simp only [h1, Bool.not_false, if_true]
    exact ⟨(st.log (.backend .gcry_sexp_build)).log (.fprintf (.sign_failed .gcry_sexp_build)),
      hP, rfl, rfl, rfl, by simp [Libgcrypt.iteration, h1]⟩
  simp only [h1, Bool.not_true, Bool.false_eq_true, if_false]
  cases h2 : be.pk_sign i pkey b with
  | none =>
    exact ⟨((((((st.log (.backend .gcry_sexp_build)).log (.acquire (.data_sexp i))).log
        .get_time_before).log (.backend .gcry_pk_sign)).log .get_time_after).log
        (.fprintf (.sign_failed .gcry_pk_sign))), hP, rfl, rfl, rfl,
      by simp [Libgcrypt.iteration, h1, h2]⟩
  | some sig_sexp =>
    simp only []
    cases h3 : Libgcrypt.get_signature_from_expression sys i sig_sexp
        (Libgcrypt.to_size_t baseline) with
    | abort => trivial
    | undefined => trivial
    | ok res =>
      cases res with
      | none => trivial
      | some sig =>
        simp only []
        by_cases h4 : Libgcrypt.to_size_t (Libgcrypt.to_int (2 * baseline)) = sig.length
        · simp only [h4, if_true]
          obtain ⟨p1, p2, p3, p4, p5, p6, p7⟩ := hP
          refine ⟨((((((((st.log (.backend .gcry_sexp_build)).log (.acquire (.data_sexp i))).log
              .get_time_before).log (.backend .gcry_pk_sign)).log .get_time_after).log
              (.acquire (.sig_sexp i))).log (.backend .get_signature_from_expression)).set
              (fun v => { v with sig := .to (.sig_out i) })).log (.acquire (.sig_out i)),
            ⟨p1, p2, p3, p4, p5, by simp [St.set, St.log], p7⟩, rfl, rfl, rfl, ?_⟩
          simp [Libgcrypt.iteration, h1, h2, h3, h4]
        · simp only [h4, if_false]

theorem init_ready (v : Variant) (w : World) (h : (init_of v w).1 = .ok) :
    Ready v (init_of v w).2.vars ∧ (init_of v w).2.ub = false ∧
    (init_of v w).2.out_written = [] ∧ (init_of v w).2.time_written = [] := by
  cases v
  · exact gnutls_init_ready w.sys w.gnutls h
  · exact openssl_init_ready w.sys w.openssl h
  · exact libgcrypt_init_ready w.sys w.libgcrypt h
  · exact nss_init_ready w.sys w.nss h

theorem finish_ready (v : Variant) (st : St (VarsOf v)) (hP : Ready v st.vars)
    (hub : st.ub = false) (f : Flow) (hf : f = .ok ∨ f = .err) :
    (finish_of v (f, st)).exit = .returned (if f = .ok then 0 else 1) ∧
    (finish_of v (f, st)).out_file = some st.out_written ∧
    (finish_of v (f, st)).time_file = some st.time_written := by
  cases v
  · exact gnutls_finish_ready st hP hub f hf
  · exact openssl_finish_ready st hP hub f hf
  · exact libgcrypt_finish_ready st hP hub f hf
  · exact nss_finish_ready st hP hub f hf

theorem follows (v : Variant) (w : World) (i : Nat) (b : List Byte) :
    Follows (Ready v) w.sys (body_of v w) i b (sign v w i b) := by
  cases v
  · exact gnutls_follows w.sys w.gnutls i b
  · exact openssl_follows w.sys w.openssl _ i b
  · exact libgcrypt_follows w.sys w.libgcrypt _ _ i b
  · exact nss_follows w.sys w.nss _ i b

theorem IterationOk.signature {v : Variant} {w : World} {i : Nat} {b : List Byte}
    (h : IterationOk v w i b) :
    ∃ sig, sign v w i b = .signature sig ∧ sig ≠ [] ∧ w.sys.write_time i 8 = 8 ∧
      w.sys.write_sig i sig.length = sig.length := by
  unfold IterationOk at h
  split at h
  · next sig hs => exact ⟨sig, hs, h⟩
  · exact absurd h id
  · exact absurd h id

/-- A run over full blocks whose iterations all succeed, followed by the reads
`rest`: the state in which the loop reaches `rest`. -/
theorem run_prefix (v : Variant) (w : World) (ds : Nat) (blocks : List (List Byte))
    (rest : List ReadOutcome) (hinit : init_flow v w = .ok) (hds : 0 < ds)
    (hfull : ∀ b ∈ blocks, b.length = ds)
    (hreads : w.sys.reads = blocks.map .data ++ rest)
    (hok : ∀ p ∈ blocks.enum, IterationOk v w p.1 p.2) :
    ∃ st : St (VarsOf v), Ready v st.vars ∧ st.ub = false ∧
      st.time_written = (blocks.enum.map fun p => timing_record w.sys p.1).flatten ∧
      st.out_written = (blocks.enum.map fun p => (sign v w p.1 p.2).bytes).flatten ∧
      run v w ds = finish_of v (harness_loop (body_of v w) ds rest blocks.length st) := by
  rw [init_flow_eq] at hinit
  obtain ⟨hP, hub, hout, htime⟩ := init_ready v w hinit
  obtain ⟨st, hP', hub', htime', hout', hloop⟩ :=
    harness_loop_prefix (Ready v) w.sys (body_of v w) (sign v w) ds hds (follows v w) blocks rest 0
      (init_of v w).2 hP hfull (fun p hp => (hok p hp).signature)
  refine ⟨st, hP', by rw [hub', hub], ?_, ?_, ?_⟩
  · rw [htime', htime]; simp [List.enum]
  · rw [hout', hout]; simp [List.enum]
  · rw [run_of_ok v w ds hinit, hreads, hloop, Nat.zero_add]

theorem run_success (v : Variant) (w : World) (ds : Nat) (blocks : List (List Byte))
    (hinit : init_flow v w = .ok) (hds : 0 < ds) (hfull : ∀ b ∈ blocks, b.length = ds)
    (hreads : w.sys.reads = file_reads ds blocks.flatten)
    (hok : ∀ p ∈ blocks.enum, IterationOk v w p.1 p.2) :
    (run v w ds).exit = .returned 0 ∧
    (run v w ds).time_file = some (blocks.enum.map fun p => timing_record w.sys p.1).flatten ∧
    (run v w ds).out_file = some (blocks.enum.map fun p => (sign v w p.1 p.2).bytes).flatten := by
  have hr : w.sys.reads = blocks.map .data ++ [] := by
    have := file_reads_blocks ds hds [] blocks hfull
    rw [List.append_nil, file_reads_nil] at this
    rw [hreads, this]
  obtain ⟨st, hP, hub, htime, hout, hrun⟩ := run_prefix v w ds blocks [] hinit hds hfull hr hok
  have hfin := finish_ready v (st.log (.read 0)) hP hub .ok (Or.inl rfl)
  rw [hrun]
  simp only [harness_loop]
  refine ⟨hfin.1, ?_, ?_⟩
  · rw [hfin.2.2]; simp [St.log, htime]
  · rw [hfin.2.1]; simp [St.log, hout]

theorem run_truncated (v : Variant) (w : World) (ds : Nat) (blocks : List (List Byte))
    (tail : List Byte) (hinit : init_flow v w = .ok) (hds : 0 < ds)
    (hfull : ∀ b ∈ blocks, b.length = ds) (h0 : tail ≠ []) (hlt : tail.length < ds)
    (hreads : w.sys.reads = file_reads ds (blocks.flatten ++ tail))
    (hnf : ∀ p ∈ blocks.enum, sign v w p.1 p.2 ≠ .fault) :
    (run v w ds).exit = .returned 1 ∧
    ((∀ p ∈ blocks.enum, IterationOk v w p.1 p.2) →
      (run v w ds).time_file =
        some (blocks.enum.map fun p => timing_record w.sys p.1).flatten ∧
      (run v w ds).out_file =
        some (blocks.enum.map fun p => (sign v w p.1 p.2).bytes).flatten) := by
  have hr : w.sys.reads = blocks.map .data ++ [.data tail] := by
    rw [hreads, file_reads_blocks ds hds tail blocks hfull, file_reads_tail ds tail h0 hlt]
  constructor
  · have hinit' := hinit
    rw [init_flow_eq] at hinit'
    obtain ⟨hP, hub, _, _⟩ := init_ready v w hinit'
    obtain ⟨st, hP', hub', hloop⟩ :=
      harness_loop_truncated (Ready v) w.sys (body_of v w) (sign v w) ds hds (follows v w) tail h0
        (by omega) blocks 0 (init_of v w).2 hP hfull hnf
    rw [run_of_ok v w ds hinit', hr, hloop]
    exact (finish_ready v st hP' (by rw [hub', hub]) .err (Or.inr rfl)).1
  · intro hok
    obtain ⟨st, hP, hub, htime, hout, hrun⟩ :=
      run_prefix v w ds blocks [.data tail] hinit hds hfull hr hok
    rw [hrun, harness_loop_partial (body_of v w) ds tail [] blocks.length st h0 (by omega)]
    have hfin := finish_ready v ((st.log (.read tail.length)).log (.fprintf .read_less_data))
      hP hub .err (Or.inr rfl)
    constructor
    · rw [hfin.2.2]; simp [St.log, htime]
    · rw [hfin.2.1]; simp [St.log, hout]

theorem run_sign_failure (v : Variant) (w : World) (ds : Nat) (blocks : List (List Byte))
    (b : List Byte) (rest : List ReadOutcome) (hinit : init_flow v w = .ok) (hds : 0 < ds)
    (hfull : ∀ b' ∈ blocks, b'.length = ds) (hb : b.length = ds)
    (hreads : w.sys.reads = blocks.map .data ++ .data b :: rest)
    (hok : ∀ p ∈ blocks.enum, IterationOk v w p.1 p.2)
    (hfail : sign v w blocks.length b = .failure) :
    (run v w ds).exit = .returned 1 ∧
    (run v w ds).time_file = some (blocks.enum.map fun p => timing_record w.sys p.1).flatten ∧
    (run v w ds).out_file = some (blocks.enum.map fun p => (sign v w p.1 p.2).bytes).flatten := by
  obtain ⟨st, hP, hub, htime, hout, hrun⟩ :=
    run_prefix v w ds blocks (.data b :: rest) hinit hds hfull hreads hok
  obtain ⟨st', hP', hub', htime', hout', hloop⟩ :=
    harness_loop_sign_failure (Ready v) w.sys (body_of v w) (sign v w) ds hds (follows v w) b rest
      blocks.length st hP hb hfail
  have hfin := finish_ready v st' hP' (by rw [hub', hub]) .err (Or.inr rfl)
  rw [hrun, hloop]
  refine ⟨hfin.1, ?_, ?_⟩
  · rw [hfin.2.2, htime', htime]
  · rw [hfin.2.1, hout', hout]

theorem length_flatten_records {α : Type} (l : List α) (f : α → List Byte) (n : Nat)
    (h : ∀ a ∈ l, (f a).length = n) : (l.map f).flatten.length = n * l.length := by
  induction l with
  | nil => simp
  | cons a l ih =>
    simp only [List.map_cons, List.flatten_cons, List.length_append, List.length_cons]
    rw [h a (List.mem_cons_self _ _), ih (fun a' ha' => h a' (List.mem_cons_of_mem _ ha'))]
    ring

/-! ## The claims -/

/-- C1: in every program, when INIT succeeds, the input consists of full blocks
of `data_size` bytes and every signing step and write succeeds, the timing file
is the concatenation, block by block in input order, of the 8-byte records of
`time_after - time_before` taken around the signing of that block, and the
signature file is the concatenation, in the same order, of the signatures
returned for the blocks. -/
theorem streams_correspond_by_position (v : Variant) (w : World) (data_size : Nat)
    (blocks : List (List Byte)) (hinit : init_flow v w = .ok) (hsize : 0 < data_size)
    (hfull : ∀ b ∈ blocks, b.length = data_size)
    (hreads : w.sys.reads = file_reads data_size blocks.flatten)
    (hok : ∀ p ∈ blocks.enum, IterationOk v w p.1 p.2) :
    (run v w data_size).time_file =
      some (blocks.enum.map fun p =>
        uint64_bytes w.sys.big_endian
          (uint64_sub (w.sys.time_after p.1) (w.sys.time_before p.1))).flatten ∧
    (run v w data_size).out_file =
      some (blocks.enum.map fun p => (sign v w p.1 p.2).bytes).flatten :=
  (run_success v w data_size blocks hinit hsize hfull hreads hok).2

/-- Witness of C1: the libgcrypt and the GnuTLS program on a file of two blocks
of two bytes. -/
theorem streams_correspond_by_position_witness :
    (init_flow .libgcrypt Example.two_blocks = .ok ∧
      IterationOk .libgcrypt Example.two_blocks 0 [1, 2] ∧
      IterationOk .libgcrypt Example.two_blocks 1 [3, 4] ∧
      (run .libgcrypt Example.two_blocks 2).time_file =
        some [7, 0, 0, 0, 0, 0, 0, 0, 8, 0, 0, 0, 0, 0, 0, 0] ∧
      (run .libgcrypt Example.two_blocks 2).out_file =
        some [0, 1, 2, 0, 0, 47, 1, 3, 4, 0, 0, 47]) ∧
    (init_flow .gnutls Example.two_blocks = .ok ∧
      IterationOk .gnutls Example.two_blocks 0 [1, 2] ∧
      IterationOk .gnutls Example.two_blocks 1 [3, 4] ∧
      (run .gnutls Example.two_blocks 2).time_file =
        some [7, 0, 0, 0, 0, 0, 0, 0, 8, 0, 0, 0, 0, 0, 0, 0] ∧
      (run .gnutls Example.two_blocks 2).out_file = some [48, 0, 1, 2, 48, 1, 3, 4]) :=
  have h1 := streams_correspond_by_position .libgcrypt Example.two_blocks 2 [[1, 2], [3, 4]]
    (by decide) (by decide) (by decide) (by decide) (by decide)
  have h2 := streams_correspond_by_position .gnutls Example.two_blocks 2 [[1, 2], [3, 4]]
    (by decide) (by decide) (by decide) (by decide) (by decide)
  ⟨⟨by decide, by decide, by decide, h1.1.trans (by decide), h1.2.trans (by decide)⟩,
    ⟨by decide, by decide, by decide, h2.1.trans (by decide), h2.2.trans (by decide)⟩⟩

theorem flatten_three_blocks (input : List Byte) (h : input.length = 96) :
    [input.take 32, (input.drop 32).take 32, (input.drop 64).take 32].flatten = input := by
  have h3 : (input.drop 64).take 32 = input.drop 64 :=
    List.take_of_length_le (by rw [List.length_drop]; omega)
  have h2 : (input.drop 32).take 32 ++ input.drop 64 = input.drop 32 := by
    have : input.drop 64 = (input.drop 32).drop 32 := by rw [List.drop_drop]
    rw [this, List.take_append_drop]
  simp only [List.flatten_cons, List.flatten_nil, List.append_nil, h3, h2,
    List.take_append_drop]

/-- C2: a run that processes `N` full blocks successfully leaves a timing file of
`8 * N` bytes and a signature file made of `N` signatures, and exits with status
0; a zero-byte input ends the run at once with two empty files and status 0;
with `data_size = 32`, 96 bytes of input give 24 bytes of timing records and 3
signatures. -/
theorem full_blocks_give_as_many_records :
    (∀ (v : Variant) (w : World) (data_size : Nat) (blocks : List (List Byte)),
      init_flow v w = .ok → 0 < data_size → (∀ b ∈ blocks, b.length = data_size) →
      w.sys.reads = file_reads data_size blocks.flatten →
      (∀ p ∈ blocks.enum, IterationOk v w p.1 p.2) →
      (run v w data_size).exit = .returned 0 ∧
      ∃ (timing : List Byte) (sigs : List (List Byte)),
        (run v w data_size).time_file = some timing ∧ timing.length = 8 * blocks.length ∧
        (run v w data_size).out_file = some sigs.flatten ∧ sigs.length = blocks.length ∧
        ∀ p ∈ blocks.enum, sign v w p.1 p.2 = .signature (sigs.getD p.1 [])) ∧
    (∀ (v : Variant) (w : World) (data_size : Nat),
      init_flow v w = .ok → w.sys.reads = file_reads data_size [] →
      (run v w data_size).exit = .returned 0 ∧ (run v w data_size).time_file = some [] ∧
      (run v w data_size).out_file = some []) ∧
    (∀ (v : Variant) (w : World) (input : List Byte),
      init_flow v w = .ok → input.length = 96 → w.sys.reads = file_reads 32 input →
      (∀ i < 3, IterationOk v w i ((input.drop (32 * i)).take 32)) →
      (run v w 32).exit = .returned 0 ∧
      ∃ (timing : List Byte) (sigs : List (List Byte)),
        (run v w 32).time_file = some timing ∧ timing.length = 24 ∧
        (run v w 32).out_file = some sigs.flatten ∧ sigs.length = 3 ∧
        ∀ i < 3, sign v w i ((input.drop (32 * i)).take 32) = .signature (sigs.getD i [])) := by
  have general : ∀ (v : Variant) (w : World) (data_size : Nat) (blocks : List (List Byte)),
      init_flow v w = .ok → 0 < data_size → (∀ b ∈ blocks, b.length = data_size) →
      w.sys.reads = file_reads data_size blocks.flatten →
      (∀ p ∈ blocks.enum, IterationOk v w p.1 p.2) →
      (run v w data_size).exit = .returned 0 ∧
      ∃ (timing : List Byte) (sigs : List (List Byte)),
        (run v w data_size).time_file = some timing ∧ timing.length = 8 * blocks.length ∧
        (run v w data_size).out_file = some sigs.flatten ∧ sigs.length = blocks.length ∧
        ∀ p ∈ blocks.enum, sign v w p.1 p.2 = .signature (sigs.getD p.1 []) := by
    intro v w ds blocks hinit hds hfull hreads hok
    obtain ⟨hexit, htime, hout⟩ := run_success v w ds blocks hinit hds hfull hreads hok
    refine ⟨hexit, _, blocks.enum.map fun p => (sign v w p.1 p.2).bytes, htime, ?_, hout, ?_, ?_⟩
    · rw [length_flatten_records blocks.enum _ 8 (fun p _ => timing_record_length w.sys p.1)]
      simp
    · simp
    · intro p hp
      obtain ⟨sig, hs, _⟩ := (hok p hp).signature
      have hlt : p.1 < blocks.length := by
        have := List.mem_enumFrom hp
        omega
      have hget : blocks.enum[p.1]? = some p := by
        have h2 := List.mem_enumFrom hp
        rw [List.enum, List.getElem?_enumFrom]
        simp only [Nat.zero_add]
        rw [List.getElem?_eq_getElem hlt]
        simp only [Option.map_some']
        obtain ⟨i, b⟩ := p
        simp only [Nat.sub_zero] at h2
        simp only [h2.2.2]
      rw [List.getD_eq_getElem?_getD, List.getElem?_map, hget]
      simp [hs, Signed.bytes]
  refine ⟨general, ?_, ?_⟩
  · intro v w ds hinit hreads
    have hinit' := hinit
    rw [init_flow_eq] at hinit'
    obtain ⟨hP, hub, hout, htime⟩ := init_ready v w hinit'
    have hfin := finish_ready v ((init_of v w).2.log (.read 0)) hP hub .ok (Or.inl rfl)
    rw [run_of_ok v w ds hinit', hreads, file_reads_nil]
    simp only [harness_loop]
    refine ⟨hfin.1, ?_, ?_⟩
    · rw [hfin.2.2]; simp [St.log, htime]
    · rw [hfin.2.1]; simp [St.log, hout]
  · intro v w input hinit hlen hreads hok
    have hflat := flatten_three_blocks input hlen
    have hfull : ∀ b ∈ [input.take 32, (input.drop 32).take 32, (input.drop 64).take 32],
        b.length = 32 := by
      intro b hb
      simp only [List.mem_cons, List.mem_singleton, List.not_mem_nil, or_false] at hb
      rcases hb with rfl | rfl | rfl <;> simp [List.length_take, List.length_drop] <;> omega
    have hok' : ∀ p ∈ [input.take 32, (input.drop 32).take 32, (input.drop 64).take 32].enum,
        IterationOk v w p.1 p.2 := by
      intro p hp
      simp only [List.enum, List.enumFrom_cons, List.enumFrom_nil, List.mem_cons,
        List.mem_singleton, List.not_mem_nil, or_false] at hp
      rcases hp with rfl | rfl | rfl
      · simpa using hok 0 (by decide)
      · simpa using hok 1 (by decide)
      · simpa using hok 2 (by decide)
    obtain ⟨hexit, timing, sigs, ht, htl, ho, hsl, hsig⟩ :=
      general v w 32 _ hinit (by decide) hfull (by rw [hflat]; exact hreads) hok'
    refine ⟨hexit, timing, sigs, ht, by simpa using htl, ho, by simpa using hsl, ?_⟩
    intro i hi
    have h0 := hsig (0, input.take 32) (by simp [List.enum, List.enumFrom_cons])
    have h1 := hsig (1, (input.drop 32).take 32) (by simp [List.enum, List.enumFrom_cons])
    have h2 := hsig (2, (input.drop 64).take 32) (by simp [List.enum, List.enumFrom_cons])
    interval_cases i
    · simpa using h0
    · simpa using h1
    · simpa using h2

/-- Witness of C2: the NSS program on 96 bytes read in blocks of 32, and on an
empty input. -/
theorem full_blocks_give_as_many_records_witness :
    (init_flow .nss Example.ninety_six_bytes = .ok ∧
      (List.replicate 96 7).length = 96 ∧
      (run .nss Example.ninety_six_bytes 32).exit = .returned 0 ∧
      ∃ (timing : List Byte) (sigs : List (List Byte)),
        (run .nss Example.ninety_six_bytes 32).time_file = some timing ∧ timing.length = 24 ∧
        (run .nss Example.ninety_six_bytes 32).out_file = some sigs.flatten ∧ sigs.length = 3 ∧
        ∀ i < 3, sign .nss Example.ninety_six_bytes i
          (((List.replicate 96 7).drop (32 * i)).take 32) = .signature (sigs.getD i [])) ∧
    (init_flow .nss Example.empty_input = .ok ∧
      (run .nss Example.empty_input 1).exit = .returned 0 ∧
      (run .nss Example.empty_input 1).time_file = some [] ∧
      (run .nss Example.empty_input 1).out_file = some []) :=
  have h := full_blocks_give_as_many_records.2.2 .nss Example.ninety_six_bytes
    (List.replicate 96 7) (by decide) (by decide) (by decide) (by decide)
  ⟨⟨by decide, by decide, h.1, h.2⟩,
    ⟨by decide,
      full_blocks_give_as_many_records.2.1 .nss Example.empty_input 1 (by decide) (by decide)⟩⟩

theorem sign_ne_fault (v : Variant) (w : World) (i : Nat) (b : List Byte)
    (hv : v ≠ .libgcrypt) : sign v w i b ≠ .fault := by
  cases v
  · simp only [sign, Gnutls.sign]
    split <;> simp
  · simp only [sign, Openssl.sign]
    split <;> simp
  · exact absurd rfl hv
  · simp only [sign, Nss.sign]
    split <;> simp

theorem harness_loop_truncated_not_ok {V : Type}
    (body : Nat → List Byte → St V → Flow × St V) (ds : Nat) (hds : 0 < ds)
    (tail : List Byte) (h0 : tail ≠ []) (hne : tail.length ≠ ds) :
    ∀ (blocks : List (List Byte)) (i : Nat) (st : St V), (∀ b ∈ blocks, b.length = ds) →
      (harness_loop body ds (blocks.map .data ++ [.data tail]) i st).1 ≠ .ok := by
  intro blocks
  induction blocks with
  | nil =>
    intro i st _
    rw [List.map_nil, List.nil_append, harness_loop_partial body ds tail [] i st h0 hne]
    simp
  | cons b bs ih =>
    intro i st hfull
    rw [List.map_cons, List.cons_append,
      harness_loop_full body ds b _ i st hds (hfull b (List.mem_cons_self _ _))]
    rcases body i b (st.log (.read ds)) with ⟨f, st'⟩
    cases f
    · exact ih (i + 1) st' (fun b' hb' => hfull b' (List.mem_cons_of_mem _ hb'))
    · simp
    · simp
    · simp

theorem ret_one_exit {V : Type} (st : St V) (out_fd time_fd : Ptr) :
    (st.ret 1 out_fd time_fd).exit ≠ .returned 0 := by
  simp only [St.ret, St.halt]
  split <;> simp

theorem finish_not_ok (v : Variant) (f : Flow) (st : St (VarsOf v)) (hf : f ≠ .ok) :
    (finish_of v (f, st)).exit ≠ .returned 0 := by
  cases v <;> cases f <;>
    first
      | exact absurd rfl hf
      | exact ret_one_exit _ _ _
      | simp [finish_of, Gnutls.finish, Openssl.finish, Libgcrypt.finish, Nss.finish, St.halt]

theorem run_truncated_not_success (v : Variant) (w : World) (ds : Nat)
    (blocks : List (List Byte)) (tail : List Byte) (hds : 0 < ds)
    (hfull : ∀ b ∈ blocks, b.length = ds) (h0 : tail ≠ []) (hlt : tail.length < ds)
    (hreads : w.sys.reads = file_reads ds (blocks.flatten ++ tail)) :
    (run v w ds).exit ≠ .returned 0 := by
  have hr : w.sys.reads = blocks.map .data ++ [.data tail] := by
    rw [hreads, file_reads_blocks ds hds tail blocks hfull, file_reads_tail ds tail h0 hlt]
  by_cases hinit : (init_of v w).1 = .ok
  · rw [run_of_ok v w ds hinit, hr]
    have h := harness_loop_truncated_not_ok (body_of v w) ds hds tail h0 (by omega) blocks 0
      (init_of v w).2 hfull
    generalize harness_loop (body_of v w) ds (blocks.map .data ++ [.data tail]) 0
      (init_of v w).2 = res at h
    obtain ⟨f, st⟩ := res
    exact finish_not_ok v f st h
  · rw [run_of_stop v w ds hinit]
    generalize init_of v w = res at hinit
    obtain ⟨f, st⟩ := res
    exact finish_not_ok v f st hinit

/-- C3, as stated, fails: on an input of two full blocks and one more byte the
libgcrypt program does not end through `err` with exit status 1 when the
structured signature of the second block has no `sig-val`: it calls `abort()`
before the short read is made, so the truncation is never reported and nothing
is cleaned up; and when the `r` of the second block is longer than the baseline
the repacking leaves defined behaviour. -/
theorem truncated_input_can_end_in_abort :
    init_flow .libgcrypt Example.no_sig_val_and_a_byte = .ok ∧
    Example.no_sig_val_and_a_byte.sys.reads =
      file_reads 2 ([[1, 2], [3, 4]].flatten ++ [5]) ∧
    (run .libgcrypt Example.no_sig_val_and_a_byte 2).exit = .aborted ∧
    Event.fprintf .read_less_data ∉ (run .libgcrypt Example.no_sig_val_and_a_byte 2).trace ∧
    Event.fprintf .failed ∉ (run .libgcrypt Example.no_sig_val_and_a_byte 2).trace ∧
    init_flow .libgcrypt Example.long_r_and_a_byte = .ok ∧
    Example.long_r_and_a_byte.sys.reads = file_reads 2 ([[1, 2], [3, 4]].flatten ++ [5]) ∧
    (run .libgcrypt Example.long_r_and_a_byte 2).exit = .undefined := by
  decide

/-- C3, amended: for a block size of at least 1 and an input of `q` full blocks
followed by `r` bytes, `0 < r < data_size`, read from a regular file (every
`read` returning all the bytes left, up to `data_size`), the run never returns
0; it ends through `err` with exit status 1 in the GnuTLS, OpenSSL and NSS
programs, and in the libgcrypt program unless the signing step of one of the
full blocks is a fault (`abort()` or undefined behaviour in the repacking).
When the `q` iterations succeed, the exit status is 1 and each output file holds
exactly the `q` records of the full blocks: the trailing bytes are not signed
and add nothing. -/
theorem truncated_input_fails (v : Variant) (w : World) (data_size : Nat)
    (blocks : List (List Byte)) (tail : List Byte) (hinit : init_flow v w = .ok)
    (hsize : 1 ≤ data_size) (hfull : ∀ b ∈ blocks, b.length = data_size)
    (hr : 0 < tail.length) (hlt : tail.length < data_size)
    (hreads : w.sys.reads = file_reads data_size (blocks.flatten ++ tail)) :
    (run v w data_size).exit ≠ .returned 0 ∧
    ((v = .libgcrypt → ∀ p ∈ blocks.enum, sign v w p.1 p.2 ≠ .fault) →
      (run v w data_size).exit = .returned 1) ∧
    ((∀ p ∈ blocks.enum, IterationOk v w p.1 p.2) →
      (run v w data_size).exit = .returned 1 ∧
      (run v w data_size).time_file =
        some (blocks.enum.map fun p => timing_record w.sys p.1).flatten ∧
      (run v w data_size).out_file =
        some (blocks.enum.map fun p => (sign v w p.1 p.2).bytes).flatten) := by
  have h0 : tail ≠ [] := List.length_pos.mp hr
  have key : (∀ p ∈ blocks.enum, sign v w p.1 p.2 ≠ .fault) →
      (run v w data_size).exit = .returned 1 ∧
      ((∀ p ∈ blocks.enum, IterationOk v w p.1 p.2) →
        (run v w data_size).time_file =
          some (blocks.enum.map fun p => timing_record w.sys p.1).flatten ∧
        (run v w data_size).out_file =
          some (blocks.enum.map fun p => (sign v w p.1 p.2).bytes).flatten) :=
    run_truncated v w data_size blocks tail hinit hsize hfull h0 hlt hreads
  refine ⟨run_truncated_not_success v w data_size blocks tail hsize hfull h0 hlt hreads, ?_, ?_⟩
  · intro hnf
    refine (key ?_).1
    intro p hp
    by_cases hv : v = .libgcrypt
    · exact hnf hv p hp
    · exact sign_ne_fault v w p.1 p.2 hv
  · intro hok
    have hnf : ∀ p ∈ blocks.enum, sign v w p.1 p.2 ≠ .fault := by
      intro p hp
      obtain ⟨sig, hs, _⟩ := (hok p hp).signature
      rw [hs]
      simp
    exact ⟨(key hnf).1, (key hnf).2 hok⟩

/-- Witness of C3: five bytes read in blocks of two by the GnuTLS and by the
libgcrypt program. -/
theorem truncated_input_fails_witness :
    (init_flow .gnutls Example.two_blocks_and_a_byte = .ok ∧
      (run .gnutls Example.two_blocks_and_a_byte 2).exit = .returned 1 ∧
      (run .gnutls Example.two_blocks_and_a_byte 2).time_file =
        some [7, 0, 0, 0, 0, 0, 0, 0, 8, 0, 0, 0, 0, 0, 0, 0] ∧
      (run .gnutls Example.two_blocks_and_a_byte 2).out_file =
        some [48, 0, 1, 2, 48, 1, 3, 4]) ∧
    (init_flow .libgcrypt Example.two_blocks_and_a_byte = .ok ∧
      (run .libgcrypt Example.two_blocks_and_a_byte 2).exit = .returned 1 ∧
      (run .libgcrypt Example.two_blocks_and_a_byte 2).time_file =
        some [7, 0, 0, 0, 0, 0, 0, 0, 8, 0, 0, 0, 0, 0, 0, 0] ∧
      (run .libgcrypt Example.two_blocks_and_a_byte 2).out_file =
        some [0, 1, 2, 0, 0, 47, 1, 3, 4, 0, 0, 47]) :=
  have h1 := truncated_input_fails .gnutls Example.two_blocks_and_a_byte 2 [[1, 2], [3, 4]] [5]
    (by decide) (by decide) (by decide) (by decide) (by decide) (by decide)
  have h2 := truncated_input_fails .libgcrypt Example.two_blocks_and_a_byte 2 [[1, 2], [3, 4]] [5]
    (by decide) (by decide) (by decide) (by decide) (by decide) (by decide)
  ⟨⟨by decide, (h1.2.2 (by decide)).1, ((h1.2.2 (by decide)).2.1).trans (by decide),
      ((h1.2.2 (by decide)).2.2).trans (by decide)⟩,
    ⟨by decide, (h2.2.2 (by decide)).1, ((h2.2.2 (by decide)).2.1).trans (by decide),
      ((h2.2.2 (by decide)).2.2).trans (by decide)⟩⟩

/-- C4, as stated, fails for `data_size = 1`: an input of `data_size - 1 = 0`
bytes ends the run with status 0. -/
theorem empty_input_with_block_size_one_succeeds :
    ([] : List Byte).length = 1 - 1 ∧
    Example.empty_input.sys.reads = file_reads 1 [] ∧
    init_flow .openssl Example.empty_input = .ok ∧
    (run .openssl Example.empty_input 1).exit = .returned 0 := by
  decide

/-- C4, amended: for every block size of at least 2, an input of exactly
`data_size - 1` bytes read from a regular file ends the run through `err` with
exit status 1 and leaves both output files empty. -/
theorem one_byte_short_of_a_block_fails (v : Variant) (w : World) (data_size : Nat)
    (input : List Byte) (hinit : init_flow v w = .ok) (hsize : 2 ≤ data_size)
    (hlen : input.length = data_size - 1)
    (hreads : w.sys.reads = file_reads data_size input) :
    (run v w data_size).exit = .returned 1 ∧ (run v w data_size).time_file = some [] ∧
    (run v w data_size).out_file = some [] := by
  have h := run_truncated v w data_size [] input hinit (by omega) (by simp)
    (List.length_pos.mp (by omega)) (by omega) (by simpa using hreads) (by simp)
  refine ⟨h.1, ?_, ?_⟩
  · simpa using (h.2 (by simp)).1
  · simpa using (h.2 (by simp)).2

/-- Witness of C4, amended: 31 bytes read in blocks of 32 by the OpenSSL
program. -/
theorem one_byte_short_of_a_block_fails_witness :
    init_flow .openssl Example.thirty_one_bytes = .ok ∧
    (List.replicate 31 7).length = 32 - 1 ∧
    (run .openssl Example.thirty_one_bytes 32).exit = .returned 1 ∧
    (run .openssl Example.thirty_one_bytes 32).time_file = some [] ∧
    (run .openssl Example.thirty_one_bytes 32).out_file = some [] :=
  ⟨by decide, by decide,
    one_byte_short_of_a_block_fails .openssl Example.thirty_one_bytes 32 (List.replicate 31 7)
      (by decide) (by decide) (by decide) (by decide)⟩

/-- C5: in every program, when the first `k` blocks are processed successfully
and the signing step of block `k` fails, the run ends through `err` with exit
status 1, and both output files hold exactly the `k` records of the earlier
blocks, the same bytes that a run succeeding on them writes: nothing is written
for block `k` and nothing is taken back. -/
theorem sign_failure_keeps_earlier_records (v : Variant) (w : World) (data_size : Nat)
    (blocks : List (List Byte)) (block : List Byte) (rest : List ReadOutcome)
    (hinit : init_flow v w = .ok) (hsize : 0 < data_size)
    (hfull : ∀ b ∈ blocks, b.length = data_size) (hblock : block.length = data_size)
    (hreads : w.sys.reads = blocks.map .data ++ .data block :: rest)
    (hok : ∀ p ∈ blocks.enum, IterationOk v w p.1 p.2)
    (hfail : sign v w blocks.length block = .failure) :
    (run v w data_size).exit = .returned 1 ∧
    (run v w data_size).time_file =
      some (blocks.enum.map fun p => timing_record w.sys p.1).flatten ∧
    (run v w data_size).out_file =
      some (blocks.enum.map fun p => (sign v w p.1 p.2).bytes).flatten :=
  run_sign_failure v w data_size blocks block rest hinit hsize hfull hblock hreads hok hfail

/-- Witness of C5: the signing of the second of three blocks fails, in each of
the four programs. -/
theorem sign_failure_keeps_earlier_records_witness :
    (sign .gnutls (Example.second_signing_fails [.data [1, 2], .data [3, 4], .data [5, 6]]) 1
        [3, 4] = .failure ∧
      (run .gnutls (Example.second_signing_fails [.data [1, 2], .data [3, 4], .data [5, 6]])
        2).out_file = some [48, 0, 1, 2]) ∧
    (sign .openssl (Example.second_signing_fails [.data [1, 2], .data [3, 4], .data [5, 6]]) 1
        [3, 4] = .failure ∧
      (run .openssl (Example.second_signing_fails [.data [1, 2], .data [3, 4], .data [5, 6]])
        2).out_file = some [48, 5, 1, 2]) ∧
    (sign .libgcrypt (Example.second_signing_fails [.data [1, 2], .data [3, 4], .data [5, 6]]) 1
        [3, 4] = .failure ∧
      (run .libgcrypt (Example.second_signing_fails [.data [1, 2], .data [3, 4], .data [5, 6]])
        2).out_file = some [0, 1, 2, 0, 0, 47]) ∧
    (sign .nss (Example.second_signing_fails [.data [1, 2], .data [3, 4], .data [5, 6]]) 1
        [3, 4] = .failure ∧
      (run .nss (Example.second_signing_fails [.data [1, 2], .data [3, 4], .data [5, 6]])
        2).out_file = some [48, 0, 3, 1, 2]) :=
  have h (v : Variant) := sign_failure_keeps_earlier_records v
    (Example.second_signing_fails [.data [1, 2], .data [3, 4], .data [5, 6]]) 2 [[1, 2]] [3, 4]
    [.data [5, 6]]
  ⟨⟨by decide, ((h .gnutls (by decide) (by decide) (by decide) (by decide) (by decide)
      (by decide) (by decide)).2.2).trans (by decide)⟩,
    ⟨by decide, ((h .openssl (by decide) (by decide) (by decide) (by decide) (by decide)
      (by decide) (by decide)).2.2).trans (by decide)⟩,
    ⟨by decide, ((h .libgcrypt (by decide) (by decide) (by decide) (by decide) (by decide)
      (by decide) (by decide)).2.2).trans (by decide)⟩,
    ⟨by decide, ((h .nss (by decide) (by decide) (by decide) (by decide) (by decide)
      (by decide) (by decide)).2.2).trans (by decide)⟩⟩

/-- C6 fails on the code: when the first `read` returns `-1`, each of the four
programs leaves the loop as at end of input and returns 0, without reporting
anything. -/
theorem read_error_exits_with_success :
    (init_flow .gnutls Example.read_error = .ok ∧
      (run .gnutls Example.read_error 32).exit = .returned 0 ∧
      Event.read (-1) ∈ (run .gnutls Example.read_error 32).trace ∧
      Event.fprintf .failed ∉ (run .gnutls Example.read_error 32).trace) ∧
    (run .openssl Example.read_error 32).exit = .returned 0 ∧
    (run .libgcrypt Example.read_error 32).exit = .returned 0 ∧
    (init_flow .nss Example.read_error = .ok ∧
      (run .nss Example.read_error 32).exit = .returned 0 ∧
      Event.read (-1) ∈ (run .nss Example.read_error 32).trace ∧
      Event.fprintf .failed ∉ (run .nss Example.read_error 32).trace) := by
  decide

/-- C7 fails on the code: a `write` that accepts 4 of the 8 bytes of a timing
record, or 1 byte of a signature, is not an error in any of the four programs;
the run goes on and returns 0, and the files keep the cut records. -/
theorem short_write_goes_unnoticed :
    (Example.short_writes.sys.write_time 0 8 = 4 ∧
      Example.short_writes.sys.write_sig 1 4 = 1 ∧
      (run .gnutls Example.short_writes 2).exit = .returned 0 ∧
      (run .gnutls Example.short_writes 2).time_file =
        some [7, 0, 0, 0, 8, 0, 0, 0, 0, 0, 0, 0] ∧
      (run .gnutls Example.short_writes 2).out_file = some [48, 0, 1, 2, 48]) ∧
    (run .openssl Example.short_writes 2).exit = .returned 0 ∧
    ((run .libgcrypt Example.short_writes 2).exit = .returned 0 ∧
      (run .libgcrypt Example.short_writes 2).time_file =
        some [7, 0, 0, 0, 8, 0, 0, 0, 0, 0, 0, 0] ∧
      (run .libgcrypt Example.short_writes 2).out_file = some [0, 1, 2, 0, 0, 47, 1]) ∧
    (run .nss Example.short_writes 2).exit = .returned 0 := by
  decide

/-- C9 fails on the code.  In the libgcrypt program the signature buffer of
INIT is never released once a block is signed (the pointer is overwritten), and
of the buffers that replace it only the last is.  In the OpenSSL and libgcrypt
programs a failing `open` of the input reaches the cleanup with `fp`
uninitialised, which the cleanup tests and may close.  In the GnuTLS program a failing
`malloc` of the block buffer reaches `gnutls_privkey_deinit` with `privkey`
uninitialised, and the key buffer of `readfile` is never released. -/
theorem cleanup_misses_and_releases_unacquired :
    ((run .libgcrypt Example.two_blocks 2).exit = .returned 0 ∧
      Event.acquire .sig_init ∈ (run .libgcrypt Example.two_blocks 2).trace ∧
      Event.release .sig_init ∉ (run .libgcrypt Example.two_blocks 2).trace ∧
      Event.acquire (.sig_out 0) ∈ (run .libgcrypt Example.two_blocks 2).trace ∧
      Event.release (.sig_out 0) ∉ (run .libgcrypt Example.two_blocks 2).trace ∧
      Event.release (.sig_out 1) ∈ (run .libgcrypt Example.two_blocks 2).trace) ∧
    ((run .openssl Example.no_input 2).exit = .undefined ∧
      Event.acquire .fp ∉ (run .openssl Example.no_input 2).trace) ∧
    ((run .libgcrypt Example.no_input 2).exit = .undefined ∧
      Event.acquire .fp ∉ (run .libgcrypt Example.no_input 2).trace) ∧
    ((run .gnutls Example.no_block_buffer 2).exit = .undefined ∧
      Event.acquire .privkey ∉ (run .gnutls Example.no_block_buffer 2).trace ∧
      Event.backend .gnutls_privkey_deinit ∈ (run .gnutls Example.no_block_buffer 2).trace) ∧
    ((run .gnutls Example.two_blocks 2).exit = .returned 0 ∧
      Event.acquire .key_buf ∈ (run .gnutls Example.two_blocks 2).trace ∧
      Event.release .key_buf ∉ (run .gnutls Example.two_blocks 2).trace) := by
  decide

theorem libgcrypt_key_aborts (sys : Sys) (be : Libgcrypt.Backend) (ds : Nat)
    (hin : sys.open_in = true) (hout : sys.open_out = true) (htime : sys.open_time = true)
    (hmalloc : ∀ r, sys.malloc r = true) (hkey : Libgcrypt.KeyAborts sys be) :
    (Libgcrypt.main sys be ds).exit = .aborted ∧
    (Libgcrypt.main sys be ds).out_file = some [] ∧
    (Libgcrypt.main sys be ds).time_file = some [] ∧
    (∀ n, Event.read n ∉ (Libgcrypt.main sys be ds).trace) ∧
    (∀ r, Event.release r ∉ (Libgcrypt.main sys be ds).trace) := by
  obtain ⟨text, hk, h | ⟨key, rest, h1, h2⟩⟩ := hkey
  · simp [Libgcrypt.main, Libgcrypt.init, Libgcrypt.finish, St.log, St.set, St.halt, hin, hout,
      htime, hmalloc, hk, h]
  · have h2' := h2
    have hb : "b".toList = ['b'] := rfl
    rw [hmalloc, hb] at h2'
    simp [Libgcrypt.main, Libgcrypt.init, Libgcrypt.finish, St.log, St.set, St.halt, hin, hout,
      htime, hmalloc, hk, h1, h2']

theorem write_records_same_signatures {V : Type} (sys1 sys2 : Sys)
    (hwt : sys1.write_time = sys2.write_time) (hws : sys1.write_sig = sys2.write_sig)
    (i tb1 ta1 tb2 ta2 : Nat) (sig : List Byte) (n : Nat) (st1 st2 : St V)
    (h : SameSignatures st1 st2) :
    (write_records sys1 i tb1 ta1 sig n st1).1 = (write_records sys2 i tb2 ta2 sig n st2).1 ∧
    SameSignatures (write_records sys1 i tb1 ta1 sig n st1).2
      (write_records sys2 i tb2 ta2 sig n st2).2 := by
  obtain ⟨hv, ho, hu⟩ := h
  unfold write_records
  simp only [hwt, hws]
  by_cases h1 : sys2.write_time i 8 ≤ 0
  · simp [h1, SameSignatures, St.write_time, St.log, hv, ho, hu]
  · by_cases h2 : sys2.write_sig i n ≤ 0
    · simp [h1, h2, SameSignatures, St.write_time, St.write_sig, St.log, hv, ho, hu]
    · simp [h1, h2, SameSignatures, St.write_time, St.write_sig, St.log, hv, ho, hu]

theorem openssl_iteration_same_signatures (sys1 sys2 : Sys) (be : Openssl.Backend)
    (hwt : sys1.write_time = sys2.write_time) (hws : sys1.write_sig = sys2.write_sig)
    (pkey : Key) (i : Nat) (data : List Byte) (st1 st2 : St Openssl.Vars)
    (h : SameSignatures st1 st2) :
    (Openssl.iteration sys1 be pkey i data st1).1 = (Openssl.iteration sys2 be pkey i data st2).1 ∧
    SameSignatures (Openssl.iteration sys1 be pkey i data st1).2
      (Openssl.iteration sys2 be pkey i data st2).2 := by
  have hlog : ∀ (a b : St Openssl.Vars) (e : Event), SameSignatures a b →
      SameSignatures (a.log e) (b.log e) := fun a b e hab => hab
  unfold Openssl.iteration
  rcases hres : be.DigestSignFinal pkey data with ⟨r_ret, sig⟩
  by_cases h1 : be.DigestSignInit i = 0
  · simp only [h1, if_true]
    exact ⟨trivial, h⟩
  by_cases h2 : be.PKEY_CTX_set_params i = 0
  · simp only [h1, h2, if_true, if_false]
    exact ⟨trivial, h⟩
  by_cases h3 : be.DigestSignUpdate i = 0
  · simp only [h1, h2, h3, if_true, if_false]
    exact ⟨trivial, h⟩
  by_cases h4 : r_ret = 0
  · simp only [h1, h2, h3, h4, if_true, if_false]
    exact ⟨trivial, h⟩
  · simp only [h1, h2, h3, h4, if_false]
    exact write_records_same_signatures sys1 sys2 hwt hws i _ _ _ _ sig sig.length _ _
      (hlog _ _ _ (hlog _ _ _ (hlog _ _ _ (hlog _ _ _ (hlog _ _ _ (hlog _ _ _ h))))))

theorem harness_loop_same_signatures {V : Type}
    (body1 body2 : Nat → List Byte → St V → Flow × St V) (ds : Nat)
    (hbody : ∀ i data st1 st2, SameSignatures st1 st2 →
      (body1 i data st1).1 = (body2 i data st2).1 ∧
      SameSignatures (body1 i data st1).2 (body2 i data st2).2) :
    ∀ (reads : List ReadOutcome) (i : Nat) (st1 st2 : St V), SameSignatures st1 st2 →
      (harness_loop body1 ds reads i st1).1 = (harness_loop body2 ds reads i st2).1 ∧
      SameSignatures (harness_loop body1 ds reads i st1).2
        (harness_loop body2 ds reads i st2).2 := by
  intro reads
  induction reads with
  | nil =>
    intro i st1 st2 h
    exact ⟨rfl, h⟩
  | cons r rest ih =>
    intro i st1 st2 h
    simp only [harness_loop]
    by_cases h1 : r.r_ret > 0
    · by_cases h2 : r.r_ret ≠ (ds : Int)
      · rw [if_pos h1, if_pos h2, if_pos h1, if_pos h2]
        exact ⟨rfl, h⟩
      · rw [if_pos h1, if_neg h2, if_pos h1, if_neg h2]
        have hb := hbody i r.bytes (st1.log (.read r.r_ret)) (st2.log (.read r.r_ret)) h
        generalize body1 i r.bytes (st1.log (.read r.r_ret)) = res1 at hb
        generalize body2 i r.bytes (st2.log (.read r.r_ret)) = res2 at hb
        obtain ⟨f1, s1⟩ := res1
        obtain ⟨f2, s2⟩ := res2
        obtain ⟨hf, hs⟩ := hb
        simp only at hf hs
        subst hf
        cases f1
        · exact ih (i + 1) s1 s2 hs
        · exact ⟨rfl, hs⟩
        · exact ⟨rfl, hs⟩
        · exact ⟨rfl, hs⟩
    · rw [if_neg h1, if_neg h1]
      exact ⟨rfl, h⟩

theorem openssl_finish_out_file (f : Flow) (st : St Openssl.Vars) :
    (Openssl.finish (f, st)).out_file =
      if st.vars.out_fd = .null then none else some st.out_written := by
  have hrel : ∀ (a : St Openssl.Vars) (p : Ptr),
      (a.release p).vars = a.vars ∧ (a.release p).out_written = a.out_written := by
    intro a p
    cases p <;> exact ⟨rfl, rfl⟩
  cases f
  · simp [Openssl.finish, Openssl.out, St.ret, St.halt, hrel, St.log]
  · simp [Openssl.finish, Openssl.out, St.ret, St.halt, hrel, St.log]
  · simp [Openssl.finish, St.halt]
  · simp [Openssl.finish, St.halt]

/-- C10: in the OpenSSL program, where the nonce is deterministic and the
signature a function of key and block, two runs on the same input, key, block
size and system produce the same signature file, whatever values the cycle
counter returns in the one and in the other. -/
theorem signature_file_does_not_depend_on_timer (sys : Sys) (be : Openssl.Backend)
    (data_size : Nat) (before1 after1 before2 after2 : Nat → Nat) :
    (Openssl.main (sys.with_timer before1 after1) be data_size).out_file =
      (Openssl.main (sys.with_timer before2 after2) be data_size).out_file := by
  have hinit1 : Openssl.init (sys.with_timer before1 after1) be = Openssl.init sys be := rfl
  have hinit2 : Openssl.init (sys.with_timer before2 after2) be = Openssl.init sys be := rfl
  simp only [Openssl.main, hinit1, hinit2]
  rcases hres : Openssl.init sys be with ⟨f, st⟩
  cases f
  · simp only []
    have h := harness_loop_same_signatures
      (Openssl.iteration (sys.with_timer before1 after1) be st.vars.key)
      (Openssl.iteration (sys.with_timer before2 after2) be st.vars.key) data_size
      (fun i data st1 st2 hs =>
        openssl_iteration_same_signatures (sys.with_timer before1 after1)
          (sys.with_timer before2 after2) be rfl rfl st.vars.key i data st1 st2 hs)
      sys.reads 0 st st ⟨rfl, rfl, rfl⟩
    have hr1 : (sys.with_timer before1 after1).reads = sys.reads := rfl
    have hr2 : (sys.with_timer before2 after2).reads = sys.reads := rfl
    rw [hr1, hr2]
    generalize harness_loop (Openssl.iteration (sys.with_timer before1 after1) be st.vars.key)
      data_size sys.reads 0 st = res1 at h
    generalize harness_loop (Openssl.iteration (sys.with_timer before2 after2) be st.vars.key)
      data_size sys.reads 0 st = res2 at h
    obtain ⟨f1, s1⟩ := res1
    obtain ⟨f2, s2⟩ := res2
    obtain ⟨hf, hv, ho, _⟩ := h
    simp only at hf hv ho
    subst hf
    rw [openssl_finish_out_file, openssl_finish_out_file, hv, ho]
  all_goals rfl

/-! ## The repacked signature of the libgcrypt program -/

theorem pack_of_le (len : Nat) (p : List Byte) (hlen : len < 2 ^ 64) (hp : p.length ≤ len) :
    Libgcrypt.pack len p = .ok (List.replicate (len - p.length) 0 ++ p) := by
  unfold Libgcrypt.pack
  by_cases h : p.length = len
  · simp [h]
  · have hfill : (len + 2 ^ 64 - p.length) % 2 ^ 64 = len - p.length := by omega
    simp only [h, if_false, hfill]
    rw [if_neg (by omega)]

theorem pack_ok_cases (len : Nat) (p out : List Byte) (hlen : len < 2 ^ 64)
    (h : Libgcrypt.pack len p = .ok out) :
    (p.length ≤ len ∧ out = List.replicate (len - p.length) 0 ++ p) ∨ 2 ^ 64 ≤ out.length := by
  by_cases hp : p.length ≤ len
  · rw [pack_of_le len p hlen hp] at h
    exact Or.inl ⟨hp, (Libgcrypt.Outcome.ok.inj h).symm⟩
  · right
    unfold Libgcrypt.pack at h
    have hne : ¬ p.length = len := by omega
    simp only [hne, if_false] at h
    split at h
    · exact absurd h (by simp)
    · next hfill =>
      have hout := (Libgcrypt.Outcome.ok.inj h).symm
      rw [hout, List.length_append, List.length_replicate]
      omega

theorem be_value_zeros (k : Nat) (p : List Byte) :
    be_value (List.replicate k 0 ++ p) = be_value p := by
  have h0 : ∀ k : Nat, List.foldl (fun acc b => 256 * acc + b) 0 (List.replicate k 0) = 0 := by
    intro k
    induction k with
    | zero => rfl
    | succ n ih => simpa [List.replicate_succ] using ih
  unfold be_value
  rw [List.foldl_append, h0]

theorem to_size_t_lt (x : Int) : Libgcrypt.to_size_t x < 2 ^ 64 := by
  unfold Libgcrypt.to_size_t
  have h1 : 0 ≤ x % 2 ^ 64 := Int.emod_nonneg _ (by norm_num)
  have h2 : x % 2 ^ 64 < 2 ^ 64 := Int.emod_lt_of_pos _ (by norm_num)
  omega

theorem get_signature_ok (sys : Sys) (i : Nat) (sig_sexp : Libgcrypt.Sexp) (len : Nat)
    (sig : List Byte)
    (h : Libgcrypt.get_signature_from_expression sys i sig_sexp len = .ok (some sig)) :
    ∃ r s out_r out_s, sig_sexp.sig_val = some (some ⟨some r, some s⟩) ∧
      Libgcrypt.pack len r = .ok out_r ∧ Libgcrypt.pack len s = .ok out_s ∧
      sig = out_r ++ out_s := by
  obtain ⟨sig_val⟩ := sig_sexp
  unfold Libgcrypt.get_signature_from_expression Libgcrypt.component at h
  rcases sig_val with _ | _ | ⟨r, s⟩
  · simp at h
  · simp at h
  · rcases r with _ | r <;> rcases s with _ | s
    · simp only at h
      split at h <;> simp at h
    · simp only at h
      by_cases hm : sys.malloc (.out_s i) = true
      · simp only [hm, Bool.not_true, Bool.false_eq_true, if_false] at h
        cases hp : Libgcrypt.pack len s <;> simp only [hp] at h
        · split at h <;> simp at h
        · simp at h
        · simp at h
      · simp [hm] at h
    · simp only at h
      by_cases hm : sys.malloc (.out_r i) = true
      · simp only [hm, Bool.not_true, Bool.false_eq_true, if_false] at h
        cases hp : Libgcrypt.pack len r <;> simp only [hp] at h
        · split at h <;> simp at h
        · simp at h
        · simp at h
      · simp [hm] at h
    · simp only at h
      by_cases hm : sys.malloc (.out_r i) = true
      swap
      · simp [hm] at h
      simp only [hm, Bool.not_true, Bool.false_eq_true, if_false] at h
      cases hp : Libgcrypt.pack len r with
      | abort => simp [hp] at h
      | undefined => simp [hp] at h
      | ok out_r =>
        simp only [hp] at h
        by_cases hm2 : sys.malloc (.out_s i) = true
        swap
        · simp [hm2] at h
        simp only [hm2, Bool.not_true, Bool.false_eq_true, if_false] at h
        cases hq : Libgcrypt.pack len s with
        | abort => simp [hq] at h
        | undefined => simp [hq] at h
        | ok out_s =>
          simp only [hq] at h
          split at h
          · simp at h
          · simp only [Libgcrypt.Outcome.ok.injEq, Option.some.injEq] at h
            exact ⟨r, s, out_r, out_s, rfl, hp, hq, h.symm⟩

/-- C11: when the structured signature holds `r` and `s` with natural lengths
`n_r <= len` and `n_s <= len` (and the three buffers can be allocated),
`get_signature_from_expression` returns exactly `2 * len` bytes: `len - n_r`
zero bytes, the bytes of `r`, `len - n_s` zero bytes, the bytes of `s`. -/
theorem repacked_signature_layout (sys : Sys) (i : Nat) (r s : List Byte) (len : Nat)
    (hlen : len < 2 ^ 64) (hr : r.length ≤ len) (hs : s.length ≤ len)
    (hout_r : sys.malloc (.out_r i) = true) (hout_s : sys.malloc (.out_s i) = true)
    (hsig : sys.malloc (.sig_out i) = true) :
    Libgcrypt.get_signature_from_expression sys i ⟨some (some ⟨some r, some s⟩)⟩ len =
      .ok (some (List.replicate (len - r.length) 0 ++ r ++
        (List.replicate (len - s.length) 0 ++ s))) ∧
    (List.replicate (len - r.length) 0 ++ r ++
      (List.replicate (len - s.length) 0 ++ s)).length = 2 * len := by
  constructor
  · simp [Libgcrypt.get_signature_from_expression, Libgcrypt.component, hout_r, hout_s, hsig,
      pack_of_le len r hlen hr, pack_of_le len s hlen hs]
  · simp only [List.length_append, List.length_replicate]
    omega

/-- Witness of C11: `r` of full length 3 and `s` of length 1 in a field of 3
bytes. -/
theorem repacked_signature_layout_witness :
    Libgcrypt.get_signature_from_expression (Example.sys []) 0
      ⟨some (some ⟨some [1, 2, 3], some [47]⟩)⟩ 3 = .ok (some [1, 2, 3, 0, 0, 47]) :=
  (repacked_signature_layout (Example.sys []) 0 [1, 2, 3] [47] 3 (by decide) (by decide)
    (by decide) rfl rfl rfl).1

/-- C12: every signature that the libgcrypt program hands to `write` is made of
two halves of `len` bytes (`len` the baseline as `size_t`) whose values as
big-endian unsigned integers are the values of the `r` and the `s` of the
structured signature: the zero bytes in front do not change the value.  Hence
each half is below the curve order whenever `r` and `s` are. -/
theorem emitted_halves_are_r_and_s (sys : Sys) (be : Libgcrypt.Backend) (pkey : Key)
    (baseline : Int) (i : Nat) (data sig : List Byte)
    (h : Libgcrypt.sign sys be pkey baseline i data = .signature sig) :
    ∃ r s : List Byte,
      be.pk_sign i pkey data = some ⟨some (some ⟨some r, some s⟩)⟩ ∧
      (sig.take (Libgcrypt.to_size_t baseline)).length = Libgcrypt.to_size_t baseline ∧
      (sig.drop (Libgcrypt.to_size_t baseline)).length = Libgcrypt.to_size_t baseline ∧
      be_value (sig.take (Libgcrypt.to_size_t baseline)) = be_value r ∧
      be_value (sig.drop (Libgcrypt.to_size_t baseline)) = be_value s ∧
      ∀ order : Nat, be_value r < order → be_value s < order →
        be_value (sig.take (Libgcrypt.to_size_t baseline)) < order ∧
        be_value (sig.drop (Libgcrypt.to_size_t baseline)) < order := by
  unfold Libgcrypt.sign at h
  split at h
  · simp at h
  cases hsign : be.pk_sign i pkey data with
  | none => simp [hsign] at h
  | some sig_sexp =>
    simp only [hsign] at h
    cases hget : Libgcrypt.get_signature_from_expression sys i sig_sexp
        (Libgcrypt.to_size_t baseline) with
    | abort => simp [hget] at h
    | undefined => simp [hget] at h
    | ok res =>
      cases res with
      | none => simp [hget] at h
      | some sig' =>
        simp only [hget] at h
        split at h
        swap
        · simp at h
        next hcount =>
        have hsig : sig' = sig := Signed.signature.inj h
        subst hsig
        obtain ⟨r, s, out_r, out_s, hval, hpr, hps, hcat⟩ :=
          get_signature_ok sys i sig_sexp _ sig' hget
        have hlen := to_size_t_lt baseline
        have hlt : sig'.length < 2 ^ 64 := by
          rw [← hcount]
          exact to_size_t_lt _
        have hlr : out_r.length < 2 ^ 64 := by
          rw [hcat, List.length_append] at hlt
          omega
        have hls : out_s.length < 2 ^ 64 := by
          rw [hcat, List.length_append] at hlt
          omega
        rcases pack_ok_cases _ r out_r hlen hpr with ⟨hr, hor⟩ | hbig
        swap
        · omega
        rcases pack_ok_cases _ s out_s hlen hps with ⟨hs, hos⟩ | hbig
        swap
        · omega
        have hrl : out_r.length = Libgcrypt.to_size_t baseline := by
          rw [hor, List.length_append, List.length_replicate]
          omega
        have hsl : out_s.length = Libgcrypt.to_size_t baseline := by
          rw [hos, List.length_append, List.length_replicate]
          omega
        have htake : sig'.take (Libgcrypt.to_size_t baseline) = out_r := by
          rw [hcat, List.take_left' hrl]
        have hdrop : sig'.drop (Libgcrypt.to_size_t baseline) = out_s := by
          rw [hcat, List.drop_left' hrl]
        have hvr : be_value out_r = be_value r := by rw [hor, be_value_zeros]
        have hvs : be_value out_s = be_value s := by rw [hos, be_value_zeros]
        obtain ⟨sv⟩ := sig_sexp
        simp only at hval
        subst hval
        refine ⟨r, s, rfl, ?_, ?_, ?_, ?_, ?_⟩
        · rw [htake, hrl]
        · rw [hdrop, hsl]
        · rw [htake, hvr]
        · rw [hdrop, hvs]
        · intro order h1 h2
          rw [htake, hdrop, hvr, hvs]
          exact ⟨h1, h2⟩

/-- Witness of C12: the first block of the example library, with baseline 3. -/
theorem emitted_halves_are_r_and_s_witness :
    Libgcrypt.sign (Example.sys []) Example.libgcrypt 47 3 0 [1, 2] =
      .signature [0, 1, 2, 0, 0, 47] ∧
    be_value ([0, 1, 2, 0, 0, 47].take 3) = be_value [0, 1, 2] ∧
    be_value ([0, 1, 2, 0, 0, 47].drop 3) = be_value [47] ∧
    ∃ r s : List Byte,
      Example.libgcrypt.pk_sign 0 47 [1, 2] = some ⟨some (some ⟨some r, some s⟩)⟩ ∧
      be_value ([0, 1, 2, 0, 0, 47].take (Libgcrypt.to_size_t 3)) = be_value r ∧
      be_value ([0, 1, 2, 0, 0, 47].drop (Libgcrypt.to_size_t 3)) = be_value s :=
  have h := emitted_halves_are_r_and_s (Example.sys []) Example.libgcrypt 47 3 0 [1, 2]
    [0, 1, 2, 0, 0, 47] (by decide)
  ⟨by decide, by decide, by decide,
    h.elim fun r hr => hr.elim fun s hs => ⟨r, s, hs.1, hs.2.2.2.1, hs.2.2.2.2.1⟩⟩

/-! ## A structured signature with a part missing -/

/-- C13, as stated, fails: when `sig-val` is missing the libgcrypt program
prints its message and calls `abort()`, so no cleanup runs and `main` does not
return; when `ecdsa`, `r` or `s` is missing the `NULL` buffer is copied from,
which is undefined.  In none of the four cases does the run reach `err`. -/
theorem missing_part_never_reaches_err :
    ((run .libgcrypt Example.no_sig_val 2).exit = .aborted ∧
      Event.fprintf .failed ∉ (run .libgcrypt Example.no_sig_val 2).trace ∧
      Event.release .in_fd ∉ (run .libgcrypt Example.no_sig_val 2).trace ∧
      Event.release .out_fd ∉ (run .libgcrypt Example.no_sig_val 2).trace ∧
      Event.release .time_fd ∉ (run .libgcrypt Example.no_sig_val 2).trace) ∧
    (run .libgcrypt (Example.part_missing 0) 2).exit = .undefined ∧
    (run .libgcrypt (Example.part_missing 1) 2).exit = .undefined ∧
    (run .libgcrypt (Example.part_missing 2) 2).exit = .undefined := by
  decide

/-- C13, amended: in the libgcrypt program, when the structured signature of
block `k` has no `sig-val` (after `k` blocks processed successfully), the
program prints "Signature not obtained correctly" and calls `abort()`: that
message is the last thing it does, so the cleanup does not run and `main` does
not return; no timing record and no signature is written for block `k`, and the
files keep the `k` earlier records. -/
theorem missing_sig_val_aborts (w : World) (data_size : Nat) (blocks : List (List Byte))
    (block : List Byte) (rest : List ReadOutcome)
    (hinit : init_flow .libgcrypt w = .ok) (hsize : 0 < data_size)
    (hfull : ∀ b ∈ blocks, b.length = data_size) (hblock : block.length = data_size)
    (hreads : w.sys.reads = blocks.map .data ++ .data block :: rest)
    (hok : ∀ p ∈ blocks.enum, IterationOk .libgcrypt w p.1 p.2)
    (hbuild : w.libgcrypt.sexp_build_data blocks.length block = true)
    (hsign : w.libgcrypt.pk_sign blocks.length
      (Libgcrypt.init w.sys w.libgcrypt).2.vars.key block = some ⟨none⟩) :
    (run .libgcrypt w data_size).exit = .aborted ∧
    (run .libgcrypt w data_size).trace.getLast? = some (.fprintf .signature_not_obtained) ∧
    (run .libgcrypt w data_size).time_file =
      some (blocks.enum.map fun p => timing_record w.sys p.1).flatten ∧
    (run .libgcrypt w data_size).out_file =
      some (blocks.enum.map fun p => (sign .libgcrypt w p.1 p.2).bytes).flatten := by
  obtain ⟨st, hP, _, htime, hout, hrun⟩ :=
    run_prefix .libgcrypt w data_size blocks (.data block :: rest) hinit hsize hfull hreads hok
  obtain ⟨_, p2, p3, _, _, _, _⟩ := hP
  rw [hrun, harness_loop_full _ data_size block rest blocks.length st hsize hblock]
  simp only [body_of, finish_of]
  simp [Libgcrypt.iteration, hbuild, hsign, Libgcrypt.get_signature_from_expression,
    Libgcrypt.finish, St.halt, St.log, p2, p3, htime, hout]

/-- Witness of C13, amended: the second of two blocks has no `sig-val`. -/
theorem missing_sig_val_aborts_witness :
    init_flow .libgcrypt Example.no_sig_val = .ok ∧
    Example.no_sig_val.libgcrypt.pk_sign 1 47 [3, 4] = some ⟨none⟩ ∧
    (run .libgcrypt Example.no_sig_val 2).exit = .aborted ∧
    (run .libgcrypt Example.no_sig_val 2).trace.getLast? =
      some (.fprintf .signature_not_obtained) ∧
    (run .libgcrypt Example.no_sig_val 2).time_file = some [7, 0, 0, 0, 0, 0, 0, 0] ∧
    (run .libgcrypt Example.no_sig_val 2).out_file = some [0, 1, 2, 0, 0, 47] :=
  have h := missing_sig_val_aborts Example.no_sig_val 2 [[1, 2]] [3, 4] [] (by decide)
    (by decide) (by decide) (by decide) (by decide) (by decide) (by decide) (by decide)
  ⟨by decide, by decide, h.1, h.2.1, h.2.2.1.trans (by decide), h.2.2.2.trans (by decide)⟩

/-! ## The timing sample and the clock -/

theorem uint64_value_bytes (e : Bool) (x : Nat) :
    uint64_value e (uint64_bytes e x) = x % 2 ^ 64 := by
  have h : be_value [x / 256 ^ 7 % 256, x / 256 ^ 6 % 256, x / 256 ^ 5 % 256,
      x / 256 ^ 4 % 256, x / 256 ^ 3 % 256, x / 256 ^ 2 % 256, x / 256 ^ 1 % 256,
      x / 256 ^ 0 % 256] = x % 2 ^ 64 := by
    simp only [be_value, List.foldl]
    norm_num
    omega
  cases e
  · simpa [uint64_value, uint64_bytes, List.range, List.range.loop] using h
  · simpa [uint64_value, uint64_bytes, List.range, List.range.loop] using h

/-- C14: for 64-bit readings `start` and `stop`, the bytes sent to the timing
file are those of `(stop - start) mod 2^64`: the true difference when
`stop >= start`, the difference plus `2^64` when `stop < start`; and whether the
iteration goes on does not depend on the readings, so a wrap-around is neither
detected nor corrected. -/
theorem timing_sample_is_difference_modulo (V : Type) (sys : Sys) (i start stop : Nat)
    (sig : List Byte) (n : Nat) (st : St V) (hstart : start < 2 ^ 64) (hstop : stop < 2 ^ 64) :
    (write_records sys i start stop sig n st).2.time_written =
      st.time_written ++
        (uint64_bytes sys.big_endian (uint64_sub stop start)).take (sys.write_time i 8).toNat ∧
    uint64_value sys.big_endian (uint64_bytes sys.big_endian (uint64_sub stop start)) =
      uint64_sub stop start ∧
    ((uint64_sub stop start : Nat) : Int) = ((stop : Int) - (start : Int)) % 2 ^ 64 ∧
    (start ≤ stop → uint64_sub stop start = stop - start) ∧
    (stop < start → uint64_sub stop start = stop + 2 ^ 64 - start) ∧
    ∀ start' stop' : Nat,
      (write_records sys i start' stop' sig n st).1 = (write_records sys i start stop sig n st).1 := by
  refine ⟨?_, ?_, ?_, ?_, ?_, ?_⟩
  · unfold write_records
    simp only [St.write_time, St.write_sig, St.log]
    split
    · rfl
    · split <;> rfl
  · rw [uint64_value_bytes]
    unfold uint64_sub
    omega
  · unfold uint64_sub
    omega
  · intro h
    unfold uint64_sub
    omega
  · intro h
    unfold uint64_sub
    omega
  · intro start' stop'
    exact (write_records_same_signatures sys sys rfl rfl i start' stop' start stop sig n st st
      ⟨rfl, rfl, rfl⟩).1

/-- Witness of C14: the counter stands at 5 before and at 3 after. -/
theorem timing_sample_is_difference_modulo_witness :
    uint64_sub 3 5 = 2 ^ 64 - 2 ∧ uint64_sub 5 3 = 2 ∧
    (write_records (Example.sys []) 0 5 3 [48] 1 (⟨(), [], [], [], false⟩ : St Unit)).2.time_written =
      [254, 255, 255, 255, 255, 255, 255, 255] :=
  have h := timing_sample_is_difference_modulo Unit (Example.sys []) 0 5 3 [48] 1
    ⟨(), [], [], [], false⟩ (by decide) (by decide)
  ⟨by decide, by decide, h.1.trans (by decide)⟩

theorem list_of_length_16 (l : List Nat) (h : l.length = 16) :
    ∃ b0 b1 b2 b3 b4 b5 b6 b7 b8 b9 b10 b11 b12 b13 b14 b15 : Nat,
      l = [b0, b1, b2, b3, b4, b5, b6, b7, b8, b9, b10, b11, b12, b13, b14, b15] := by
  match l, h with
  | [b0, b1, b2, b3, b4, b5, b6, b7, b8, b9, b10, b11, b12, b13, b14, b15], _ =>
    exact ⟨b0, b1, b2, b3, b4, b5, b6, b7, b8, b9, b10, b11, b12, b13, b14, b15, rfl⟩

/-- C16, as stated, fails: on s390x the tick count that `get_time_before` and
`get_time_after` return is not the value of the lower 8 bytes of the 16-byte
clock value (bytes 8 to 15, the least significant ones), and not that of its
first 8 bytes either. -/
theorem s390x_tick_is_not_the_lower_half :
    Example.counter.clk.length = 16 ∧
    get_time_before .s390x Example.counter ≠ be_value (Example.counter.clk.drop 8) ∧
    get_time_after .s390x Example.counter ≠ be_value (Example.counter.clk.drop 8) ∧
    get_time_before .s390x Example.counter ≠ be_value (Example.counter.clk.take 8) ∧
    get_time_before .s390x Example.counter = be_value [2, 3, 4, 5, 6, 7, 8, 9] := by
  decide

/-- C16, amended: on s390x `get_time_before` and `get_time_after` store a
16-byte extended clock value and return, as the tick count, the 8 bytes that
follow its first byte (bytes 1 to 8, what `stck` returns), read as one
big-endian integer: bits 56 to 119 of the 128-bit value. -/
theorem s390x_tick_is_bytes_one_to_eight (c : Counter) (hlen : c.clk.length = 16)
    (hbytes : ∀ b ∈ c.clk, b < 256) :
    get_time_before .s390x c = be_value ((c.clk.drop 1).take 8) ∧
    get_time_after .s390x c = be_value ((c.clk.drop 1).take 8) ∧
    ((c.clk.drop 1).take 8).length = 8 ∧
    get_time_before .s390x c = be_value c.clk / 2 ^ 56 % 2 ^ 64 ∧
    get_time_after .s390x c = be_value c.clk / 2 ^ 56 % 2 ^ 64 := by
  obtain ⟨b0, b1, b2, b3, b4, b5, b6, b7, b8, b9, b10, b11, b12, b13, b14, b15, hc⟩ :=
    list_of_length_16 c.clk hlen
  have key : be_value ((c.clk.drop 1).take 8) = be_value c.clk / 2 ^ 56 % 2 ^ 64 := by
    have hb : ∀ b : Nat, b ∈ c.clk → b < 256 := hbytes
    rw [hc] at hb ⊢
    simp only [List.mem_cons, List.mem_singleton, forall_eq_or_imp, forall_eq,
      List.not_mem_nil] at hb
    clear hbytes
    simp only [List.drop_succ_cons, List.drop_zero, List.take_succ_cons, List.take_zero,
      be_value, List.foldl]
    omega
  refine ⟨rfl, rfl, ?_, key, key⟩
  rw [hc]
  rfl

/-- Witness of C16, amended: the clock value 1, 2, ..., 16. -/
theorem s390x_tick_is_bytes_one_to_eight_witness :
    get_time_before .s390x Example.counter = be_value [2, 3, 4, 5, 6, 7, 8, 9] ∧
    get_time_before .s390x Example.counter = be_value Example.counter.clk / 2 ^ 56 % 2 ^ 64 :=
  have h := s390x_tick_is_bytes_one_to_eight Example.counter (by decide) (by decide)
  ⟨h.1.trans (by decide), h.2.2.2.1⟩

/-! ## The key description of the libgcrypt program: lines and values -/

theorem fgets_take_line (l rest : List Char) (h : '\n' ∉ l) :
    ∀ n, l.length < n → Libgcrypt.fgets_take n (l ++ '\n' :: rest) = l ++ ['\n'] := by
  induction l with
  | nil =>
    intro n hn
    obtain ⟨m, rfl⟩ : ∃ m, n = m + 1 := ⟨n - 1, by simp at hn; omega⟩
    simp [Libgcrypt.fgets_take]
  | cons c cs ih =>
    intro n hn
    obtain ⟨m, rfl⟩ : ∃ m, n = m + 1 := ⟨n - 1, by simp at hn; omega⟩
    have hc : c ≠ '\n' := fun e => h (by simp [e])
    have hcs : '\n' ∉ cs := fun e => h (by simp [e])
    have hm : cs.length < m := by simpa using hn
    show Libgcrypt.fgets_take (m + 1) (c :: (cs ++ '\n' :: rest)) = c :: (cs ++ ['\n'])
    simp only [Libgcrypt.fgets_take, hc, if_false]
    rw [ih hcs m hm]

theorem fgets_line (l rest : List Char) (h : '\n' ∉ l) (hlen : l.length < 4095) :
    Libgcrypt.fgets 4096 (l ++ '\n' :: rest) = some (l ++ ['\n'], rest) := by
  unfold Libgcrypt.fgets
  simp only [show 4096 - 1 = 4095 from rfl]
  rw [fgets_take_line l rest h 4095 hlen]
  simp

theorem takeWhile_line (l : List Char) (h : '\n' ∉ l) :
    (l ++ ['\n']).takeWhile (· ≠ '\n') = l := by
  induction l with
  | nil => simp [List.takeWhile]
  | cons c cs ih =>
    have hc : c ≠ '\n' := fun e => h (by simp [e])
    have hcs : '\n' ∉ cs := fun e => h (by simp [e])
    have ih := ih hcs
    rw [List.cons_append, List.takeWhile_cons]
    simp only [ne_eq, hc, not_false_eq_true, decide_True, if_true]
    rw [ih]

theorem takeWhile_no_nul (l : List Char) (h : '\x00' ∉ l) :
    (l ++ ['\n']).takeWhile (· ≠ '\x00') = l ++ ['\n'] := by
  induction l with
  | nil => simp [List.takeWhile]
  | cons c cs ih =>
    have hc : c ≠ '\x00' := fun e => h (by simp [e])
    have hcs : '\x00' ∉ cs := fun e => h (by simp [e])
    have ih := ih hcs
    rw [List.cons_append, List.takeWhile_cons]
    simp only [ne_eq, hc, not_false_eq_true, decide_True, if_true]
    rw [ih]

theorem read_line_loop_step (fuel : Nat) (l rest : List Char) (h : Libgcrypt.Fits l) :
    Libgcrypt.read_line_loop (fuel + 1) (l ++ '\n' :: rest) =
      if l = [] ∨ l.head? = some '#' then Libgcrypt.read_line_loop fuel rest else .ok (some l, rest) := by
  obtain ⟨h1, h2, h3⟩ := h
  simp only [Libgcrypt.read_line_loop]
  rw [fgets_line l rest h1 h3]
  simp only [takeWhile_no_nul l h2, takeWhile_line l h1]
  simp

theorem terminated_cons (l : List Char) (ls : List (List Char)) (tail : List Char) :
    Libgcrypt.terminated (l :: ls) ++ tail = l ++ '\n' :: (Libgcrypt.terminated ls ++ tail) := by
  simp [Libgcrypt.terminated]

theorem length_terminated (ls : List (List Char)) : ls.length ≤ (Libgcrypt.terminated ls).length := by
  induction ls with
  | nil => simp
  | cons l ls ih =>
    have := terminated_cons l ls []
    simp only [List.append_nil] at this
    rw [this]
    simp
    omega

theorem read_line_loop_skip (skipped : List (List Char)) (tail : List Char)
    (hskip : ∀ l ∈ skipped, (l = [] ∨ l.head? = some '#') ∧ Libgcrypt.Fits l) (fuel : Nat) :
    Libgcrypt.read_line_loop (fuel + skipped.length) (Libgcrypt.terminated skipped ++ tail) =
      Libgcrypt.read_line_loop fuel tail := by
  induction skipped with
  | nil => simp [Libgcrypt.terminated]
  | cons l ls ih =>
    have hl := hskip l (by simp)
    rw [terminated_cons, List.length_cons, ← Nat.add_assoc, read_line_loop_step _ _ _ hl.2,
      if_pos hl.1]
    exact ih (fun l h => hskip l (by simp [h]))

theorem mem_fgets_take (x : Char) : ∀ (n : Nat) (l : List Char),
    x ∈ Libgcrypt.fgets_take n l → x ∈ l.take n
  | 0, _, h => by simp [Libgcrypt.fgets_take] at h
  | _ + 1, [], h => by simp [Libgcrypt.fgets_take] at h
  | n + 1, c :: cs, h => by
    simp only [Libgcrypt.fgets_take] at h
    split at h
    · simp at h
      simp [h]
    · simp only [List.mem_cons] at h
      rcases h with h | h
      · simp [h]
      · simp [mem_fgets_take x n cs h]

theorem read_line_loop_abort (fuel : Nat) (tail : List Char) (hne : tail ≠ [])
    (h : '\n' ∉ tail.take 4095) : Libgcrypt.read_line_loop (fuel + 1) tail = .abort := by
  obtain ⟨c, cs, rfl⟩ := List.exists_cons_of_ne_nil hne
  have hbuf : Libgcrypt.fgets_take 4095 (c :: cs) ≠ [] := by
    simp only [Libgcrypt.fgets_take]
    split <;> simp
  have hmem : '\n' ∉ (Libgcrypt.fgets_take 4095 (c :: cs)).takeWhile (· ≠ '\x00') :=
    fun hx => h (mem_fgets_take _ _ _ (List.takeWhile_subset _ hx))
  simp only [Libgcrypt.read_line_loop, Libgcrypt.fgets, show 4096 - 1 = 4095 from rfl, if_neg hbuf]
  rw [if_pos hmem]

theorem read_line_fuel (skipped : List (List Char)) (tail : List Char) :
    ∃ fuel, (Libgcrypt.terminated skipped ++ tail).length + 1 = (fuel + 1) + skipped.length := by
  have := length_terminated skipped
  refine ⟨(Libgcrypt.terminated skipped ++ tail).length - skipped.length, ?_⟩
  simp only [List.length_append]
  omega

/-- C19, as stated, fails: when the file ends inside a comment line, the end of
the file is reached before any line that is neither empty nor a comment, yet
`read_line` calls `abort()` instead of returning `NULL`; and a last line that
is neither empty nor a comment but has no newline is not returned either. -/
theorem read_line_aborts_on_unterminated_line :
    Libgcrypt.read_line "# only a comment".toList = .abort ∧
    Libgcrypt.read_line "\n# key\nd=0A".toList = .abort := by
  decide

/-- C19, amended: when the file starts with lines that are empty or start with
`#`, each ended by a newline, free of NUL bytes and shorter than 4095 bytes,
`read_line` skips them all; it returns the next line without its newline when
that line is neither empty nor a comment and meets the same three conditions,
it returns `NULL` when the file ends there, and it calls `abort()` when what
follows has no newline among its first 4095 bytes. -/
theorem read_line_returns_next_effective_line (skipped : List (List Char)) (line rest : List Char)
    (hskip : ∀ l ∈ skipped, (l = [] ∨ l.head? = some '#') ∧ Libgcrypt.Fits l)
    (hline : line ≠ [] ∧ line.head? ≠ some '#' ∧ Libgcrypt.Fits line) :
    Libgcrypt.read_line (Libgcrypt.terminated skipped ++ (line ++ '\n' :: rest)) = .ok (some line, rest) ∧
    Libgcrypt.read_line (Libgcrypt.terminated skipped) = .ok (none, []) ∧
    ∀ tail : List Char, tail ≠ [] → '\n' ∉ tail.take 4095 →
      Libgcrypt.read_line (Libgcrypt.terminated skipped ++ tail) = .abort := by
  refine ⟨?_, ?_, ?_⟩
  · obtain ⟨fuel, hf⟩ := read_line_fuel skipped (line ++ '\n' :: rest)
    unfold Libgcrypt.read_line
    rw [hf, read_line_loop_skip _ _ hskip, read_line_loop_step _ _ _ hline.2.2,
      if_neg (by rintro (h | h); exacts [hline.1 h, hline.2.1 h])]
  · obtain ⟨fuel, hf⟩ := read_line_fuel skipped []
    have h := read_line_loop_skip skipped [] hskip (fuel + 1)
    simp only [List.append_nil] at h hf
    unfold Libgcrypt.read_line
    rw [hf, h]
    rfl
  · intro tail hne htail
    obtain ⟨fuel, hf⟩ := read_line_fuel skipped tail
    unfold Libgcrypt.read_line
    rw [hf, read_line_loop_skip _ _ hskip, read_line_loop_abort _ _ hne htail]

/-- Witness of C19, amended: three skipped lines before `d=0A`. -/
theorem read_line_returns_next_effective_line_witness :
    Libgcrypt.read_line "\n# private key\n\nd=0A\nsize=72\n".toList =
      .ok (some "d=0A".toList, "size=72\n".toList) :=
  (read_line_returns_next_effective_line ["".toList, "# private key".toList, "".toList] "d=0A".toList
    "size=72\n".toList (by decide) (by decide)).1

theorem read_string_eq (s : List Char) : Libgcrypt.read_string s = s.map Char.toNat := by
  induction s with
  | nil => rfl
  | cons c s ih => simp [Libgcrypt.read_string, ih]

theorem hex_digit_plain (c : Char) (h : Libgcrypt.hex_digit c ≠ none) :
    Libgcrypt.isspace c = false ∧ c ≠ '+' ∧ c ≠ '-' := by
  have hc : Char.ofNat c.toNat = c := Char.ofNat_toNat c
  by_contra hcon
  have hmem : c.toNat = 9 ∨ c.toNat = 10 ∨ c.toNat = 11 ∨ c.toNat = 12 ∨ c.toNat = 13 ∨
      c.toNat = 32 ∨ c.toNat = 43 ∨ c.toNat = 45 := by
    by_contra hno
    apply hcon
    refine ⟨?_, ?_, ?_⟩
    · unfold Libgcrypt.isspace
      by_contra hs
      simp only [Bool.not_eq_false, Bool.or_eq_true, decide_eq_true_eq, Bool.and_eq_true] at hs
      rcases hs with hs | hs
      · rw [hs] at hno
        exact hno (by decide)
      · omega
    · intro e
      rw [e] at hno
      exact hno (by decide)
    · intro e
      rw [e] at hno
      exact hno (by decide)
  rcases hmem with e | e | e | e | e | e | e | e <;>
    (rw [e] at hc; rw [← hc] at h; exact h (by decide))

theorem sscanf_2hhx_digits (c1 c2 : Char) (s : List Char) (h1 : Libgcrypt.hex_digit c1 ≠ none)
    (h2 : Libgcrypt.hex_digit c2 ≠ none) :
    Libgcrypt.sscanf_2hhx (c1 :: c2 :: s) = some (16 * Libgcrypt.hex_value c1 + Libgcrypt.hex_value c2) := by
  obtain ⟨hs, hp, hm⟩ := hex_digit_plain c1 h1
  obtain ⟨d1, e1⟩ := Option.ne_none_iff_exists'.mp h1
  obtain ⟨d2, e2⟩ := Option.ne_none_iff_exists'.mp h2
  simp [Libgcrypt.sscanf_2hhx, List.dropWhile, hs, hp, hm, e1, e2, Libgcrypt.hex_value]

theorem read_hex_digits (len : Nat) : ∀ (k : Nat) (value : List Char) (pos : Nat),
    value.length = 2 * k → (∀ c ∈ value, Libgcrypt.hex_digit c ≠ none) → pos + k ≤ len →
    ∃ bytes, Libgcrypt.read_hex len value pos = .ok bytes ∧ bytes.length = k ∧
      ∀ i, i < k → bytes.get? i =
        some (16 * Libgcrypt.hex_value (value.getD (2 * i) '0') + Libgcrypt.hex_value (value.getD (2 * i + 1) '0'))
  | 0, value, pos, hlen, _, _ => by
    have : value = [] := List.length_eq_zero.mp (by simpa using hlen)
    subst this
    exact ⟨[], rfl, rfl, fun i hi => absurd hi (by omega)⟩
  | k + 1, value, pos, hlen, hhex, hpos => by
    match value, hlen, hhex with
    | c1 :: c2 :: s, hlen, hhex =>
      have hs : s.length = 2 * k := by simp at hlen; omega
      obtain ⟨bytes, hb, hbl, hbi⟩ := read_hex_digits len k s (pos + 1) hs
        (fun c hc => hhex c (by simp [hc])) (by omega)
      refine ⟨(16 * Libgcrypt.hex_value c1 + Libgcrypt.hex_value c2) :: bytes, ?_, by simp [hbl], ?_⟩
      · have hlt : ¬ pos ≥ len := by omega
        simp only [Libgcrypt.read_hex, if_neg hlt]
        rw [sscanf_2hhx_digits c1 c2 s (hhex c1 (by simp)) (hhex c2 (by simp))]
        simp only [hb]
      · intro i hi
        cases i with
        | zero => simp
        | succ j =>
          have := hbi j (by omega)
          simp only [List.get?_cons_succ, this]
          have e1 : 2 * (j + 1) = (2 * j + 1) + 1 := by omega
          have e2 : 2 * (j + 1) + 1 = (2 * j + 1 + 1) + 1 := by omega
          rw [e2, e1]
          simp [List.getD_cons_succ]

/-- C20: when `read_line` delivers the line `expected=value` and `malloc`
succeeds, `read_param` in mode `READ_STRING` returns the characters of the value
unchanged with `len` their number, and in mode `READ_HEX`, for a value of `2 * k`
hexadecimal digits, a buffer of `len = k` bytes whose byte `i` is the number
written by digits `2 * i` and `2 * i + 1` of the value. -/
theorem read_param_decodes_value (fp rest expected value : List Char) (k : Nat)
    (hline : Libgcrypt.read_line fp = .ok (some (expected ++ '=' :: value), rest)) :
    Libgcrypt.read_param true fp .READ_STRING expected =
      .ok ((value.map Char.toNat, value.length), rest) ∧
    (value.length = 2 * k → (∀ c ∈ value, Libgcrypt.hex_digit c ≠ none) →
      ∃ bytes, Libgcrypt.read_param true fp .READ_HEX expected = .ok ((bytes, k), rest) ∧
        bytes.length = k ∧
        ∀ i, i < k → bytes.get? i =
          some (16 * Libgcrypt.hex_value (value.getD (2 * i) '0') +
            Libgcrypt.hex_value (value.getD (2 * i + 1) '0'))) := by
  have hpre : expected.isPrefixOf (expected ++ '=' :: value) = true := by
    simp
  have hsep : (expected ++ '=' :: value).get? expected.length = some '=' := by
    rw [List.get?_eq_getElem?, List.getElem?_append_right (Nat.le_refl _)]
    simp
  have hval : (expected ++ '=' :: value).drop (expected.length + 1) = value := by
    simp
  refine ⟨?_, ?_⟩
  · unfold Libgcrypt.read_param
    rw [hline]
    simp only [hpre, hsep, hval, Libgcrypt.READ_PARAM_MODE.val, Nat.div_one, read_string_eq]
    simp
  · intro hlen hhex
    obtain ⟨bytes, hb, hbl, hbi⟩ := read_hex_digits k k value 0 hlen hhex (by omega)
    refine ⟨bytes, ?_, hbl, hbi⟩
    have hk : value.length / 2 = k := by omega
    unfold Libgcrypt.read_param
    rw [hline]
    simp only [hpre, hsep, hval, Libgcrypt.READ_PARAM_MODE.val, hk, hb]
    simp

/-- Witness of C20: the line `d=0aF1`. -/
theorem read_param_decodes_value_witness :
    Libgcrypt.read_param true "d=0aF1\n".toList .READ_STRING "d".toList =
      .ok (([48, 97, 70, 49], 4), []) ∧
    ∃ bytes, Libgcrypt.read_param true "d=0aF1\n".toList .READ_HEX "d".toList = .ok ((bytes, 2), []) ∧
      bytes.length = 2 ∧ ∀ i, i < 2 → bytes.get? i =
          some (16 * Libgcrypt.hex_value ("0aF1".toList.getD (2 * i) '0') +
            Libgcrypt.hex_value ("0aF1".toList.getD (2 * i + 1) '0')) :=
  have h := read_param_decodes_value "d=0aF1\n".toList [] "d".toList "0aF1".toList 2 (by decide)
  ⟨h.1, h.2 (by decide) (by decide)⟩

/-! ## Signing calls and measured windows in the trace -/

theorem QuietExt.refl (t : List Event) : QuietExt t t :=
  ⟨[], by simp, rfl⟩

theorem QuietExt.log {V : Type} {t : List Event} {st : St V} (h : QuietExt t st.trace)
    (e : Event) (he : e.quiet = true) : QuietExt t (st.log e).trace := by
  obtain ⟨l, hl, hq⟩ := h
  exact ⟨l ++ [e], by simp [St.log, hl], by simp [hq, he]⟩

theorem QuietExt.release {V : Type} {t : List Event} {st : St V} (h : QuietExt t st.trace)
    (p : Ptr) : QuietExt t (st.release p).trace := by
  cases p
  · exact h
  · exact QuietExt.log h _ rfl
  · exact h

theorem scan_append (a b : List Event) :
    scan (a ++ b) = b.foldl Scan.step (scan a) := by
  simp [scan, List.foldl_append]

theorem quiet_step (s : Scan) (e : Event) (he : e.quiet = true) :
    (s.step e).closed = s.closed ∧ ((s.step e).open_window = none ↔ s.open_window = none) := by
  cases e <;> simp [Event.quiet] at he <;>
    (rcases s with ⟨_ | win, c⟩ <;> simp [Scan.step])

theorem quiet_foldl (l : List Event) (hl : l.all Event.quiet = true) : ∀ s : Scan,
    (l.foldl Scan.step s).closed = s.closed ∧
    ((l.foldl Scan.step s).open_window = none ↔ s.open_window = none) := by
  induction l with
  | nil => intro s; simp
  | cons e l ih =>
    intro s
    simp only [List.all_cons, Bool.and_eq_true] at hl
    have h1 := quiet_step s e hl.1
    have h2 := ih hl.2 (s.step e)
    simp only [List.foldl_cons]
    exact ⟨h2.1.trans h1.1, h2.2.trans h1.2⟩

theorem quiet_event (v : Variant) (ds : Nat) (e : Event) (he : e.quiet = true) :
    e ≠ .backend (sign_call v) ∧ e.setup_failure v = false ∧ e ≠ .read ds := by
  cases e with
  | backend c => cases v <;> cases c <;> simp_all [Event.quiet, Call.is_signing, sign_call,
      Event.setup_failure]
  | fprintf m => cases m <;> simp_all [Event.quiet, Msg.is_sign_failed, Event.setup_failure]
  | _ => simp_all [Event.quiet, Event.setup_failure]

theorem quiet_counts (v : Variant) (ds : Nat) (l : List Event) (hl : l.all Event.quiet = true) :
    sign_calls v l = 0 ∧ setup_failures v l = 0 ∧ full_reads ds l = 0 := by
  induction l with
  | nil => simp [sign_calls, setup_failures, full_reads]
  | cons e l ih =>
    simp only [List.all_cons, Bool.and_eq_true] at hl
    obtain ⟨h1, h2, h3⟩ := ih hl.2
    obtain ⟨e1, e2, e3⟩ := quiet_event v ds e hl.1
    refine ⟨?_, ?_, ?_⟩
    · simp only [sign_calls] at h1 ⊢
      rw [List.count_cons, h1]
      simp [e1]
    · simp only [setup_failures] at h2 ⊢
      rw [List.countP_cons, h2]
      simp [e2]
    · simp only [full_reads] at h3 ⊢
      split
      · rename_i hpos
        simp only [hpos, if_true] at h3
        rw [List.count_cons, h3]
        simp [e3]
      · rfl

theorem gnutls_step_tally (sys : Sys) (be : Gnutls.Backend) (i : Nat) (b : List Byte)
    (st : St Gnutls.Vars) (ds : Nat) (hclosed : (scan st.trace).open_window = none) :
    StepTally .gnutls ds st.trace (Gnutls.iteration sys be i b st) := by
  rcases hs : scan st.trace with ⟨o, W⟩
  rw [hs] at hclosed
  have ho : o = none := hclosed
  subst ho
  unfold StepTally Gnutls.iteration write_records
  simp only [St.log, St.write_time, St.write_sig, St.set]
  rcases hres : be.privkey_sign_data2 i b with ⟨ret, sig⟩
  repeat' split
  all_goals
    simp [sign_calls, setup_failures, full_reads, scan_append, hs, Scan.step,
      windows, OnlySigning, sign_call, Event.setup_failure, setup_calls, Event.is_acquire,
      List.countP_cons]
    refine ⟨by omega, ?_⟩
    intro win hw
    first
      | exact Or.inl hw
      | (rcases hw with hw | rfl
         · exact Or.inl hw
         · exact Or.inr rfl)

set_option maxHeartbeats 1600000 in
theorem openssl_step_tally (sys : Sys) (be : Openssl.Backend) (pkey : Key) (i : Nat)
    (b : List Byte) (st : St Openssl.Vars) (ds : Nat)
    (hclosed : (scan st.trace).open_window = none) :
    StepTally .openssl ds st.trace (Openssl.iteration sys be pkey i b st) := by
  rcases hs : scan st.trace with ⟨o, W⟩
  rw [hs] at hclosed
  have ho : o = none := hclosed
  subst ho
  unfold StepTally Openssl.iteration write_records
  simp only [St.log, St.write_time, St.write_sig, St.set]
  rcases hres : be.DigestSignFinal pkey b with ⟨ret, sig⟩
  repeat' split
  all_goals
    simp [sign_calls, setup_failures, full_reads, scan_append, hs, Scan.step,
      windows, OnlySigning, sign_call, Event.setup_failure, setup_calls, Event.is_acquire,
      List.countP_cons]
    refine ⟨by omega, ?_⟩
    intro win hw
    first
      | exact Or.inl hw
      | (rcases hw with hw | rfl
         · exact Or.inl hw
         · exact Or.inr rfl)

theorem nss_step_tally (sys : Sys) (be : Nss.Backend) (privKey : Key) (i : Nat)
    (b : List Byte) (st : St Nss.Vars) (ds : Nat)
    (hclosed : (scan st.trace).open_window = none) :
    StepTally .nss ds st.trace (Nss.iteration sys be privKey i b st) := by
  rcases hs : scan st.trace with ⟨o, W⟩
  rw [hs] at hclosed
  have ho : o = none := hclosed
  subst ho
  unfold StepTally Nss.iteration write_records
  simp only [St.log, St.write_time, St.write_sig, St.set]
  repeat' split
  all_goals
    simp [sign_calls, setup_failures, full_reads, scan_append, hs, Scan.step,
      windows, OnlySigning, sign_call, Event.setup_failure, setup_calls, Event.is_acquire,
      List.countP_cons]
    refine ⟨by omega, ?_⟩
    intro win hw
    first
      | exact Or.inl hw
      | (rcases hw with hw | rfl
         · exact Or.inl hw
         · exact Or.inr rfl)

set_option maxHeartbeats 1600000 in
theorem libgcrypt_step_tally (sys : Sys) (be : Libgcrypt.Backend) (pkey : Key)
    (baseline : Int) (i : Nat) (b : List Byte) (st : St Libgcrypt.Vars) (ds : Nat)
    (hclosed : (scan st.trace).open_window = none) :
    StepTally .libgcrypt ds st.trace (Libgcrypt.iteration sys be pkey baseline i b st) := by
  rcases hs : scan st.trace with ⟨o, W⟩
  rw [hs] at hclosed
  have ho : o = none := hclosed
  subst ho
  unfold StepTally Libgcrypt.iteration write_records
  simp only [St.log, St.write_time, St.write_sig, St.set]
  repeat' split
  all_goals
    simp [sign_calls, setup_failures, full_reads, scan_append, hs, Scan.step,
      windows, OnlySigning, sign_call, Event.setup_failure, setup_calls, Event.is_acquire,
      List.countP_cons]
    refine ⟨by omega, ?_⟩
    intro win hw
    first
      | exact Or.inl hw
      | (rcases hw with hw | rfl
         · exact Or.inl hw
         · exact Or.inr rfl)

theorem step_tally (v : Variant) (w : World) (i : Nat) (b : List Byte) (st : St (VarsOf v))
    (ds : Nat) (hclosed : (scan st.trace).open_window = none) :
    StepTally v ds st.trace (body_of v w i b st) := by
  cases v
  · exact gnutls_step_tally _ _ _ _ _ _ hclosed
  · exact openssl_step_tally _ _ _ _ _ _ _ hclosed
  · exact libgcrypt_step_tally _ _ _ _ _ _ _ _ hclosed
  · exact nss_step_tally _ _ _ _ _ _ _ hclosed

theorem quiet_ext_tallied (v : Variant) (ds : Nat) (t t' : List Event) (h : QuietExt t t')
    (ht : Tallied v ds t) : Tallied v ds t' := by
  obtain ⟨l, rfl, hl⟩ := h
  obtain ⟨h1, h2, h3⟩ := quiet_counts v ds l hl
  obtain ⟨a, b, c⟩ := ht
  have hs := (quiet_foldl l hl (scan t)).1
  have e1 : sign_calls v (t ++ l) = sign_calls v t := by
    simp only [sign_calls, List.count_append] at h1 ⊢
    omega
  have e2 : setup_failures v (t ++ l) = setup_failures v t := by
    simp only [setup_failures, List.countP_append] at h2 ⊢
    omega
  have e3 : full_reads ds (t ++ l) = full_reads ds t := by
    simp only [full_reads, List.count_append] at h3 ⊢
    split <;> simp_all
  refine ⟨by omega, by omega, ?_⟩
  intro win hw
  apply c
  simpa only [windows, scan_append, hs] using hw

theorem quiet_ext_loop_head (v : Variant) (ds : Nat) (t : List Event) (h : QuietExt [] t) :
    LoopHead v ds t := by
  obtain ⟨l, hl0, hl⟩ := h
  have hl1 : l = t := by simpa using hl0.symm
  subst hl1
  obtain ⟨h1, h2, h3⟩ := quiet_counts v ds l hl
  have hs := quiet_foldl l hl (scan [])
  refine ⟨by omega, h2, ?_, ?_⟩
  · have := hs.2.mpr rfl
    simpa [scan] using this
  · intro win hw
    have hc : (scan l).closed = [] := by
      have := hs.1
      simpa [scan] using this
    simp [windows, hc] at hw

theorem loop_head_tallied (v : Variant) (ds : Nat) (t : List Event) (h : LoopHead v ds t) :
    Tallied v ds t :=
  ⟨h.1, by have := h.2.1; omega, h.2.2.2⟩

theorem read_tally (v : Variant) (ds : Nat) (t : List Event) (r : Int)
    (hclosed : (scan t).open_window = none) :
    sign_calls v (t ++ [.read r]) = sign_calls v t ∧
    setup_failures v (t ++ [.read r]) = setup_failures v t ∧
    scan (t ++ [.read r]) = scan t ∧
    full_reads ds (t ++ [.read r]) = full_reads ds t + if 0 < r ∧ r = ds then 1 else 0 := by
  refine ⟨?_, ?_, ?_, ?_⟩
  · simp [sign_calls]
  · simp [setup_failures, List.countP_cons, Event.setup_failure]
  · rcases hs : scan t with ⟨o, W⟩
    rw [hs] at hclosed
    have ho : o = none := hclosed
    subst ho
    simp [scan_append, hs, Scan.step]
  · simp only [full_reads, List.count_append, List.count_singleton]
    by_cases h : 0 < ds
    · by_cases h2 : r = ds
      · subst h2
        simp [h]
      · simp [h, h2]
    · have h0 : ds = 0 := by omega
      subst h0
      have h1 : ¬ (0 < r ∧ r = 0) := by omega
      simp [h1]

theorem harness_loop_tally {V : Type} (v : Variant) (ds : Nat)
    (body : Nat → List Byte → St V → Flow × St V)
    (hbody : ∀ i b st, (scan st.trace).open_window = none →
      StepTally v ds st.trace (body i b st)) :
    ∀ (reads : List ReadOutcome) (i : Nat) (st : St V), LoopHead v ds st.trace →
      Tallied v ds (harness_loop body ds reads i st).2.trace := by
  intro reads
  induction reads with
  | nil =>
    intro i st ⟨h1, h2, h3, h4⟩
    obtain ⟨r1, r2, r3, r4⟩ := read_tally v ds st.trace 0 h3
    simp only [harness_loop, St.log]
    refine ⟨?_, by omega, ?_⟩
    · simp at r4
      omega
    · intro win hw
      apply h4
      simpa only [windows, r3] using hw
  | cons r rest ih =>
    intro i st ⟨h1, h2, h3, h4⟩
    obtain ⟨r1, r2, r3, r4⟩ := read_tally v ds st.trace r.r_ret h3
    have hw1 : ∀ win ∈ windows (st.trace ++ [.read r.r_ret]), OnlySigning v win := by
      intro win hw
      apply h4
      simpa only [windows, r3] using hw
    simp only [harness_loop]
    by_cases hpos : r.r_ret > 0
    · simp only [hpos, if_true]
      by_cases hne : r.r_ret ≠ (ds : Int)
      · simp only [hne, ne_eq, not_false_eq_true, if_true]
        have hq : QuietExt (st.trace ++ [.read r.r_ret])
            ((st.log (.read r.r_ret)).log (.fprintf .read_less_data)).trace :=
          ⟨[.fprintf .read_less_data], rfl, rfl⟩
        refine quiet_ext_tallied v ds _ _ hq ⟨?_, by omega, hw1⟩
        have : ¬ (0 < r.r_ret ∧ r.r_ret = (ds : Int)) := fun h => hne h.2
        simp only [this, if_false] at r4
        omega
      · have heq : r.r_ret = (ds : Int) := by
          by_contra h
          exact hne h
        simp only [hne, if_false]
        have hfull : full_reads ds (st.trace ++ [.read r.r_ret]) = full_reads ds st.trace + 1 := by
          rw [r4, if_pos ⟨hpos, heq⟩]
        have hc1 : (scan (st.log (.read r.r_ret)).trace).open_window = none := by
          show (scan (st.trace ++ [.read r.r_ret])).open_window = none
          rw [r3]
          exact h3
        have hstep := hbody i r.bytes (st.log (.read r.r_ret)) hc1
        generalize body i r.bytes (st.log (.read r.r_ret)) = res at hstep
        obtain ⟨f, st'⟩ := res
        obtain ⟨s1, s2, s3, s4, s5⟩ := hstep
        simp only [St.log] at s1 s2 s3 s4 s5
        have hw2 : ∀ win ∈ windows st'.trace, OnlySigning v win := by
          intro win hw
          rcases s5 win hw with h | h
          · exact hw1 win h
          · exact h
        have ht : Tallied v ds st'.trace := ⟨by omega, by omega, hw2⟩
        cases f
        · have hok := s3 rfl
          exact ih (i + 1) st' ⟨by omega, by omega, hok.2, hw2⟩
        · exact ht
        · exact ht
        · exact ht
    · simp only [hpos, if_false]
      show Tallied v ds (st.trace ++ [.read r.r_ret])
      refine ⟨?_, by omega, hw1⟩
      have : ¬ (0 < r.r_ret ∧ r.r_ret = (ds : Int)) := fun h => hpos h.1
      simp only [this, if_false] at r4
      omega

theorem quiet_of_all (t : List Event) (h : t.all Event.quiet = true) : QuietExt [] t :=
  ⟨t, by simp, h⟩

theorem gnutls_init_quiet (sys : Sys) (be : Gnutls.Backend) :
    QuietExt [] (Gnutls.init sys be).2.trace := by
  apply quiet_of_all
  unfold Gnutls.init Gnutls.readfile
  simp only [St.log, St.set]
  cases be.key_file with
  | none =>
    simp only []
    repeat' split
    all_goals rfl
  | some content =>
    by_cases hm : sys.malloc .key_buf = true
    all_goals
      simp only [hm, Bool.not_true, Bool.not_false, if_true, if_false, Bool.false_eq_true]
      repeat' split
      all_goals rfl

theorem openssl_init_quiet (sys : Sys) (be : Openssl.Backend) :
    QuietExt [] (Openssl.init sys be).2.trace := by
  apply quiet_of_all
  unfold Openssl.init
  simp only [St.log, St.set]
  repeat' split
  all_goals rfl

theorem libgcrypt_init_quiet (sys : Sys) (be : Libgcrypt.Backend) :
    QuietExt [] (Libgcrypt.init sys be).2.trace := by
  apply quiet_of_all
  unfold Libgcrypt.init
  simp only [St.log, St.set]
  repeat' split
  all_goals rfl

theorem nss_init_quiet (sys : Sys) (be : Nss.Backend) :
    QuietExt [] (Nss.init sys be).2.trace := by
  apply quiet_of_all
  unfold Nss.init
  simp only [St.log, St.set]
  repeat' split
  all_goals rfl

theorem init_quiet (v : Variant) (w : World) : QuietExt [] (init_of v w).2.trace := by
  cases v
  · exact gnutls_init_quiet _ _
  · exact openssl_init_quiet _ _
  · exact libgcrypt_init_quiet _ _
  · exact nss_init_quiet _ _

theorem gnutls_finish_quiet (r : Flow × St Gnutls.Vars) :
    QuietExt r.2.trace (Gnutls.finish r).trace := by
  obtain ⟨f, st⟩ := r
  cases f <;> dsimp only [Gnutls.finish, Gnutls.out, St.ret, St.halt] <;>
    repeat (first
      | exact QuietExt.refl _
      | refine QuietExt.release ?_ _
      | refine QuietExt.log ?_ _ rfl
      | split)

theorem openssl_finish_quiet (r : Flow × St Openssl.Vars) :
    QuietExt r.2.trace (Openssl.finish r).trace := by
  obtain ⟨f, st⟩ := r
  cases f <;> dsimp only [Openssl.finish, Openssl.out, St.ret, St.halt] <;>
    repeat (first
      | exact QuietExt.refl _
      | refine QuietExt.release ?_ _
      | refine QuietExt.log ?_ _ rfl
      | split)

theorem libgcrypt_finish_quiet (r : Flow × St Libgcrypt.Vars) :
    QuietExt r.2.trace (Libgcrypt.finish r).trace := by
  obtain ⟨f, st⟩ := r
  cases f <;> dsimp only [Libgcrypt.finish, Libgcrypt.out, St.ret, St.halt] <;>
    repeat (first
      | exact QuietExt.refl _
      | refine QuietExt.release ?_ _
      | refine QuietExt.log ?_ _ rfl
      | split)

theorem nss_finish_quiet (r : Flow × St Nss.Vars) :
    QuietExt r.2.trace (Nss.finish r).trace := by
  obtain ⟨f, st⟩ := r
  cases f <;> dsimp only [Nss.finish, Nss.out, St.ret, St.halt] <;>
    repeat (first
      | exact QuietExt.refl _
      | refine QuietExt.release ?_ _
      | refine QuietExt.log ?_ _ rfl
      | split)

theorem finish_quiet (v : Variant) (r : Flow × St (VarsOf v)) :
    QuietExt r.2.trace (finish_of v r).trace := by
  cases v
  · exact gnutls_finish_quiet r
  · exact openssl_finish_quiet r
  · exact libgcrypt_finish_quiet r
  · exact nss_finish_quiet r

theorem run_tallied (v : Variant) (w : World) (ds : Nat) : Tallied v ds (run v w ds).trace := by
  have h0 := quiet_ext_loop_head v ds _ (init_quiet v w)
  by_cases h : (init_of v w).1 = .ok
  · rw [run_of_ok v w ds h]
    exact quiet_ext_tallied v ds _ _ (finish_quiet v _)
      (harness_loop_tally v ds (body_of v w) (fun i b st hc => step_tally v w i b st ds hc)
        w.sys.reads 0 _ h0)
  · rw [run_of_stop v w ds h]
    exact quiet_ext_tallied v ds _ _ (finish_quiet v _) (loop_head_tallied _ _ _ h0)

/-- C15, as stated, fails: when the set-up for the second block fails, the
OpenSSL and the libgcrypt program have read two full blocks and made one signing
call. -/
theorem full_block_read_without_signing_call :
    full_reads 2 (run .openssl Example.setup_fails 2).trace = 2 ∧
    sign_calls .openssl (run .openssl Example.setup_fails 2).trace = 1 ∧
    full_reads 2 (run .libgcrypt Example.setup_fails 2).trace = 2 ∧
    sign_calls .libgcrypt (run .libgcrypt Example.setup_fails 2).trace = 1 := by
  decide

/-- C15, amended: in every run of every variant the signing calls and the
reported set-up failures together are as many as the full blocks read, and at
most one set-up call fails; so a run that reads N full blocks makes N signing
calls, or N - 1 when the set-up for the last block read fails, and always N in
the GnuTLS and NSS programs, which have no set-up call.  Every measured window
holds the signing call and, apart from the record of the object that call
returns, nothing else. -/
theorem one_signing_call_per_signed_block (v : Variant) (w : World) (data_size : Nat) :
    sign_calls v (run v w data_size).trace + setup_failures v (run v w data_size).trace =
      full_reads data_size (run v w data_size).trace ∧
    setup_failures v (run v w data_size).trace ≤ 1 ∧
    (setup_calls v = [] →
      sign_calls v (run v w data_size).trace = full_reads data_size (run v w data_size).trace) ∧
    ∀ win ∈ windows (run v w data_size).trace, OnlySigning v win := by
  obtain ⟨h1, h2, h3⟩ := run_tallied v w data_size
  refine ⟨h1, h2, ?_, h3⟩
  intro hv
  have h0 : setup_failures v (run v w data_size).trace = 0 := by
    unfold setup_failures
    rw [List.countP_eq_zero]
    intro e he
    clear he
    cases e with
    | fprintf m => cases m <;> simp [Event.setup_failure, hv]
    | _ => simp [Event.setup_failure]
  omega

/-- Witness of C15, amended: the OpenSSL run in which the set-up for the second
block fails, and the GnuTLS run on the same input. -/
theorem one_signing_call_per_signed_block_witness :
    sign_calls .openssl (run .openssl Example.setup_fails 2).trace +
        setup_failures .openssl (run .openssl Example.setup_fails 2).trace =
      full_reads 2 (run .openssl Example.setup_fails 2).trace ∧
    sign_calls .gnutls (run .gnutls Example.setup_fails 2).trace =
      full_reads 2 (run .gnutls Example.setup_fails 2).trace ∧
    OnlySigning .openssl [.backend .EVP_DigestSignFinal] :=
  have h := one_signing_call_per_signed_block .openssl Example.setup_fails 2
  have g := one_signing_call_per_signed_block .gnutls Example.setup_fails 2
  ⟨h.1, g.2.2.1 rfl, h.2.2.2 _ (by decide)⟩

/-- C18, as stated, fails: in the run on two blocks in which everything
succeeds, every variant closes two measured windows and none of them holds a
digest set-up call, so the variants that time the digest set-up number 0, not 1;
the OpenSSL program calls `EVP_DigestSignInit` once per block, and its windows
hold `EVP_DigestSignFinal` alone. -/
theorem no_variant_times_digest_setup :
    ([Variant.gnutls, .openssl, .libgcrypt, .nss].filter fun v =>
      (windows (run v Example.two_blocks 2).trace).any fun win =>
        win.any Event.digest_setup).length = 0 ∧
    (∀ v ∈ [Variant.gnutls, .openssl, .libgcrypt, .nss],
      (windows (run v Example.two_blocks 2).trace).length = 2) ∧
    (run .openssl Example.two_blocks 2).trace.count (.backend .EVP_DigestSignInit) = 2 ∧
    windows (run .openssl Example.two_blocks 2).trace =
      [[.backend .EVP_DigestSignFinal], [.backend .EVP_DigestSignFinal]] := by
  decide

/-- C18, amended: no variant executes a digest set-up call inside its measured
window; in all four programs, whatever the libraries and the system do, every
window from `get_time_before` to `get_time_after` holds the signing call of the
program and no digest set-up call. -/
theorem no_window_holds_digest_setup (v : Variant) (w : World) (data_size : Nat)
    (win : List Event) (hwin : win ∈ windows (run v w data_size).trace) :
    Event.backend (sign_call v) ∈ win ∧ ∀ e ∈ win, e.digest_setup = false := by
  have h : OnlySigning v win := (run_tallied v w data_size).2.2 win hwin
  unfold OnlySigning at h
  have hmem : ∀ e, e ∈ win → e.is_acquire = false → e = .backend (sign_call v) := by
    intro e he ha
    have : e ∈ win.filter (fun e => !e.is_acquire) := by
      simp [List.mem_filter, he, ha]
    rw [h] at this
    simpa using this
  refine ⟨?_, ?_⟩
  · have : Event.backend (sign_call v) ∈ win.filter (fun e => !e.is_acquire) := by
      rw [h]
      simp
    exact (List.mem_filter.mp this).1
  · intro e he
    by_cases ha : e.is_acquire = true
    · cases e <;> simp_all [Event.is_acquire, Event.digest_setup]
    · have := hmem e he (by simpa using ha)
      subst this
      cases v <;> rfl

/-- Witness of C18, amended: the first window of the OpenSSL run on two
blocks. -/
theorem no_window_holds_digest_setup_witness :
    Event.backend .EVP_DigestSignFinal ∈ [Event.backend .EVP_DigestSignFinal] ∧
    ∀ e ∈ [Event.backend .EVP_DigestSignFinal], e.digest_setup = false :=
  no_window_holds_digest_setup .openssl Example.two_blocks 2 [.backend .EVP_DigestSignFinal]
    (by decide)

/-! ## The two output streams side by side -/

theorem records_append (a b : List Event) :
    records (a ++ b) = b.foldl Records.step (records a) := by
  simp [records, List.foldl_append]

theorem quiet_records_step (s : Records) (e : Event) (he : e.quiet = true) : s.step e = s := by
  cases e <;> simp [Event.quiet] at he <;> rfl

theorem quiet_records_foldl (l : List Event) (hl : l.all Event.quiet = true) (s : Records) :
    l.foldl Records.step s = s := by
  induction l with
  | nil => rfl
  | cons e l ih =>
    simp only [List.all_cons, Bool.and_eq_true] at hl
    rw [List.foldl_cons, quiet_records_step s e hl.1, ih hl.2]

theorem quiet_ext_records (t t' : List Event) (h : QuietExt t t') : records t' = records t := by
  obtain ⟨l, rfl, hl⟩ := h
  rw [records_append, quiet_records_foldl l hl]

theorem gnutls_step_records (sys : Sys) (be : Gnutls.Backend) (i : Nat) (b : List Byte)
    (st : St Gnutls.Vars) (h : Balanced st.trace) :
    Ledgered (Gnutls.iteration sys be i b st).2.trace ∧
    ((Gnutls.iteration sys be i b st).1 = .ok →
      Balanced (Gnutls.iteration sys be i b st).2.trace) := by
  unfold Balanced Ledgered at *
  rcases hs : records st.trace with ⟨tm, sg, fl, od⟩
  rw [hs] at h
  obtain ⟨h1, h2, h3⟩ := h
  simp only at h1 h2 h3
  subst h1 h2 h3
  unfold Gnutls.iteration write_records
  simp only [St.log, St.write_time, St.write_sig, St.set]
  repeat' split
  all_goals
    simp [records_append, hs, Records.step, *]

set_option maxHeartbeats 1600000 in
theorem openssl_step_records (sys : Sys) (be : Openssl.Backend) (pkey : Key) (i : Nat) (b : List Byte)
    (st : St Openssl.Vars) (h : Balanced st.trace) :
    Ledgered (Openssl.iteration sys be pkey i b st).2.trace ∧
    ((Openssl.iteration sys be pkey i b st).1 = .ok →
      Balanced (Openssl.iteration sys be pkey i b st).2.trace) := by
  unfold Balanced Ledgered at *
  rcases hs : records st.trace with ⟨tm, sg, fl, od⟩
  rw [hs] at h
  obtain ⟨h1, h2, h3⟩ := h
  simp only at h1 h2 h3
  subst h1 h2 h3
  unfold Openssl.iteration write_records
  simp only [St.log, St.write_time, St.write_sig, St.set]
  repeat' split
  all_goals
    simp [records_append, hs, Records.step, *]

theorem nss_step_records (sys : Sys) (be : Nss.Backend) (privKey : Key) (i : Nat) (b : List Byte)
    (st : St Nss.Vars) (h : Balanced st.trace) :
    Ledgered (Nss.iteration sys be privKey i b st).2.trace ∧
    ((Nss.iteration sys be privKey i b st).1 = .ok →
      Balanced (Nss.iteration sys be privKey i b st).2.trace) := by
  unfold Balanced Ledgered at *
  rcases hs : records st.trace with ⟨tm, sg, fl, od⟩
  rw [hs] at h
  obtain ⟨h1, h2, h3⟩ := h
  simp only at h1 h2 h3
  subst h1 h2 h3
  unfold Nss.iteration write_records
  simp only [St.log, St.write_time, St.write_sig, St.set]
  repeat' split
  all_goals
    simp [records_append, hs, Records.step, *]

set_option maxHeartbeats 1600000 in
theorem libgcrypt_step_records (sys : Sys) (be : Libgcrypt.Backend) (pkey : Key) (baseline : Int) (i : Nat) (b : List Byte)
    (st : St Libgcrypt.Vars) (h : Balanced st.trace) :
    Ledgered (Libgcrypt.iteration sys be pkey baseline i b st).2.trace ∧
    ((Libgcrypt.iteration sys be pkey baseline i b st).1 = .ok →
      Balanced (Libgcrypt.iteration sys be pkey baseline i b st).2.trace) := by
  unfold Balanced Ledgered at *
  rcases hs : records st.trace with ⟨tm, sg, fl, od⟩
  rw [hs] at h
  obtain ⟨h1, h2, h3⟩ := h
  simp only at h1 h2 h3
  subst h1 h2 h3
  unfold Libgcrypt.iteration write_records
  simp only [St.log, St.write_time, St.write_sig, St.set]
  repeat' split
  all_goals
    simp [records_append, hs, Records.step, *]

theorem step_records (v : Variant) (w : World) (i : Nat) (b : List Byte) (st : St (VarsOf v))
    (h : Balanced st.trace) :
    Ledgered (body_of v w i b st).2.trace ∧
    ((body_of v w i b st).1 = .ok → Balanced (body_of v w i b st).2.trace) := by
  cases v
  · exact gnutls_step_records _ _ _ _ _ h
  · exact openssl_step_records _ _ _ _ _ _ h
  · exact libgcrypt_step_records _ _ _ _ _ _ _ h
  · exact nss_step_records _ _ _ _ _ _ h

theorem balanced_ledgered (t : List Event) (h : Balanced t) : Ledgered t :=
  ⟨h.1, by have h1 := h.2.1; have h2 := h.2.2; omega, by have h2 := h.2.2; omega⟩

theorem harness_loop_records {V : Type} (ds : Nat)
    (body : Nat → List Byte → St V → Flow × St V)
    (hbody : ∀ i b st, Balanced st.trace →
      Ledgered (body i b st).2.trace ∧ ((body i b st).1 = .ok → Balanced (body i b st).2.trace)) :
    ∀ (reads : List ReadOutcome) (i : Nat) (st : St V), Balanced st.trace →
      Ledgered (harness_loop body ds reads i st).2.trace ∧
      ((harness_loop body ds reads i st).1 = .ok →
        Balanced (harness_loop body ds reads i st).2.trace) := by
  have hread : ∀ (st : St V) (r : Int), Balanced st.trace → Balanced (st.log (.read r)).trace := by
    intro st r h
    have : records (st.log (.read r)).trace = records st.trace := by
      simp [St.log, records_append, Records.step]
    unfold Balanced
    rw [this]
    exact h
  intro reads
  induction reads with
  | nil =>
    intro i st h
    have hb := hread st 0 h
    simp only [harness_loop]
    exact ⟨balanced_ledgered _ hb, fun _ => hb⟩
  | cons r rest ih =>
    intro i st h
    have hb := hread st r.r_ret h
    simp only [harness_loop]
    by_cases hpos : r.r_ret > 0
    · simp only [hpos, if_true]
      by_cases hne : r.r_ret ≠ (ds : Int)
      · simp only [hne, ne_eq, not_false_eq_true, if_true]
        have hq : Balanced ((st.log (.read r.r_ret)).log (.fprintf .read_less_data)).trace := by
          have : records ((st.log (.read r.r_ret)).log (.fprintf .read_less_data)).trace =
              records (st.log (.read r.r_ret)).trace := by
            simp [St.log, records_append, Records.step]
          unfold Balanced
          rw [this]
          exact hb
        exact ⟨balanced_ledgered _ hq, fun _ => hq⟩
      · simp only [hne, if_false]
        have hstep := hbody i r.bytes (st.log (.read r.r_ret)) hb
        generalize body i r.bytes (st.log (.read r.r_ret)) = res at hstep
        obtain ⟨f, st'⟩ := res
        obtain ⟨s1, s2⟩ := hstep
        cases f
        · exact ih (i + 1) st' (s2 rfl)
        · exact ⟨s1, fun hf => by simp at hf⟩
        · exact ⟨s1, fun hf => by simp at hf⟩
        · exact ⟨s1, fun hf => by simp at hf⟩
    · simp only [hpos, if_false]
      exact ⟨balanced_ledgered _ hb, fun _ => hb⟩

theorem run_records (v : Variant) (w : World) (ds : Nat) :
    Ledgered (run v w ds).trace ∧
    ((records (run v w ds).trace).failed = 1 → (run v w ds).exit ≠ .returned 0) := by
  have h0 : Balanced (init_of v w).2.trace := by
    have := quiet_ext_records _ _ (init_quiet v w)
    unfold Balanced
    rw [this]
    exact ⟨rfl, rfl, rfl⟩
  by_cases h : (init_of v w).1 = .ok
  · rw [run_of_ok v w ds h]
    have hl := harness_loop_records ds (body_of v w) (fun i b st hb => step_records v w i b st hb)
      w.sys.reads 0 _ h0
    generalize harness_loop (body_of v w) ds w.sys.reads 0 (init_of v w).2 = res at hl
    obtain ⟨f, st⟩ := res
    have hq := quiet_ext_records _ _ (finish_quiet v (f, st))
    unfold Ledgered at *
    rw [hq]
    refine ⟨hl.1, ?_⟩
    intro hfail
    apply finish_not_ok
    intro hf
    have := (hl.2 hf).2.2
    simp only at this hfail
    omega
  · rw [run_of_stop v w ds h]
    have hq := quiet_ext_records _ _ (finish_quiet v (init_of v w))
    unfold Ledgered
    rw [hq]
    refine ⟨balanced_ledgered _ h0, ?_⟩
    intro hfail
    have := h0.2.2
    omega

/-- C22: in every run of every variant the timing records written (the `write`
calls on `time_fd` that returned a positive count) are as many as the signature
records written or one more, and one more exactly when a `write` of a signature
has returned `0` or less, after which the run does not exit with status 0; a
timing record is only written when the counts are equal and a signature only
when the timing records lead by one, so the timing record of a block always
comes before its signature.  (Of a run that leaves defined behaviour the trace
is the part up to that point.) -/
theorem timing_records_lead_by_at_most_one (v : Variant) (w : World) (data_size : Nat) :
    ((records (run v w data_size).trace).time = (records (run v w data_size).trace).sig ∨
      (records (run v w data_size).trace).time =
        (records (run v w data_size).trace).sig + 1) ∧
    ((records (run v w data_size).trace).time =
        (records (run v w data_size).trace).sig + 1 ↔
      (records (run v w data_size).trace).failed = 1) ∧
    ((records (run v w data_size).trace).failed = 1 →
      (run v w data_size).exit ≠ .returned 0) ∧
    (records (run v w data_size).trace).ordered = true := by
  obtain ⟨⟨h1, h2, h3⟩, h4⟩ := run_records v w data_size
  refine ⟨by omega, by omega, h4, h1⟩

/-- Witness of C22: the NSS run in which the second signature write fails, and
the GnuTLS run in which nothing fails. -/
theorem timing_records_lead_by_at_most_one_witness :
    (records (run .nss Example.sig_write_fails 2).trace).time =
      (records (run .nss Example.sig_write_fails 2).trace).sig + 1 ∧
    (run .nss Example.sig_write_fails 2).exit ≠ .returned 0 ∧
    (records (run .gnutls Example.two_blocks 2).trace).ordered = true ∧
    records (run .nss Example.sig_write_fails 2).trace =
      { time := 2, sig := 1, failed := 1, ordered := true } ∧
    records (run .gnutls Example.two_blocks 2).trace =
      { time := 2, sig := 2, failed := 0, ordered := true } :=
  have h := timing_records_lead_by_at_most_one .nss Example.sig_write_fails 2
  have g := timing_records_lead_by_at_most_one .gnutls Example.two_blocks 2
  ⟨h.2.1.mpr (by decide), h.2.2.1 (by decide), g.2.2.2, by decide, by decide⟩

/-! ## The key description of the libgcrypt program: aborts -/

theorem fgets_take_ne_nil (n : Nat) (c : Char) (cs : List Char) :
    Libgcrypt.fgets_take (n + 1) (c :: cs) ≠ [] := by
  simp only [Libgcrypt.fgets_take]
  split <;> simp

theorem read_line_loop_defined : ∀ (fuel : Nat) (fp : List Char), fp.length < fuel →
    Libgcrypt.read_line_loop fuel fp ≠ .undefined := by
  intro fuel
  induction fuel with
  | zero => intro fp h; omega
  | succ fuel ih =>
    intro fp h
    cases fp with
    | nil => simp [Libgcrypt.read_line_loop, Libgcrypt.fgets, Libgcrypt.fgets_take]
    | cons c cs =>
      have hbuf := fgets_take_ne_nil 4094 c cs
      have hlen : 0 < (Libgcrypt.fgets_take 4095 (c :: cs)).length :=
        List.length_pos.mpr hbuf
      have hrest : ((c :: cs).drop (Libgcrypt.fgets_take 4095 (c :: cs)).length).length
          < fuel := by
        rw [List.length_drop]
        simp only [List.length_cons] at h ⊢
        omega
      have := ih _ hrest
      simp only [Libgcrypt.read_line_loop, Libgcrypt.fgets, show 4096 - 1 = 4095 from rfl,
        if_neg hbuf]
      split
      · simp
      · split
        · exact this
        · simp

theorem read_line_defined (fp : List Char) : Libgcrypt.read_line fp ≠ .undefined :=
  read_line_loop_defined _ fp (Nat.lt_succ_self _)

theorem read_hex_ne_abort (len : Nat) : ∀ (n : Nat) (value : List Char) (pos : Nat),
    value.length ≤ n → Libgcrypt.read_hex len value pos ≠ .abort := by
  intro n
  induction n with
  | zero =>
    intro value pos h
    have : value = [] := List.length_eq_zero.mp (by omega)
    subst this
    simp [Libgcrypt.read_hex]
  | succ n ih =>
    intro value pos h
    match value, h with
    | [], _ => simp [Libgcrypt.read_hex]
    | [c], _ =>
      simp only [Libgcrypt.read_hex]
      split
      · simp
      · split <;> simp
    | c :: d :: s, h =>
      have hs := ih s (pos + 1) (by simp at h; omega)
      simp only [Libgcrypt.read_hex]
      split
      · simp
      · split
        · simp
        · split
          · simp
          · rename_i stop hstop
            intro hab
            rw [hab] at hs
            exact hs rfl

theorem read_param_abort_iff (malloc_ok : Bool) (fp : List Char)
    (mode : Libgcrypt.READ_PARAM_MODE) (expected : List Char) :
    Libgcrypt.read_param malloc_ok fp mode expected = .abort ↔
      Libgcrypt.read_line fp = .abort ∨
      (∃ rest, Libgcrypt.read_line fp = .ok (none, rest)) ∨
      ∃ line rest, Libgcrypt.read_line fp = .ok (some line, rest) ∧
        (¬ expected <+: line ∨ line.get? expected.length ≠ some '=' ∨ malloc_ok = false) := by
  unfold Libgcrypt.read_param
  cases hl : Libgcrypt.read_line fp with
  | abort => simp
  | undefined => simp
  | ok res =>
    obtain ⟨o, rest⟩ := res
    cases o with
    | none => simp
    | some ln =>
      simp only [List.get?_eq_getElem?]
      by_cases h1 : expected <+: ln
      swap
      · simp [h1]
      by_cases h2 : ln[expected.length]? = some '='
      swap
      · simp [h1, h2]
      cases malloc_ok with
      | false => simp [h1, h2]
      | true =>
        cases mode with
        | READ_STRING => simp [h1, h2]
        | READ_HEX =>
          have hne := read_hex_ne_abort
            ((ln.drop (expected.length + 1)).length / Libgcrypt.READ_PARAM_MODE.READ_HEX.val)
            _ (ln.drop (expected.length + 1)) 0 (Nat.le_refl _)
          have hpre : expected.isPrefixOf ln = true := List.isPrefixOf_iff_prefix.mpr h1
          simp only [hpre, h2, not_true_eq_false, if_false, ne_eq, Bool.not_true,
            Bool.false_eq_true]
          constructor
          · intro h
            exfalso
            apply hne
            revert h
            cases Libgcrypt.read_hex
              ((ln.drop (expected.length + 1)).length / Libgcrypt.READ_PARAM_MODE.READ_HEX.val)
              (ln.drop (expected.length + 1)) 0 <;> simp
          · intro h
            rcases h with h | ⟨_, h⟩ | ⟨l, r, h, h'⟩
            · cases h
            · cases h
            · simp only [Libgcrypt.Outcome.ok.injEq, Prod.mk.injEq, Option.some.injEq] at h
              obtain ⟨rfl, rfl⟩ := h
              rcases h' with h' | h' | h'
              · exact absurd h1 h'
              · exact absurd h2 h'
              · cases h'

theorem read_param_ok (malloc_ok : Bool) (fp : List Char) (mode : Libgcrypt.READ_PARAM_MODE)
    (expected : List Char) (x : List Byte × Nat) (rest : List Char)
    (h : Libgcrypt.read_param malloc_ok fp mode expected = .ok (x, rest)) :
    ∃ value, Libgcrypt.read_line fp = .ok (some (expected ++ '=' :: value), rest) := by
  unfold Libgcrypt.read_param at h
  cases hl : Libgcrypt.read_line fp with
  | abort => simp [hl] at h
  | undefined => simp [hl] at h
  | ok res =>
    obtain ⟨o, rest'⟩ := res
    cases o with
    | none => simp [hl] at h
    | some ln =>
      simp only [hl, List.get?_eq_getElem?] at h
      by_cases h1 : expected <+: ln
      swap
      · simp [h1] at h
      by_cases h2 : ln[expected.length]? = some '='
      swap
      · simp [h1, h2] at h
      have hpre : expected.isPrefixOf ln = true := List.isPrefixOf_iff_prefix.mpr h1
      simp only [hpre, h2, not_true_eq_false, if_false, ne_eq] at h
      have hrest : rest' = rest := by
        cases malloc_ok
        · simp at h
        · cases mode
          · simp at h
            exact h.2
          · simp only [Bool.not_true, Bool.false_eq_true, if_false] at h
            revert h
            cases Libgcrypt.read_hex
              ((ln.drop (expected.length + 1)).length / Libgcrypt.READ_PARAM_MODE.READ_HEX.val)
              (ln.drop (expected.length + 1)) 0 <;> simp
      subst hrest
      obtain ⟨t, rfl⟩ := h1
      rw [List.getElem?_append_right (Nat.le_refl _)] at h2
      cases t with
      | nil => simp at h2
      | cons c value =>
        simp at h2
        subst h2
        exact ⟨value, rfl⟩

theorem read_private_key_ok (sys : Sys) (be : Libgcrypt.Backend) (text rest : List Char)
    (key : Key) (h : Libgcrypt.read_private_key sys be text = .ok (key, rest)) :
    ∃ curve r1 d, Libgcrypt.read_line text = .ok (some ("curve".toList ++ '=' :: curve), r1) ∧
      Libgcrypt.read_line r1 = .ok (some ("d".toList ++ '=' :: d), rest) := by
  unfold Libgcrypt.read_private_key at h
  cases h1 : Libgcrypt.read_param (sys.malloc .curve) text .READ_STRING "curve".toList with
  | abort => rw [h1] at h; cases h
  | undefined => rw [h1] at h; cases h
  | ok res1 =>
    obtain ⟨⟨c1, n1⟩, r1⟩ := res1
    rw [h1] at h
    dsimp only at h
    cases h2 : Libgcrypt.read_param (sys.malloc .d) r1 .READ_HEX "d".toList with
    | abort => rw [h2] at h; cases h
    | undefined => rw [h2] at h; cases h
    | ok res2 =>
      obtain ⟨⟨c2, n2⟩, r2⟩ := res2
      rw [h2] at h
      dsimp only at h
      have hr : r2 = rest := by
        revert h
        cases be.sexp_build_key c1 c2 <;> simp
      subst hr
      obtain ⟨curve, hc⟩ := read_param_ok _ _ _ _ _ _ h1
      obtain ⟨d, hd⟩ := read_param_ok _ _ _ _ _ _ h2
      exact ⟨curve, r1, d, hc, hd⟩

theorem libgcrypt_init_ok_parts (sys : Sys) (be : Libgcrypt.Backend) :
    (Libgcrypt.init sys be).1 = .ok →
      ∃ text key rest x r3, be.key_file = some text ∧
        Libgcrypt.read_private_key sys be text = .ok (key, rest) ∧
        Libgcrypt.read_param (sys.malloc .baseline_str) rest .READ_STRING "b".toList =
          .ok (x, r3) := by
  unfold Libgcrypt.init
  simp only [St.log, St.set]
  repeat' split
  all_goals first
    | (intro h; exact absurd h (by decide))
    | (intro h; exact Flow.noConfusion h)
    | (intro _; exact ⟨_, _, _, _, _, by assumption, by assumption, by assumption⟩)

/-- C21, as stated, fails: the next effective line is `curve=x`, with the
expected tag and the `=`, yet `read_param` aborts because its `malloc` returns
`NULL`; and a line `b=3` without a newline makes it abort inside `read_line`. -/
theorem read_param_aborts_for_other_reasons :
    Libgcrypt.read_line "curve=x\n".toList = .ok (some "curve=x".toList, []) ∧
    Libgcrypt.read_param false "curve=x\n".toList .READ_STRING "curve".toList = .abort ∧
    Libgcrypt.read_param true "b=3".toList .READ_STRING "b".toList = .abort := by
  decide

/-- C21, amended: `read_line` ends in one of three ways, `abort()`, `NULL` or a
line, and `read_param` aborts if and only if `read_line` aborts (no newline in
what it reads), or there is no further effective line, or the line does not begin
with the expected tag, or the character after the tag is not `=`, or `malloc`
returns `NULL`.  So INIT of the libgcrypt program gets through only if the
effective lines of the key description start with `curve=...`, `d=...` and
`b=...`, in that order. -/
theorem read_param_aborts_iff (malloc_ok : Bool) (fp : List Char)
    (mode : Libgcrypt.READ_PARAM_MODE) (expected : List Char) (sys : Sys)
    (be : Libgcrypt.Backend) :
    Libgcrypt.read_line fp ≠ .undefined ∧
    (Libgcrypt.read_param malloc_ok fp mode expected = .abort ↔
      Libgcrypt.read_line fp = .abort ∨
      (∃ rest, Libgcrypt.read_line fp = .ok (none, rest)) ∨
      ∃ line rest, Libgcrypt.read_line fp = .ok (some line, rest) ∧
        (¬ expected <+: line ∨ line.get? expected.length ≠ some '=' ∨ malloc_ok = false)) ∧
    ((Libgcrypt.init sys be).1 = .ok →
      ∃ text curve r1 d r2 b r3, be.key_file = some text ∧
        Libgcrypt.read_line text = .ok (some ("curve".toList ++ '=' :: curve), r1) ∧
        Libgcrypt.read_line r1 = .ok (some ("d".toList ++ '=' :: d), r2) ∧
        Libgcrypt.read_line r2 = .ok (some ("b".toList ++ '=' :: b), r3)) := by
  refine ⟨read_line_defined fp, read_param_abort_iff malloc_ok fp mode expected, ?_⟩
  intro h
  obtain ⟨text, key, rest, x, r3, hfile, hkey, hb⟩ := libgcrypt_init_ok_parts sys be h
  obtain ⟨curve, r1, d, hc, hd⟩ := read_private_key_ok sys be text rest key hkey
  obtain ⟨b, hb'⟩ := read_param_ok _ _ _ _ _ _ hb
  exact ⟨text, curve, r1, d, rest, b, r3, hfile, hc, hd, hb'⟩

/-- Witness of C21, amended: a key description that starts with the `d` line
makes the `read_param` for `curve` abort, and the example key description has
the three lines in order. -/
theorem read_param_aborts_iff_witness :
    Libgcrypt.read_param true "d=0A\ncurve=x\n".toList .READ_STRING "curve".toList = .abort ∧
    ∃ text curve r1 d r2 b r3, Example.libgcrypt.key_file = some text ∧
      Libgcrypt.read_line text = .ok (some ("curve".toList ++ '=' :: curve), r1) ∧
      Libgcrypt.read_line r1 = .ok (some ("d".toList ++ '=' :: d), r2) ∧
      Libgcrypt.read_line r2 = .ok (some ("b".toList ++ '=' :: b), r3) :=
  have h := read_param_aborts_iff true "d=0A\ncurve=x\n".toList .READ_STRING "curve".toList
    (Example.sys []) Example.libgcrypt
  ⟨h.2.1.mpr (Or.inr (Or.inr ⟨"d=0A".toList, "curve=x\n".toList, by decide,
      Or.inl (by decide)⟩)), h.2.2 (by decide)⟩

/-- C23: after lines that `read_line` skips, when what it reads next is not empty
and has no newline among its first 4095 characters, `read_line` calls `abort()`
instead of returning the line, and so does every `read_param`; in particular,
when `read_private_key` has read the `curve` and `d` lines and what is left of the
key description is such a text (a `b` line without a newline), INIT of the
libgcrypt program does not get through, and the run ends in `abort()` when the
files can be opened and memory is available. -/
theorem read_line_aborts_without_newline (skipped : List (List Char)) (tail : List Char)
    (hskip : ∀ l ∈ skipped, (l = [] ∨ l.head? = some '#') ∧ Libgcrypt.Fits l)
    (hne : tail ≠ []) (hnl : '\n' ∉ tail.take 4095) :
    Libgcrypt.read_line (Libgcrypt.terminated skipped ++ tail) = .abort ∧
    (∀ (malloc_ok : Bool) (mode : Libgcrypt.READ_PARAM_MODE) (expected : List Char),
      Libgcrypt.read_param malloc_ok (Libgcrypt.terminated skipped ++ tail) mode expected =
        .abort) ∧
    ∀ (sys : Sys) (be : Libgcrypt.Backend) (data_size : Nat) (text : List Char) (key : Key),
      be.key_file = some text →
      Libgcrypt.read_private_key sys be text =
        .ok (key, Libgcrypt.terminated skipped ++ tail) →
      (Libgcrypt.init sys be).1 ≠ .ok ∧
      (sys.open_in = true → sys.open_out = true → sys.open_time = true →
        (∀ r, sys.malloc r = true) → (Libgcrypt.main sys be data_size).exit = .aborted) := by
  have hline : Libgcrypt.read_line (Libgcrypt.terminated skipped ++ tail) = .abort := by
    obtain ⟨fuel, hf⟩ := read_line_fuel skipped tail
    unfold Libgcrypt.read_line
    rw [hf, read_line_loop_skip _ _ hskip, read_line_loop_abort _ _ hne hnl]
  have hparam : ∀ (malloc_ok : Bool) (mode : Libgcrypt.READ_PARAM_MODE) (expected : List Char),
      Libgcrypt.read_param malloc_ok (Libgcrypt.terminated skipped ++ tail) mode expected =
        .abort :=
    fun m mode expected => (read_param_abort_iff m _ mode expected).mpr (Or.inl hline)
  refine ⟨hline, hparam, ?_⟩
  intro sys be ds text key hfile hkey
  refine ⟨?_, ?_⟩
  · intro hok
    obtain ⟨text', key', rest, x, r3, hfile', hkey', hb⟩ := libgcrypt_init_ok_parts sys be hok
    rw [hfile] at hfile'
    cases hfile'
    rw [hkey] at hkey'
    cases hkey'
    rw [hparam] at hb
    cases hb
  · intro hin hout htime hmalloc
    exact (libgcrypt_key_aborts sys be ds hin hout htime hmalloc
      ⟨text, hfile, Or.inr ⟨key, _, hkey, hparam _ _ _⟩⟩).1

/-- Witness of C23: the key description whose `b` line has no newline. -/
theorem read_line_aborts_without_newline_witness :
    Libgcrypt.read_line "b=3".toList = .abort ∧
    (Libgcrypt.init (Example.sys []) Example.unterminated_key).1 ≠ .ok ∧
    (Libgcrypt.main (Example.sys []) Example.unterminated_key 2).exit = .aborted :=
  have h := read_line_aborts_without_newline [] "b=3".toList (by decide) (by decide)
    (by decide)
  have g := h.2.2 (Example.sys []) Example.unterminated_key 2
    "curve=NIST P-256\nd=0A1b\nb=3".toList 47 rfl (by decide)
  ⟨h.1, g.1, g.2 rfl rfl rfl (fun _ => rfl)⟩

/-! ## The hexadecimal decode loop of read_param -/

theorem hex_loop_rounds : ∀ (n : Nat) (value : List Char) (s pos : Nat), value.length ≤ n →
    (Libgcrypt.hex_loop value s pos).1.length = (value.length + 1) / 2 ∧
    (Libgcrypt.hex_loop value s pos).2 = s + 2 * ((value.length + 1) / 2) ∧
    ∀ j, j < (value.length + 1) / 2 →
      (Libgcrypt.hex_loop value s pos).1.get? j =
        some ⟨s + 2 * j, pos + j, Libgcrypt.sscanf_2hhx (value.drop (2 * j))⟩ := by
  intro n
  induction n with
  | zero =>
    intro value s pos h
    have : value = [] := List.length_eq_zero.mp (by omega)
    subst this
    refine ⟨rfl, rfl, ?_⟩
    intro j hj
    simp at hj
  | succ n ih =>
    intro value s pos h
    match value, h with
    | [], _ =>
      refine ⟨rfl, rfl, ?_⟩
      intro j hj
      simp at hj
    | [c], _ =>
      refine ⟨by simp [Libgcrypt.hex_loop], by simp [Libgcrypt.hex_loop], ?_⟩
      intro j hj
      have : j = 0 := by simp at hj; omega
      subst this
      simp [Libgcrypt.hex_loop]
    | c :: d :: rest, h =>
      obtain ⟨h1, h2, h3⟩ := ih rest (s + 2) (pos + 1) (by simp at h; omega)
      have hlen : ((c :: d :: rest).length + 1) / 2 = (rest.length + 1) / 2 + 1 := by
        simp only [List.length_cons]
        omega
      simp only [Libgcrypt.hex_loop]
      refine ⟨?_, ?_, ?_⟩
      · rw [hlen, List.length_cons, h1]
      · rw [hlen, h2]
        omega
      · intro j hj
        rw [hlen] at hj
        cases j with
        | zero => rfl
        | succ k =>
          have := h3 k (by omega)
          rw [List.get?_cons_succ, this]
          have e : 2 * (k + 1) = 2 * k + 1 + 1 := by omega
          rw [e, List.drop_succ_cons, List.drop_succ_cons]
          congr 2 <;> omega

theorem read_hex_ok_even (len : Nat) : ∀ (n : Nat) (value : List Char) (pos : Nat)
    (bytes : List Byte), value.length ≤ n →
    Libgcrypt.read_hex len value pos = .ok bytes → value.length % 2 = 0 := by
  intro n
  induction n with
  | zero =>
    intro value pos bytes h _
    have : value = [] := List.length_eq_zero.mp (by omega)
    subst this
    rfl
  | succ n ih =>
    intro value pos bytes h hok
    match value, h with
    | [], _ => rfl
    | [c], _ =>
      simp only [Libgcrypt.read_hex] at hok
      split at hok
      · cases hok
      · split at hok <;> cases hok
    | c :: d :: rest, h =>
      simp only [Libgcrypt.read_hex] at hok
      split at hok
      · cases hok
      · split at hok
        · cases hok
        · have key : ∀ b, Libgcrypt.read_hex len rest (pos + 1) = .ok b →
              rest.length % 2 = 0 :=
            fun b hb => ih rest (pos + 1) b (by simp at h; omega) hb
          cases hr : Libgcrypt.read_hex len rest (pos + 1) with
          | ok b =>
            have := key b hr
            simp only [List.length_cons]
            omega
          | abort => rw [hr] at hok; cases hok
          | undefined => rw [hr] at hok; cases hok

theorem sscanf_2hhx_at_pair (value : List Char) (j : Nat) (hj : 2 * j + 2 ≤ value.length)
    (hhex : ∀ c ∈ value, Libgcrypt.hex_digit c ≠ none) :
    Libgcrypt.sscanf_2hhx (value.drop (2 * j)) ≠ none := by
  have hlen : (value.drop (2 * j)).length = value.length - 2 * j := List.length_drop _ _
  have hsub : ∀ c ∈ value.drop (2 * j), Libgcrypt.hex_digit c ≠ none :=
    fun c hc => hhex c (List.mem_of_mem_drop hc)
  match hd : value.drop (2 * j), hlen, hsub with
  | [], hlen, _ => simp at hlen; omega
  | [_], hlen, _ => simp at hlen; omega
  | c1 :: c2 :: rest, _, hsub =>
    rw [sscanf_2hhx_digits c1 c2 rest (hsub c1 (by simp)) (hsub c2 (by simp))]
    simp

/-- C24, as stated, fails: the value `zz` has an even number of characters and
the loop stays inside it, but its one `sscanf` matches no hexadecimal digit and
stores nothing, so no byte of the 1-byte buffer is written. -/
theorem even_value_without_stored_bytes :
    "zz".toList.length % 2 = 0 ∧ "zz".toList.length / 2 = 1 ∧
    Libgcrypt.hex_loop "zz".toList 0 0 = ([⟨0, 0, none⟩], 2) ∧
    Libgcrypt.read_hex 1 "zz".toList 0 = .undefined := by
  decide

/-- C24, amended: on a value of `n` characters the `READ_HEX` loop of `read_param`
makes `(n + 1) / 2` rounds, round `j` reading at offset `2 * j` and handing
buffer index `j` to `sscanf`.  It ends at the terminator after exactly `n / 2`
rounds, one per byte of the buffer of `len = n / 2` bytes, if and only if `n` is
even; every round then stores a byte when all characters are hexadecimal
digits.  For odd `n` there is a round more than the buffer has bytes, with
index `n / 2`, and `s += 2` then steps over the terminator to offset `n + 1`. -/
theorem decode_loop_fits_iff_even (value : List Char) :
    (Libgcrypt.hex_loop value 0 0).1.length = (value.length + 1) / 2 ∧
    (∀ j, j < (value.length + 1) / 2 →
      (Libgcrypt.hex_loop value 0 0).1.get? j =
        some ⟨2 * j, j, Libgcrypt.sscanf_2hhx (value.drop (2 * j))⟩) ∧
    (((Libgcrypt.hex_loop value 0 0).2 = value.length ∧
        (Libgcrypt.hex_loop value 0 0).1.length = value.length / 2) ↔
      value.length % 2 = 0) ∧
    (value.length % 2 = 0 → (∀ c ∈ value, Libgcrypt.hex_digit c ≠ none) →
      ∀ round ∈ (Libgcrypt.hex_loop value 0 0).1, round.stored ≠ none) ∧
    (value.length % 2 = 1 →
      (Libgcrypt.hex_loop value 0 0).1.length = value.length / 2 + 1 ∧
      (Libgcrypt.hex_loop value 0 0).1.get? (value.length / 2) =
        some ⟨value.length - 1, value.length / 2,
          Libgcrypt.sscanf_2hhx (value.drop (value.length - 1))⟩ ∧
      (Libgcrypt.hex_loop value 0 0).2 = value.length + 1 ∧
      Libgcrypt.read_hex (value.length / 2) value 0 = .undefined) := by
  obtain ⟨h1, h2, h3⟩ := hex_loop_rounds value.length value 0 0 (Nat.le_refl _)
  have h3' : ∀ j, j < (value.length + 1) / 2 →
      (Libgcrypt.hex_loop value 0 0).1.get? j =
        some ⟨2 * j, j, Libgcrypt.sscanf_2hhx (value.drop (2 * j))⟩ := by
    intro j hj
    have := h3 j hj
    simpa using this
  refine ⟨h1, h3', ?_, ?_, ?_⟩
  · rw [h1, h2]
    constructor
    · intro h
      omega
    · intro h
      omega
  · intro heven hhex round hmem
    obtain ⟨j, hj⟩ := List.mem_iff_get?.mp hmem
    have hlt : j < (Libgcrypt.hex_loop value 0 0).1.length := by
      rw [List.get?_eq_some] at hj
      exact hj.1
    rw [h1] at hlt
    rw [h3' j hlt] at hj
    cases hj
    exact sscanf_2hhx_at_pair value j (by omega) hhex
  · intro hodd
    refine ⟨by rw [h1]; omega, ?_, by rw [h2]; omega, ?_⟩
    · rw [h3' (value.length / 2) (by omega)]
      have e : 2 * (value.length / 2) = value.length - 1 := by omega
      rw [e]
    · cases hr : Libgcrypt.read_hex (value.length / 2) value 0 with
      | ok bytes =>
        have := read_hex_ok_even _ _ value 0 bytes (Nat.le_refl _) hr
        omega
      | abort => exact absurd hr (read_hex_ne_abort _ _ value 0 (Nat.le_refl _))
      | undefined => rfl

/-- Witness of C24, amended: the values `0aF1` and `0aF`. -/
theorem decode_loop_fits_iff_even_witness :
    (Libgcrypt.hex_loop "0aF1".toList 0 0).2 = 4 ∧
    (Libgcrypt.hex_loop "0aF1".toList 0 0).1.length = 2 ∧
    (∀ round ∈ (Libgcrypt.hex_loop "0aF1".toList 0 0).1, round.stored ≠ none) ∧
    (Libgcrypt.hex_loop "0aF".toList 0 0).1.length = 2 ∧
    (Libgcrypt.hex_loop "0aF".toList 0 0).1.get? 1 = some ⟨2, 1, some 15⟩ ∧
    (Libgcrypt.hex_loop "0aF".toList 0 0).2 = 4 :=
  have h := decode_loop_fits_iff_even "0aF1".toList
  have g := (decode_loop_fits_iff_even "0aF".toList).2.2.2.2 (by decide)
  ⟨(h.2.2.1.mpr (by decide)).1, (h.2.2.1.mpr (by decide)).2,
    h.2.2.2.1 (by decide) (by decide), g.1, g.2.1.trans (by decide), g.2.2.1⟩

/-! ## A component longer than the field -/

theorem pack_unfolded (len : Nat) (p : List Byte) :
    Libgcrypt.pack len p =
      if p.length = len then .ok p
      else if Libgcrypt.size_t_sub len p.length > len then .undefined
      else .ok (List.replicate (Libgcrypt.size_t_sub len p.length) 0 ++ p) :=
  rfl

theorem pack_oversized (len : Nat) (p : List Byte) (hlen : len < 2 ^ 64)
    (hn : p.length < 2 ^ 64) (hgt : len < p.length) :
    Libgcrypt.size_t_sub len p.length = 2 ^ 64 - (p.length - len) ∧
    len < Libgcrypt.size_t_sub len p.length ∧ Libgcrypt.pack len p = .undefined := by
  have h1 : Libgcrypt.size_t_sub len p.length = 2 ^ 64 - (p.length - len) := by
    unfold Libgcrypt.size_t_sub
    omega
  have h2 : len < Libgcrypt.size_t_sub len p.length := by
    rw [h1]
    omega
  refine ⟨h1, h2, ?_⟩
  rw [pack_unfolded, if_neg (by omega), if_pos h2]

theorem pack_ok_le (len : Nat) (p out : List Byte) (hlen : len < 2 ^ 64)
    (hn : p.length < 2 ^ 64) (h : Libgcrypt.pack len p = .ok out) : p.length ≤ len := by
  by_contra hgt
  rw [(pack_oversized len p hlen hn (by omega)).2.2] at h
  cases h

/-- C25: for a component of natural length `n > len` (both `size_t` values) the
length of the zero fill, `len - n` on `size_t`, is `2^64 - (n - len)`, which is
more than the `len` bytes of the component buffer, so `memset` and `memcpy` are
asked to write outside it: the behaviour of `get_signature_from_expression` is
undefined, for an oversized `r` and for an oversized `s` alike; and whenever the
function returns a signature, both components have `n <= len`. -/
theorem oversized_component_is_undefined (len : Nat) (p : List Byte) (hlen : len < 2 ^ 64)
    (hn : p.length < 2 ^ 64) (hgt : len < p.length) :
    Libgcrypt.size_t_sub len p.length = 2 ^ 64 - (p.length - len) ∧
    len < Libgcrypt.size_t_sub len p.length ∧
    (Libgcrypt.pack len p =
      if p.length = len then .ok p
      else if Libgcrypt.size_t_sub len p.length > len then .undefined
      else .ok (List.replicate (Libgcrypt.size_t_sub len p.length) 0 ++ p)) ∧
    Libgcrypt.pack len p = .undefined ∧
    (∀ (sys : Sys) (i : Nat) (s : Option (List Byte)), sys.malloc (.out_r i) = true →
      Libgcrypt.get_signature_from_expression sys i ⟨some (some ⟨some p, s⟩)⟩ len =
        .undefined) ∧
    (∀ (sys : Sys) (i : Nat) (r : List Byte), r.length ≤ len →
      sys.malloc (.out_r i) = true → sys.malloc (.out_s i) = true →
      Libgcrypt.get_signature_from_expression sys i ⟨some (some ⟨some r, some p⟩)⟩ len =
        .undefined) ∧
    ∀ (sys : Sys) (i : Nat) (r s sig : List Byte), r.length < 2 ^ 64 → s.length < 2 ^ 64 →
      Libgcrypt.get_signature_from_expression sys i ⟨some (some ⟨some r, some s⟩)⟩ len =
        .ok (some sig) →
      r.length ≤ len ∧ s.length ≤ len := by
  obtain ⟨h1, h2, h3⟩ := pack_oversized len p hlen hn hgt
  refine ⟨h1, h2, pack_unfolded len p, h3, ?_, ?_, ?_⟩
  · intro sys i s hm
    simp [Libgcrypt.get_signature_from_expression, Libgcrypt.component, hm, h3]
  · intro sys i r hr hm1 hm2
    simp [Libgcrypt.get_signature_from_expression, Libgcrypt.component, hm1, hm2, h3,
      pack_of_le len r hlen hr]
  · intro sys i r s sig hr hs hok
    obtain ⟨r', s', out_r, out_s, hsexp, hpr, hps, _⟩ :=
      get_signature_ok sys i _ len sig hok
    simp only [Option.some.injEq, Libgcrypt.Ecdsa.mk.injEq] at hsexp
    obtain ⟨rfl, rfl⟩ := hsexp
    exact ⟨pack_ok_le len _ out_r hlen hr hpr, pack_ok_le len _ out_s hlen hs hps⟩

/-- Witness of C25: a component of 4 bytes for a field of 3. -/
theorem oversized_component_is_undefined_witness :
    Libgcrypt.size_t_sub 3 4 = 2 ^ 64 - 1 ∧
    Libgcrypt.pack 3 [1, 2, 3, 4] = .undefined ∧
    Libgcrypt.get_signature_from_expression (Example.sys []) 0
      ⟨some (some ⟨some [1, 2, 3, 4], some [47]⟩)⟩ 3 = .undefined ∧
    Libgcrypt.get_signature_from_expression (Example.sys []) 0
      ⟨some (some ⟨some [47], some [1, 2, 3, 4]⟩)⟩ 3 = .undefined :=
  have h := oversized_component_is_undefined 3 [1, 2, 3, 4] (by decide) (by decide)
    (by decide)
  ⟨h.1, h.2.2.2.1, h.2.2.2.2.1 (Example.sys []) 0 (some [47]) rfl,
    h.2.2.2.2.2.1 (Example.sys []) 0 [47] (by decide) rfl rfl⟩

end Minerva
